import Mathlib

/-!
Verification development for the satpy CF writer
(src/satpy/writers/cf_writer.py).

Each Python function relevant to the frozen claims is given a shallow
embedding below: dictionaries become association lists with Python
update semantics (overwrite in place, append new keys at the end),
dask fingerprints (tokenize) become natural numbers that stand for the
content hash of the underlying data, xarray data arrays become
structures carrying exactly the fields the code reads and writes, and
raising code returns Except values.
-/

namespace CfWriter

/-! ## Generic dictionary model (Python dict as association list) -/

/-- Python dict assignment d[k] = v: overwrite the value in place when the
key exists (keeping its position), otherwise append the new key at the end. -/
def dictSet {β : Type} (d : List (String × β)) (k : String) (v : β) :
    List (String × β) :=
  if d.any (fun p => p.1 = k) then
    d.map (fun p => if p.1 = k then (k, v) else p)
  else
    d ++ [(k, v)]

/-- Python dict.update(other): set every key of other in order. -/
def dictUpdate {β : Type} (d other : List (String × β)) : List (String × β) :=
  other.foldl (fun acc p => dictSet acc p.1 p.2) d

/-! ## Claim C1: assert_xy_unique (cf_writer.py lines 276-289)

A collected variable is modelled by whether the x (resp. y) dimension is
present and by the dask fingerprint (tokenize) of the corresponding
projection-coordinate data. Two coordinate arrays hold identical data
exactly when their fingerprints coincide. -/

structure XYVar where
  hasX : Bool
  xTok : Nat
  hasY : Bool
  yTok : Nat
deriving DecidableEq, Repr

/-- Fingerprints collected into unique_x: one per dataset whose dims contain x. -/
def xTokens (datas : List XYVar) : List Nat :=
  (datas.filter (fun d => d.hasX)).map (fun d => d.xTok)

/-- Fingerprints collected into unique_y. -/
def yTokens (datas : List XYVar) : List Nat :=
  (datas.filter (fun d => d.hasY)).map (fun d => d.yTok)

/-- Embedding of assert_xy_unique: build the sets of x and y fingerprints
over all datasets and raise ValueError when either set has more than one
element. -/
def assert_xy_unique (datas : List XYVar) : Except String Unit :=
  if 1 < (xTokens datas).dedup.length ∨ 1 < (yTokens datas).dedup.length then
    Except.error "Datasets to be saved in one file (or one group) must have identical projection coordinates. Please group them by area or save them in separate files."
  else
    Except.ok ()

/-- Save pipeline skeleton: CFWriter._collect_datasets runs assert_xy_unique
on the transformed variables and only afterwards does save_datasets call
to_netcdf. The first component lists the write calls performed. -/
def cf_save_model (datas : List XYVar) : List String × Except String Unit :=
  match assert_xy_unique datas with
  | Except.error e => ([], Except.error e)
  | Except.ok _ => (["to_netcdf"], Except.ok ())

/-! ## Claim C2: get_extra_ds (cf_writer.py lines 212-221)

A data array is modelled by its name and its ancillary_variables
attribute, a list of nested data arrays. -/

mutual
inductive AncDA where
  | mk (name : String) (anc : AncList)
deriving DecidableEq

inductive AncList where
  | nil
  | cons (d : AncDA) (tl : AncList)
deriving DecidableEq
end

def AncDA.name : AncDA → String
  | .mk n _ => n

def AncDA.anc : AncDA → AncList
  | .mk _ a => a

mutual
/-- Embedding of get_extra_ds(dataset, keys=None).  The Python keys list is
mutated in place, so it is threaded through; keys = none models the default
argument.  The loop guard is the literal source condition
if keys and ds.name not in keys, where a None or empty keys is falsy. -/
def get_extra_ds (dataset : AncDA) (keys : Option (List String)) :
    List (String × AncDA) × Option (List String) :=
  match dataset with
  | .mk nm anc =>
    let r := get_extra_loop anc [] keys
    (dictSet r.1 nm (.mk nm anc), r.2)

/-- The for loop of get_extra_ds over the ancillary_variables list,
accumulating ds_collection. -/
def get_extra_loop (l : AncList) (acc : List (String × AncDA))
    (keys : Option (List String)) :
    List (String × AncDA) × Option (List String) :=
  match l with
  | .nil => (acc, keys)
  | .cons ds tl =>
    match keys with
    | none => get_extra_loop tl acc none
    | some ks =>
      if ks ≠ [] ∧ ds.name ∉ ks then
        let r := get_extra_ds ds (some (ks ++ [ds.name]))
        get_extra_loop tl (dictUpdate acc r.1) r.2
      else
        get_extra_loop tl acc (some ks)
end

/-! ## Claims C9 and C10: collect_cf_datasets (cf_writer.py lines 614-740)
and make_time_bounds (lines 265-273)

A group member is modelled by its name, whether its transformed variable
carries a time coordinate, and its start_time and end_time attributes
(none models the Python None). -/

structure GDA where
  name : String
  has_time : Bool
  start_time : Option Nat
  end_time : Option Nat
deriving DecidableEq, Repr

/-- Embedding of make_time_bounds: the minimum of the non-None start times
and the minimum of the non-None end times; Python min raises ValueError on
an empty sequence, and the start generator is evaluated first. -/
def make_time_bounds (start_times end_times : List (Option Nat)) :
    Except String (Nat × Nat) :=
  match (start_times.filterMap id).min? with
  | none => Except.error "min() arg is an empty sequence"
  | some s =>
    match (end_times.filterMap id).min? with
    | none => Except.error "min() arg is an empty sequence"
    | some e => Except.ok (s, e)

/-- Membership-preserving append used by _get_groups: append the data array
to the entry of its group, creating the entry on first use, as the Python
defaultdict(list) does. -/
def addToGroup (acc : List (Option String × List GDA)) (g : String) (d : GDA) :
    List (Option String × List GDA) :=
  if acc.any (fun p => p.1 = some g) then
    acc.map (fun p => if p.1 = some g then (p.1, p.2 ++ [d]) else p)
  else
    acc ++ [(some g, [d])]

/-- Embedding of _get_groups: with groups None all arrays belong to a single
None-named group; otherwise each array joins the first listed group whose
member list contains its name, and unmatched arrays are dropped. -/
def get_groups (groups : Option (List (String × List String)))
    (das : List GDA) : List (Option String × List GDA) :=
  match groups with
  | none => [(none, das)]
  | some gs =>
    das.foldl (fun acc d =>
      match gs.find? (fun g => g.2.contains d.name) with
      | some g => addToGroup acc g.1 d
      | none => acc) []

/-- The per-group part of CFWriter._collect_datasets that the time-bounds
step consumes: whether any collected variable has a time coordinate, and
the start_time and end_time attributes gathered in collection order. -/
def collect_group (das : List GDA) : Bool × List (Option Nat) × List (Option Nat) :=
  (das.any (fun d => d.has_time), das.map (fun d => d.start_time),
    das.map (fun d => d.end_time))

/-- The for loop of collect_cf_datasets over the groups: each group either
attaches time bounds (when a time variable is present, letting any
make_time_bounds ValueError propagate and abort the loop) or logs a warning
and skips the time-bounds creation. -/
def collect_groups_loop :
    List (Option String × List GDA) →
      Except String (List (Option String × Option (Nat × Nat)))
  | [] => Except.ok []
  | g :: rest =>
    let c := collect_group g.2
    let entry :=
      if c.1 then
        (make_time_bounds c.2.1 c.2.2).map (fun tb => (g.1, some tb))
      else
        Except.ok (g.1, none)
    match entry with
    | Except.error e => Except.error e
    | Except.ok v =>
      match collect_groups_loop rest with
      | Except.error e => Except.error e
      | Except.ok l => Except.ok (v :: l)

/-- Embedding of collect_cf_datasets restricted to the fields the claims
consult: the empty-input precondition check comes first, then the loop over
the groups. -/
def collect_cf_datasets (list_dataarrays : List GDA)
    (groups : Option (List (String × List String))) :
    Except String (List (Option String × Option (Nat × Nat))) :=
  if list_dataarrays.isEmpty then
    Except.error "None of the requested datasets have been generated or could not be loaded. Requested composite inputs may need to have matching dimensions (eg. through resampling)."
  else
    collect_groups_loop (get_groups groups list_dataarrays)

/-! ## Claim C3: area2cf / area2lonlat / area2gridmapping
(cf_writer.py lines 200-262)

The area attribute is either a SwathDefinition or an AreaDefinition; the
lon and lat arrays produced by area.get_lonlats are abstracted to content
handles, and the crs.to_cf() export of an AreaDefinition to a list of
attributes. The pyproj version precondition of create_grid_mapping is
assumed satisfied. -/

inductive PjArea where
  | swathDef (lons lats : Nat)
  | areaDef (area_id : String) (cf_attrs : List (String × String)) (lons lats : Nat)
deriving DecidableEq, Repr

/-- A longitude or latitude coordinate variable as attached by area2lonlat. -/
structure LLCoordVar where
  std_name : String
  units : String
  data : Nat
deriving DecidableEq, Repr

structure GeoArray where
  area : PjArea
  coords : List (String × LLCoordVar)
  attrs : List (String × String)
deriving DecidableEq, Repr

def PjArea.get_lonlats : PjArea → Nat × Nat
  | .swathDef lons lats => (lons, lats)
  | .areaDef _ _ lons lats => (lons, lats)

/-- isinstance(area, SwathDefinition). -/
def PjArea.isSwath : PjArea → Bool
  | .swathDef _ _ => true
  | .areaDef _ _ _ _ => false

/-- isinstance(area, AreaDefinition). -/
def PjArea.isAreaDef : PjArea → Bool
  | .swathDef _ _ => false
  | .areaDef _ _ _ _ => true

/-- Embedding of area2lonlat: compute lons and lats from the area and attach
them as the longitude and latitude coordinate variables with CF standard
names and degree units. -/
def area2lonlat (dataarray : GeoArray) : GeoArray :=
  let ll := dataarray.area.get_lonlats
  { dataarray with
    coords :=
      dictSet
        (dictSet dataarray.coords "longitude"
          { std_name := "longitude", units := "degrees_east", data := ll.1 })
        "latitude"
        { std_name := "latitude", units := "degrees_north", data := ll.2 } }

/-- The zero-valued auxiliary grid-mapping variable xr.DataArray(0, attrs,
name=gmapping_var_name). -/
structure GridMappingVar where
  name : String
  value : Nat
  attrs : List (String × String)
deriving DecidableEq, Repr

/-- Embedding of area2gridmapping: create_grid_mapping returns
(area.area_id, area.crs.to_cf()); the grid_mapping attribute of the data
array is set to that name and the zero-valued auxiliary variable returned.
The source only ever calls it with an AreaDefinition; the swath branch is
unreachable from area2cf. -/
def area2gridmapping (dataarray : GeoArray) : GeoArray × GridMappingVar :=
  match dataarray.area with
  | .areaDef aid cf _ _ =>
    ({ dataarray with attrs := dictSet dataarray.attrs "grid_mapping" aid },
      { name := aid, value := 0, attrs := cf })
  | .swathDef _ _ => (dataarray, { name := "", value := 0, attrs := [] })

inductive CfOut where
  | auxVar (g : GridMappingVar)
  | dataArr (d : GeoArray)
deriving DecidableEq, Repr

/-- Second half of area2cf: for a gridded area, emit the grid-mapping
auxiliary variable before the data array; otherwise just the data array. -/
def area2cf_tail (da : GeoArray) : List CfOut :=
  if da.area.isAreaDef then
    [CfOut.auxVar (area2gridmapping da).2, CfOut.dataArr (area2gridmapping da).1]
  else
    [CfOut.dataArr da]

/-- Embedding of area2cf: attach lon/lats when the area is a swath or strict
is requested, unless the collection already has projection coordinates
(got_lonlats); then hand over to the grid-mapping branch. -/
def area2cf (dataarray : GeoArray) (strict got_lonlats : Bool) : List CfOut :=
  area2cf_tail
    (if !got_lonlats && (dataarray.area.isSwath || strict) then
      area2lonlat dataarray
    else
      dataarray)

/-! ## Claim C5: make_alt_coords_unique (cf_writer.py lines 334-374)

A coordinate variable of a dataset is modelled by the dask fingerprint of
its data and by whether dataset_is_projection_coords holds for it (its
standard_name is longitude or latitude). A dataset carries its dims and
its coordinate mapping; the group is an association list keyed by dataset
name, mirroring the datas dict. -/

structure ACoord where
  token : Nat
  isProj : Bool
deriving DecidableEq, Repr

structure ADSet where
  dims : List String
  coords : List (String × ACoord)
deriving DecidableEq, Repr

def coordKeys (ds : ADSet) : List String := ds.coords.map Prod.fst

/-- The fingerprint dataset ds contributes to the tokens dict under name n:
present when n names a coordinate of ds that is neither a projection
coordinate nor one of the dims of ds. -/
def altTokenOf (ds : ADSet) (n : String) : Option Nat :=
  match List.lookup n ds.coords with
  | some c => if c.isProj = false ∧ n ∉ ds.dims then some c.token else none
  | none => none

/-- The keys of the tokens dict: names occurring in some dataset as a
non-projection, non-dimension coordinate. -/
def altNames (datas : List (String × ADSet)) : List String :=
  ((datas.map (fun p =>
    (coordKeys p.2).filter (fun n => (altTokenOf p.2 n).isSome))).flatten).dedup

/-- All fingerprints recorded for name n across the group. -/
def tokensFor (datas : List (String × ADSet)) (n : String) : List Nat :=
  datas.filterMap (fun p => altTokenOf p.2 n)

/-- coords_unique entry for n: the token set has exactly one element. -/
abbrev altUnique (datas : List (String × ADSet)) (n : String) : Prop :=
  (tokensFor datas n).dedup.length = 1

/-- xarray rename {old: new} restricted to the coordinate names. -/
def renameCoord (ds : ADSet) (old new : String) : ADSet :=
  { ds with coords := ds.coords.map (fun q => if q.1 = old then (new, q.2) else q) }

/-- The inner loop body of make_alt_coords_unique for one coordinate name:
each dataset whose coordinates (in the original datas) contain the name has
the coordinate renamed to datasetname_coordname in the accumulator. -/
def renamePass (orig acc : List (String × ADSet)) (n : String) :
    List (String × ADSet) :=
  acc.map (fun p =>
    match List.lookup p.1 orig with
    | some od => if n ∈ coordKeys od then (p.1, renameCoord p.2 n (p.1 ++ "_" ++ n)) else p
    | none => p)

/-- One iteration of the outer loop: rename when not pretty or the
fingerprints for the name disagree. -/
def altStep (datas : List (String × ADSet)) (pretty : Bool)
    (acc : List (String × ADSet)) (n : String) : List (String × ADSet) :=
  if pretty = false ∨ ¬ altUnique datas n then renamePass datas acc n else acc

/-- Embedding of make_alt_coords_unique. -/
def make_alt_coords_unique (datas : List (String × ADSet)) (pretty : Bool) :
    List (String × ADSet) :=
  (altNames datas).foldl (altStep datas pretty) datas

/-- The effect of one renamePass on the entry of one dataset. -/
def renameEntry (orig : List (String × ADSet)) (d : String) (v : ADSet)
    (n : String) : ADSet :=
  match List.lookup d orig with
  | some od => if n ∈ coordKeys od then renameCoord v n (d ++ "_" ++ n) else v
  | none => v

/-- The effect of one altStep on the entry of one dataset. -/
def entryStep (datas : List (String × ADSet)) (pretty : Bool) (d : String)
    (v : ADSet) (n : String) : ADSet :=
  if pretty = false ∨ ¬ altUnique datas n then renameEntry datas d v n else v

/-- The cumulative effect of the outer loop on the entry of one dataset. -/
def entryFold (datas : List (String × ADSet)) (pretty : Bool) (d : String)
    (L : List String) (v : ADSet) : ADSet :=
  L.foldl (entryStep datas pretty d) v

/-! ## Claim C6: link_coords (cf_writer.py lines 292-316)

A data array is modelled by its dims, an opaque content handle (payload),
its attached coordinate bindings (name to dims-and-payload of the attached
variable) and its declared coordinates attribute (a space-separated string
or a list of names, or absent). -/

inductive CoordsAttr where
  | cstr (s : String)
  | clist (l : List String)
deriving DecidableEq, Repr

structure LnDSet where
  dims : List String
  payload : Nat
  coords : List (String × (List String × Nat))
  coordAttr : Option CoordsAttr
deriving DecidableEq, Repr

/-- Python str.split(chr 32) over the character list: every single space is
a separator, and adjacent separators produce empty fields. -/
def splitOnSpace : List Char → List (List Char)
  | [] => [[]]
  | c :: rest =>
    let r := splitOnSpace rest
    if c = ' ' then [] :: r
    else
      match r with
      | [] => [[c]]
      | h :: t => (c :: h) :: t

/-- data.attrs.get('coordinates', []) as a list of names: a string is split
on single spaces, a list is taken as is. -/
def declaredCoords : Option CoordsAttr → List String
  | none => []
  | some (.cstr s) => (splitOnSpace s.data).map String.mk
  | some (.clist l) => l

/-- Reading a sibling from the datas dict: its dims and content. -/
def lookupVar (datas : List (String × LnDSet)) (c : String) :
    Option (List String × Nat) :=
  (List.lookup c datas).map (fun ds => (ds.dims, ds.payload))

/-- datas[coord].squeeze(dimensions_not_in_data, drop=True): drop the dims
of the sibling that are absent from the referencing array. -/
def squeezeVar (sib : List String × Nat) (dataDims : List String) :
    List String × Nat :=
  (sib.1.filter (fun dm => dm ∈ dataDims), sib.2)

/-- The body of the inner loop of link_coords for one declared coordinate:
skip when already attached, attach the squeezed sibling when it exists in
the dict, and record a warning (dropping the reference) otherwise. -/
def processCoord (all : List (String × LnDSet)) (daName : String)
    (st : LnDSet × List (String × String)) (c : String) :
    LnDSet × List (String × String) :=
  if c ∈ st.1.coords.map Prod.fst then st
  else
    match lookupVar all c with
    | some sib =>
      ({ st.1 with coords := st.1.coords ++ [(c, squeezeVar sib st.1.dims)] },
        st.2)
    | none => (st.1, st.2 ++ [(c, daName)])

/-- The body of the outer loop of link_coords for one data array: process
every declared coordinate, then pop the coordinates attribute in any
case. -/
def processOne (all : List (String × LnDSet)) (nm : String) (ds : LnDSet) :
    LnDSet × List (String × String) :=
  let r := (declaredCoords ds.coordAttr).foldl (processCoord all nm) (ds, [])
  ({ r.1 with coordAttr := none }, r.2)

/-- The outer loop of link_coords: each entry of the dict is updated in
place, and sibling lookups read the current state of the dict. -/
def link_coords_go (done : List (String × LnDSet)) (ws : List (String × String)) :
    List (String × LnDSet) → List (String × LnDSet) × List (String × String)
  | [] => (done, ws)
  | (nm, ds) :: rest =>
    let r := processOne (done ++ (nm, ds) :: rest) nm ds
    link_coords_go (done ++ [(nm, r.1)]) (ws ++ r.2) rest

/-- Embedding of link_coords. The second component collects the emitted
warnings (dangling coordinate name, referencing array name). -/
def link_coords (datas : List (String × LnDSet)) :
    List (String × LnDSet) × List (String × String) :=
  link_coords_go [] [] datas

/-! ## Claim C7: the JSON fallback of the attribute encoder
(cf_writer.py lines 377-411 AttributeEncoder and 447-463
_encode_python_objects)

Attribute values are modelled by a JSON value type: null, bool, machine
integer, string, array, and object with string keys (non-float scalars; the
floating-point members of the Python domain are outside the embedding).
json.dumps with its default separators prints ", " between items and ": "
after keys and keeps insertion order; json.loads is a recursive-descent
parser over the characters. Strings are escaped for the quote and
backslash characters; other characters are carried verbatim. -/

mutual
inductive JVal where
  | jnull
  | jbool (b : Bool)
  | jint (n : Int)
  | jstr (s : String)
  | jarr (xs : JArr)
  | jobj (fs : JObj)

inductive JArr where
  | nil
  | cons (hd : JVal) (tl : JArr)

inductive JObj where
  | onil
  | ocons (k : String) (v : JVal) (tl : JObj)
end

def digitChar : Nat → Char
  | 0 => '0'
  | 1 => '1'
  | 2 => '2'
  | 3 => '3'
  | 4 => '4'
  | 5 => '5'
  | 6 => '6'
  | 7 => '7'
  | 8 => '8'
  | _ => '9'

def digitVal (c : Char) : Nat := c.toNat - 48

/-- Decimal digits of n, most significant first; the fuel argument makes
the recursion structural, and any fuel above n is enough. -/
def natToDigits (fuel : Nat) (n : Nat) : List Char :=
  match fuel with
  | 0 => []
  | fuel + 1 =>
    if n < 10 then [digitChar n]
    else natToDigits fuel (n / 10) ++ [digitChar (n % 10)]

def printNat (n : Nat) : List Char := natToDigits (n + 1) n

/-- repr of a Python int. -/
def printInt (n : Int) : List Char :=
  if n < 0 then '-' :: printNat (-n).toNat else printNat n.toNat

def escapeChar (c : Char) : List Char :=
  if c = '"' then ['\\', '"']
  else if c = '\\' then ['\\', '\\']
  else [c]

def escapeStr (l : List Char) : List Char := (l.map escapeChar).flatten

/-- json.dumps of a string value. -/
def printStr (s : String) : List Char := '"' :: (escapeStr s.data ++ ['"'])

mutual
/-- json.dumps with the default separators, on the modelled value domain. -/
def dumpV : JVal → List Char
  | .jnull => ['n', 'u', 'l', 'l']
  | .jbool true => ['t', 'r', 'u', 'e']
  | .jbool false => ['f', 'a', 'l', 's', 'e']
  | .jint n => printInt n
  | .jstr s => printStr s
  | .jarr .nil => ['[', ']']
  | .jarr (.cons v tl) => '[' :: (dumpV v ++ (dumpArr tl ++ [']']))
  | .jobj .onil => ['{', '}']
  | .jobj (.ocons k v tl) =>
    '{' :: (printStr k ++ (':' :: (' ' :: (dumpV v ++ (dumpObj tl ++ ['}'])))))

/-- The remaining items of an array, each preceded by comma-space. -/
def dumpArr : JArr → List Char
  | .nil => []
  | .cons v tl => ',' :: (' ' :: (dumpV v ++ dumpArr tl))

/-- The remaining entries of an object, each preceded by comma-space. -/
def dumpObj : JObj → List Char
  | .onil => []
  | .ocons k v tl =>
    ',' :: (' ' :: (printStr k ++ (':' :: (' ' :: (dumpV v ++ dumpObj tl)))))
end

def skipSpaces (cs : List Char) : List Char := cs.dropWhile (fun c => c = ' ')

def parseDigits (acc : Nat) : List Char → Nat × List Char
  | [] => (acc, [])
  | c :: rest =>
    if c.isDigit then parseDigits (acc * 10 + digitVal c) rest else (acc, c :: rest)

def parseNum (cs : List Char) : Option (Int × List Char) :=
  match cs with
  | [] => none
  | c :: rest =>
    if c = '-' then
      match rest with
      | [] => none
      | c2 :: rest2 =>
        if c2.isDigit then
          let r := parseDigits (digitVal c2) rest2
          some (-(r.1 : Int), r.2)
        else none
    else if c.isDigit then
      let r := parseDigits (digitVal c) rest
      some ((r.1 : Int), r.2)
    else none

/-- Body of a JSON string after the opening quote: read until the closing
quote, resolving backslash escapes. -/
def parseStrAux : List Char → Option (List Char × List Char)
  | [] => none
  | c :: rest =>
    if c = '"' then some ([], rest)
    else if c = '\\' then
      match rest with
      | [] => none
      | c2 :: rest2 => (parseStrAux rest2).map (fun r => (c2 :: r.1, r.2))
    else (parseStrAux rest).map (fun r => (c :: r.1, r.2))

mutual
/-- json.loads, fueled: parse one value and return the remaining input. -/
def parseV : Nat → List Char → Option (JVal × List Char)
  | 0, _ => none
  | fuel + 1, cs =>
    match skipSpaces cs with
    | [] => none
    | c :: rest =>
      if c = 'n' then
        match rest with
        | 'u' :: 'l' :: 'l' :: r => some (.jnull, r)
        | _ => none
      else if c = 't' then
        match rest with
        | 'r' :: 'u' :: 'e' :: r => some (.jbool true, r)
        | _ => none
      else if c = 'f' then
        match rest with
        | 'a' :: 'l' :: 's' :: 'e' :: r => some (.jbool false, r)
        | _ => none
      else if c = '"' then
        (parseStrAux rest).map (fun r => (.jstr (String.mk r.1), r.2))
      else if c = '[' then
        match skipSpaces rest with
        | [] => none
        | c2 :: rest2 =>
          if c2 = ']' then some (.jarr .nil, rest2)
          else (parseArrItems fuel (c2 :: rest2)).map (fun r => (.jarr r.1, r.2))
      else if c = '{' then
        match skipSpaces rest with
        | [] => none
        | c2 :: rest2 =>
          if c2 = '}' then some (.jobj .onil, rest2)
          else (parseObjItems fuel (c2 :: rest2)).map (fun r => (.jobj r.1, r.2))
      else
        (parseNum (c :: rest)).map (fun r => (.jint r.1, r.2))

/-- The items of a nonempty array up to and including the closing
bracket. -/
def parseArrItems : Nat → List Char → Option (JArr × List Char)
  | 0, _ => none
  | fuel + 1, cs =>
    match parseV fuel cs with
    | none => none
    | some (v, r) =>
      match skipSpaces r with
      | ',' :: r2 =>
        match parseArrItems fuel r2 with
        | none => none
        | some (tl, r3) => some (.cons v tl, r3)
      | ']' :: r2 => some (.cons v .nil, r2)
      | _ => none

/-- The entries of a nonempty object up to and including the closing
brace. -/
def parseObjItems : Nat → List Char → Option (JObj × List Char)
  | 0, _ => none
  | fuel + 1, cs =>
    match skipSpaces cs with
    | '"' :: rest =>
      match parseStrAux rest with
      | none => none
      | some (k, r) =>
        match skipSpaces r with
        | ':' :: r2 =>
          match parseV fuel r2 with
          | none => none
          | some (v, r3) =>
            match skipSpaces r3 with
            | ',' :: r4 =>
              match parseObjItems fuel r4 with
              | none => none
              | some (tl, r5) => some (.ocons (String.mk k) v tl, r5)
            | '}' :: r4 => some (.ocons (String.mk k) v .onil, r4)
            | _ => none
        | _ => none
    | _ => none
end

/-- json.loads: parse the whole string, allowing trailing whitespace
only. -/
def jloads (s : String) : Option JVal :=
  match parseV (s.length + 1) s.data with
  | some (v, rest) => if skipSpaces rest = [] then some v else none
  | none => none

mutual
/-- Fuel bound needed to parse a printed value. -/
def weightV : JVal → Nat
  | .jnull => 1
  | .jbool _ => 1
  | .jint _ => 1
  | .jstr _ => 1
  | .jarr xs => 1 + weightA xs
  | .jobj fs => 1 + weightO fs

def weightA : JArr → Nat
  | .nil => 0
  | .cons v tl => 1 + max (weightV v) (weightA tl)

def weightO : JObj → Nat
  | .onil => 0
  | .ocons _ v tl => 1 + max (weightV v) (weightO tl)
end

/-- Whether the input starts with a decimal digit (the only way a number
parse could extend into the following characters). -/
def digitHead : List Char → Bool
  | [] => false
  | c :: _ => c.isDigit

/-- Value of a block of decimal digits, most significant first, on top of
an accumulator. -/
def decodeDigits (acc : Nat) (l : List Char) : Nat :=
  l.foldl (fun a c => a * 10 + digitVal c) acc

/-- Python str.strip applied with the quote character: remove every leading
and trailing quote. -/
def stripQuotes (l : List Char) : List Char :=
  ((l.dropWhile (fun c => c = '"')).reverse.dropWhile (fun c => c = '"')).reverse

/-- isinstance(item, (list, tuple)) on the modelled domain. -/
def isSeqJ : JVal → Bool
  | .jarr _ => true
  | _ => false

def arrHasSeq : JArr → Bool
  | .nil => false
  | .cons v tl => isSeqJ v || arrHasSeq tl

/-- The inputs of _encode_python_objects that reach the json.dumps
fallback: every dict, and every list or tuple having a nested list or
tuple item (a flat list is encoded element-wise instead, and scalars are
handled by _encode_nc). -/
def takesJsonPath : JVal → Bool
  | .jobj _ => true
  | .jarr xs => arrHasSeq xs
  | _ => false

/-- The JSON branch of _encode_python_objects:
json.dumps(obj, cls=AttributeEncoder).strip(quote). -/
def encode_json_fallback (v : JVal) : String :=
  String.mk (stripQuotes (dumpV v))

/-! ## Claims C4 and C8: CFWriter.da2cf (cf_writer.py lines 746-811) with
_handle_dataarray_name (566-573), the attribute cleanup helpers (813-913)
and the attribute encoding (414-480)

Plain attribute values are JSON values (JVal). The area attribute and the
ancillary_variables attribute (a list of data arrays, of which the code
reads only the names) are heterogeneous members of the attrs dict and are
carried in dedicated slots of the array model; popping those keys clears
the slots. The storage encoding dict (touched by the compression argument
and by the units assignment of _encode_time) is modelled only by the
encUnits slot of a coordinate. -/

inductive TArea where
  | areaDef (projected : Bool)
  | swathDef
  | areaStr (s : String)

/-- A coordinate variable: its attrs (the code only reads and writes the
string-valued keys standard_name, units and bounds), its encoding units,
its size, and, when it is the crs coordinate, whether the carried CRS is
projected (none where the coordinate holds no CRS object). -/
structure TCoord where
  attrs : List (String × String)
  encUnits : Option String
  size : Nat
  crsProjected : Option Bool

/-- The name attribute, which when present is popped and consumed by the
rename on entry to da2cf (lines 770-773) and holds a dataset name string,
is carried in the nameAttr slot like the area and ancillary slots. -/
structure TArray where
  name : String
  dims : List String
  shape : List Nat
  coords : List (String × TCoord)
  attrs : List (String × JVal)
  area : Option TArea
  ancillary : Option (List String)
  nameAttr : Option String

/-- dict.pop(k, None). -/
def eraseKey {β : Type} (d : List (String × β)) (k : String) :
    List (String × β) :=
  d.filter (fun p => p.1 ≠ k)

def keysOf {β : Type} (d : List (String × β)) : List String := d.map Prod.fst

/-- name[0].isdigit(); the source raises IndexError on an empty name, the
embedding returns false there. -/
def headIsDigit (s : String) : Bool :=
  match s.data with
  | [] => false
  | c :: _ => c.isDigit

/-- Embedding of _handle_dataarray_name: returns (original_name, name);
with a name starting with a digit the prefix is prepended when configured,
otherwise the name is kept and a warning is emitted. -/
def handle_dataarray_name (original_name : String) (pfx : String) :
    String × String :=
  if headIsDigit original_name then
    if pfx ≠ "" then (original_name, pfx ++ original_name)
    else (original_name, original_name)
  else (original_name, original_name)

/-- dataarray.copy(); xarray copies data arrays deeply by default, so the
copy shares no mutable state with the original in the model. -/
def copyDeep (a : TArray) : TArray := a

/-- Embedding of CFWriter._remove_satpy_attributes. -/
def remove_satpy_attributes (a : TArray) : TArray :=
  { a with attrs :=
      (eraseKey (a.attrs.filter (fun p => ¬ p.1.startsWith "_satpy"))
        "_last_resampler") }

/-- Embedding of CFWriter._encode_time and _add_time_dimension. -/
def encode_time (a : TArray) (epoch : String) : TArray :=
  match List.lookup "time" a.coords with
  | none => a
  | some tc =>
    let tc2 := { tc with
      encUnits := some epoch,
      attrs := (eraseKey (dictSet tc.attrs "standard_name" "time")
        "bounds") }
    let a2 := { a with coords := dictSet a.coords "time" tc2 }
    if "time" ∉ a2.dims ∧ tc2.size ∉ a2.shape then
      { a2 with dims := "time" :: a2.dims, shape := 1 :: a2.shape }
    else a2

def crsFromCoord (a : TArray) : Option Bool :=
  (List.lookup "crs" a.coords).bind (fun c => c.crsProjected)

/-- Embedding of CFWriter._try_to_get_crs: an AreaDefinition yields its
CRS; any other area value emits a warning and falls through to the crs
coordinate. -/
def try_to_get_crs (a : TArray) : Option Bool :=
  match a.area with
  | some (.areaDef pj) => some pj
  | some _ => crsFromCoord a
  | none => crsFromCoord a

/-- Embedding of CFWriter._try_get_units_from_coords: the x units are
consulted first, then the y units; the unguarded coords lookup of the
source raises KeyError when the x (or, after an x miss on the units key,
the y) coordinate is absent. -/
def try_get_units_from_coords (a : TArray) : Except String (Option String) :=
  match List.lookup "x" a.coords with
  | none => .error "KeyError"
  | some cx =>
    match List.lookup "units" cx.attrs with
    | some u => .ok (some u)
    | none =>
      match List.lookup "y" a.coords with
      | none => .error "KeyError"
      | some cy => .ok (List.lookup "units" cy.attrs)

/-- Embedding of CFWriter._is_projected: CRS first, then the unit string
suffix m or the unit string beginning degrees; otherwise assume projected
with a warning. An empty units string is falsy in the source and falls to
the assume-projected default, as it does here through the two failing
tests. -/
def is_projected (a : TArray) : Except String Bool :=
  match try_to_get_crs a with
  | some pj => .ok pj
  | none =>
    match try_get_units_from_coords a with
    | .error e => .error e
    | .ok (some u) =>
      if u.endsWith "m" then .ok true
      else if u.startsWith "degrees" then .ok false
      else .ok true
    | .ok none => .ok true

/-- Set standard_name and units on one coordinate, when present. -/
def setCoordStd (a : TArray) (cname sn un : String) : TArray :=
  match List.lookup cname a.coords with
  | none => a
  | some c =>
    { a with coords := (dictSet a.coords cname
        { c with attrs := (dictSet (dictSet c.attrs "standard_name" sn)
            "units" un) }) }

/-- Embedding of _encode_xy_coords_projected. -/
def encode_xy_projected (a : TArray) : TArray :=
  setCoordStd (setCoordStd a "x" "projection_x_coordinate" "m")
    "y" "projection_y_coordinate" "m"

/-- Embedding of _encode_xy_coords_geographic. -/
def encode_xy_geographic (a : TArray) : TArray :=
  setCoordStd (setCoordStd a "x" "longitude" "degrees_east")
    "y" "latitude" "degrees_north"

/-- Embedding of CFWriter._encode_coords; the guarded drop_vars of the
crs coordinate equals an unconditional key removal. -/
def encode_coords (a : TArray) : Except String TArray :=
  if "x" ∈ keysOf a.coords ∨ "y" ∈ keysOf a.coords ∨ "crs" ∈ keysOf a.coords then
    match is_projected a with
    | .error e => .error e
    | .ok pj =>
      let a2 := if pj then encode_xy_projected a else encode_xy_geographic a
      .ok { a2 with coords := eraseKey a2.coords "crs" }
  else .ok a

/-- The exact condition under which the coordinate access of
try_get_units_from_coords succeeds. -/
def units_access_ok (a : TArray) : Bool :=
  match List.lookup "x" a.coords with
  | none => false
  | some cx =>
    match List.lookup "units" cx.attrs with
    | some _ => true
    | none => (List.lookup "y" a.coords).isSome

/-- The exact condition under which encode_coords returns without a
KeyError. -/
def coords_safe (a : TArray) : Bool :=
  if "x" ∈ keysOf a.coords ∨ "y" ∈ keysOf a.coords ∨ "crs" ∈ keysOf a.coords then
    match try_to_get_crs a with
    | some _ => true
    | none => units_access_ok a
  else true

/-- new_data.attrs.pop(key, None), clearing the slot of a heterogeneous
attribute when its key is popped. -/
def popAttrKey (a : TArray) (k : String) : TArray :=
  let a1 := if k = "area" then { a with area := none } else a
  let a2 := if k = "ancillary_variables" then { a1 with ancillary := none } else a1
  { a2 with attrs := eraseKey a2.attrs k }

def joinSpace (l : List String) : String := String.intercalate " " l

/-- The ancillary_variables collapse of da2cf: the names of the declared
ancillary data arrays joined by spaces, set only when the list is
nonempty. -/
def ancillary_join (a : TArray) : TArray :=
  match a.ancillary with
  | some (n :: ns) =>
    { a with
      attrs := (dictSet a.attrs "ancillary_variables"
        (.jstr (joinSpace (n :: ns)))),
      ancillary := none }
  | _ => a

def isNullJ : JVal → Bool
  | .jnull => true
  | _ => false

/-- Embedding of CFWriter._cleanup_attrs: drop None-valued attributes and
an empty ancillary_variables list. -/
def cleanup_attrs (a : TArray) : TArray :=
  { a with
    attrs := a.attrs.filter (fun p => ¬ isNullJ p.2),
    ancillary := (match a.ancillary with
      | some [] => none
      | x => x) }

/-- A printable form standing for the Python str() of a prerequisite
object. -/
def pyStr (v : JVal) : String := String.mk (dumpV v)

def strListJ : JArr → JArr
  | .nil => .nil
  | .cons v tl => .cons (.jstr (pyStr v)) (strListJ tl)

/-- The prerequisites stringification of da2cf: each list element becomes
np.string_(str(prereq)). -/
def prerequisites_step (a : TArray) : TArray :=
  match List.lookup "prerequisites" a.attrs with
  | some (.jarr xs) =>
    { a with attrs := dictSet a.attrs "prerequisites" (.jarr (strListJ xs)) }
  | _ => a

mutual
/-- Modelled from the spec: flatten nested-mapping attributes into
underscore-joined flat keys (satpy.writers.utils.flatten_dict is imported
by the writer but its source is outside src/). -/
def flatten_dict_j (attrs : List (String × JVal)) : List (String × JVal) :=
  flattenList attrs []

def flattenList (l : List (String × JVal)) (acc : List (String × JVal)) :
    List (String × JVal) :=
  match l with
  | [] => acc
  | (k, v) :: t => flattenList t (flattenInto acc k v)

def flattenInto (acc : List (String × JVal)) (k : String) (v : JVal) :
    List (String × JVal) :=
  match v with
  | .jobj fs => flattenObj acc k fs
  | _ => dictSet acc k v

def flattenObj (acc : List (String × JVal)) (k : String) (fs : JObj) :
    List (String × JVal) :=
  match fs with
  | .onil => acc
  | .ocons k2 v2 tl => flattenObj (flattenInto acc (k ++ "_" ++ k2) v2) k tl
end

mutual
/-- Embedding of encode_nc / _encode_python_objects / _encode_nc on the
modelled value domain (no value here has a to_cf method): integers and
strings pass through, booleans and None become their lowercase json
strings, a flat list is encoded element-wise, and a dict or a list holding
a nested list falls back to the quote-stripped json dump. -/
def encode_nc_j (v : JVal) : JVal :=
  match v with
  | .jarr xs =>
    if arrHasSeq xs then .jstr (encode_json_fallback (.jarr xs))
    else .jarr (encodeListJ xs)
  | .jobj fs => .jstr (encode_json_fallback (.jobj fs))
  | .jint n => .jint n
  | .jstr s => .jstr s
  | .jbool b => .jstr (if b then "true" else "false")
  | .jnull => .jstr "null"

def encodeListJ : JArr → JArr
  | .nil => .nil
  | .cons v tl => .cons (encode_nc_j v) (encodeListJ tl)
end

/-- Embedding of encode_attrs_nc: iterate in sorted key order, drop None
values, encode the rest. -/
def encode_attrs_nc (attrs : List (String × JVal)) : List (String × JVal) :=
  ((attrs.mergeSort (fun p q => decide (p.1 ≤ q.1))).filter
    (fun p => ¬ isNullJ p.2)).map (fun p => (p.1, encode_nc_j p.2))

/-- The default long_name assignment of da2cf (line 796-797). -/
def set_default_long_name (a : TArray) : TArray :=
  if "long_name" ∉ keysOf a.attrs ∧ "standard_name" ∉ keysOf a.attrs then
    { a with attrs := dictSet a.attrs "long_name" (.jstr a.name) }
  else a

/-- The original_name assignment of da2cf (lines 801-802); r carries the
locals original_name and name of the rename branch, both unset when the
branch did not run, in which case the Python conjunction short-circuits on
the falsy original_name. The truthiness tests of the source are the
nonemptiness of the prefix and of the original name. -/
def set_original_name (a : TArray) (include_orig_name : Bool) (pfx : String)
    (r : Option (String × String)) : TArray :=
  match r with
  | some (o, nm) =>
    if include_orig_name ∧ pfx ≠ "" ∧ o ≠ "" ∧ o ≠ nm then
      { a with attrs := dictSet a.attrs "original_name" (.jstr o) }
    else a
  | none => a

/-- The flatten_attrs branch of da2cf (lines 805-806). -/
def flatten_step (a : TArray) (flatten_attrs : Bool) : TArray :=
  if flatten_attrs then { a with attrs := flatten_dict_j a.attrs } else a

/-- The final attribute encoding of da2cf (line 809). -/
def encode_step (a : TArray) : TArray :=
  { a with attrs := encode_attrs_nc a.attrs }

/-- The statements of da2cf after the coordinate encoding (lines
780-811): attribute pops, ancillary join, cleanup, default long_name,
prerequisite stringification, original_name retention, optional
flattening, attribute encoding. -/
def da2cf_tail (a3 : TArray) (flatten_attrs : Bool)
    (exclude_attrs : List String) (include_orig_name : Bool) (pfx : String)
    (r : Option (String × String)) : TArray :=
  let a4 := ("area" :: exclude_attrs).foldl popAttrKey a3
  let a5 := ancillary_join a4
  let a6 := cleanup_attrs a5
  let a7 := set_default_long_name a6
  let a8 := prerequisites_step a7
  let a9 := set_original_name a8 include_orig_name pfx r
  let a10 := flatten_step a9 flatten_attrs
  encode_step a10

/-- Embedding of CFWriter.da2cf. Every statement of the source mutates
new_data, the deep copy made on entry; the compression branch only updates
the storage encoding, which is outside the model. -/
def da2cf (dataarray : TArray) (epoch : String) (flatten_attrs : Bool)
    (exclude_attrs : List String) (include_orig_name : Bool)
    (pfx : String) : Except String TArray :=
  let new0 := copyDeep dataarray
  let st :=
    match new0.nameAttr with
    | some s =>
      let r := handle_dataarray_name s pfx
      ({ new0 with nameAttr := none, name := r.2 }, some r)
    | none => (new0, none)
  let a1 := remove_satpy_attributes st.1
  let a2 := encode_time a1 epoch
  match encode_coords a2 with
  | .error e => .error e
  | .ok a3 =>
    .ok (da2cf_tail a3 flatten_attrs exclude_attrs include_orig_name pfx st.2)

/-! ## Claim C8: the heap model of da2cf

The frame claim is about mutation, so this second embedding of da2cf
makes object identity explicit: array objects, their attrs dict objects
and the string dict objects of their coordinate variables (attrs and
encoding) live in stores addressed by Nat, the object identity; nfree is
the next unused address. dataarray.copy() (line 769) is the xarray deep
copy: it allocates fresh cells for the attrs dict, for every coordinate
dict and for the array object itself. Every mutating statement of the
source writes the cell owned by its target object: the in-place dict
mutations (attrs pops and assignments, the coordinate attrs and encoding
assignments of _encode_time and _encode_coords) write dict cells, the
xarray operations returning a new array (rename, expand_dims, drop_vars)
allocate array objects, and the reassignments of the attrs property
(flatten_dict, encode_attrs_nc) build a fresh dict and write the array
object cell to rebind it. Read-only decision logic reuses the
content-level definitions above on the value read back from the heap, so
both embeddings compute with the same content transformations. -/

/-- An attrs dict object: the JSON-valued entries plus the heterogeneous
members carried in slots exactly as in TArray. -/
structure HAttrs where
  entries : List (String × JVal)
  area : Option TArea
  ancillary : Option (List String)
  nameAttr : Option String

/-- A coordinate variable object: the addresses of its attrs dict and of
its encoding dict, with its size and carried CRS. -/
structure RCoord where
  attrsRef : Nat
  encRef : Nat
  size : Nat
  crsProjected : Option Bool

/-- A data array object: plain fields inline, the attrs dict held by
address. -/
structure AObj where
  name : String
  dims : List String
  shape : List Nat
  coords : List (String × RCoord)
  attrsRef : Nat

/-- The heap: array objects, attrs dict objects and string dict objects
(coordinate attrs and encodings); nfree is the next unused address. -/
structure Heap where
  ah : List (Nat × AObj)
  jh : List (Nat × HAttrs)
  sh : List (Nat × List (String × String))
  nfree : Nat

/-- Python d[k] = v on a Nat-addressed store. -/
def storeSet {β : Type} (d : List (Nat × β)) (k : Nat) (v : β) :
    List (Nat × β) :=
  if d.any (fun p => p.1 = k) then
    d.map (fun p => if p.1 = k then (k, v) else p)
  else
    d ++ [(k, v)]

def emptyHAttrs : HAttrs :=
  { entries := [], area := none, ancillary := none, nameAttr := none }

def emptyAObj : AObj :=
  { name := "", dims := [], shape := [], coords := [], attrsRef := 0 }

def readA (H : Heap) (a : Nat) : AObj := (List.lookup a H.ah).getD emptyAObj

def readJ (H : Heap) (a : Nat) : HAttrs := (List.lookup a H.jh).getD emptyHAttrs

def readS (H : Heap) (a : Nat) : List (String × String) :=
  (List.lookup a H.sh).getD []

def writeA (H : Heap) (a : Nat) (v : AObj) : Heap :=
  { H with ah := storeSet H.ah a v }

def writeJ (H : Heap) (a : Nat) (v : HAttrs) : Heap :=
  { H with jh := storeSet H.jh a v }

def writeS (H : Heap) (a : Nat) (v : List (String × String)) : Heap :=
  { H with sh := storeSet H.sh a v }

def bumpN (H : Heap) (k : Nat) : Heap := { H with nfree := H.nfree + k }

/-- The observable content of a coordinate variable object. -/
def viewCoord (H : Heap) (rc : RCoord) : TCoord :=
  { attrs := readS H rc.attrsRef,
    encUnits := List.lookup "units" (readS H rc.encRef),
    size := rc.size, crsProjected := rc.crsProjected }

/-- The observable content of an array object: everything the caller can
reach from it, nested dict values included. -/
def viewObj (H : Heap) (o : AObj) : TArray :=
  { name := o.name, dims := o.dims, shape := o.shape,
    coords := o.coords.map (fun p => (p.1, viewCoord H p.2)),
    attrs := (readJ H o.attrsRef).entries,
    area := (readJ H o.attrsRef).area,
    ancillary := (readJ H o.attrsRef).ancillary,
    nameAttr := (readJ H o.attrsRef).nameAttr }

/-- The observable content of the array object at an address. -/
def viewArr (H : Heap) (a : Nat) : TArray := viewObj H (readA H a)

/-- dataarray.copy() on the coordinate variables: a fresh attrs dict and
a fresh encoding dict per coordinate, contents copied. -/
def copyCoords (H : Heap) :
    List (String × RCoord) → Heap × List (String × RCoord)
  | [] => (H, [])
  | (n, rc) :: t =>
    let a1 := H.nfree
    let H1 := bumpN (writeS (writeS H a1 (readS H rc.attrsRef)) (a1 + 1)
      (readS H rc.encRef)) 2
    let r := copyCoords H1 t
    (r.1, (n, { attrsRef := a1,
                encRef := a1 + 1,
                size := rc.size,
                crsProjected := rc.crsProjected }) :: r.2)

/-- dataarray.copy() (line 769): the xarray deep copy allocates a fresh
attrs dict, fresh coordinate dicts and a fresh array object; the source
array is only read. -/
def deepCopy (H : Heap) (src : Nat) : Heap × Nat :=
  let o := readA H src
  let aj := H.nfree
  let H1 := bumpN (writeJ H aj (readJ H o.attrsRef)) 1
  let cc := copyCoords H1 o.coords
  let ao := cc.1.nfree
  (bumpN (writeA cc.1 ao { name := o.name,
                           dims := o.dims,
                           shape := o.shape,
                           coords := cc.2,
                           attrsRef := aj }) 1, ao)

/-- Lines 770-773: pop the name attribute from the attrs dict of the
copy, then rebind new_data to the renamed array, a fresh object. -/
def hname_step (H : Heap) (nd : Nat) (pfx : String) :
    Heap × Nat × Option (String × String) :=
  let o := readA H nd
  let A := readJ H o.attrsRef
  match A.nameAttr with
  | some s =>
    let r := handle_dataarray_name s pfx
    let H1 := writeJ H o.attrsRef { A with nameAttr := none }
    let ao := H1.nfree
    (bumpN (writeA H1 ao { o with name := r.2 }) 1, ao, some r)
  | none => (H, nd, none)

/-- Line 775: _remove_satpy_attributes pops keys of the attrs dict in
place. -/
def hremove_satpy (H : Heap) (nd : Nat) : Heap :=
  let o := readA H nd
  let A := readJ H o.attrsRef
  writeJ H o.attrsRef { A with entries :=
    (eraseKey (A.entries.filter (fun p => ¬ p.1.startsWith "_satpy"))
      "_last_resampler") }

/-- Line 777: _encode_time writes the encoding and attrs dicts of the
time coordinate variable in place; _add_time_dimension rebinds new_data
to the fresh expand_dims result when it fires. -/
def hencode_time (H : Heap) (nd : Nat) (epoch : String) : Heap × Nat :=
  let o := readA H nd
  match List.lookup "time" o.coords with
  | none => (H, nd)
  | some rc =>
    let H1 := writeS H rc.encRef (dictSet (readS H rc.encRef) "units" epoch)
    let H2 := writeS H1 rc.attrsRef
      (eraseKey (dictSet (readS H1 rc.attrsRef) "standard_name" "time")
        "bounds")
    if "time" ∉ o.dims ∧ rc.size ∉ o.shape then
      let ao := H2.nfree
      (bumpN (writeA H2 ao { o with
                             dims := "time" :: o.dims,
                             shape := 1 :: o.shape }) 1, ao)
    else (H2, nd)

/-- The writes of _encode_xy_coords_projected and _geographic: set
standard_name and units in the attrs dict of the coordinate variable,
when present. -/
def hsetCoordStd (H : Heap) (o : AObj) (cname sn un : String) : Heap :=
  match List.lookup cname o.coords with
  | none => H
  | some rc => writeS H rc.attrsRef
      (dictSet (dictSet (readS H rc.attrsRef) "standard_name" sn) "units" un)

/-- Line 778: _encode_coords; the projection decision is read-only and
reuses is_projected on the content read back from the heap; the guarded
drop_vars of the crs coordinate rebinds new_data to a fresh object
without that coordinate. -/
def hencode_coords (H : Heap) (nd : Nat) : Heap × Except String Nat :=
  let o := readA H nd
  if "x" ∈ keysOf o.coords ∨ "y" ∈ keysOf o.coords ∨
      "crs" ∈ keysOf o.coords then
    match is_projected (viewObj H o) with
    | .error e => (H, .error e)
    | .ok pj =>
      let H1 := if pj then
          hsetCoordStd (hsetCoordStd H o "x" "projection_x_coordinate" "m")
            o "y" "projection_y_coordinate" "m"
        else
          hsetCoordStd (hsetCoordStd H o "x" "longitude" "degrees_east")
            o "y" "latitude" "degrees_north"
      let ao := H1.nfree
      (bumpN (writeA H1 ao { o with coords := eraseKey o.coords "crs" }) 1,
        .ok ao)
  else (H, .ok nd)

/-- Lines 781-782: new_data.attrs.pop(key, None), slot clears included. -/
def hpopAttrKey (H : Heap) (nd : Nat) (k : String) : Heap :=
  let o := readA H nd
  let A := readJ H o.attrsRef
  let A1 := if k = "area" then { A with area := none } else A
  let A2 := if k = "ancillary_variables" then { A1 with ancillary := none }
    else A1
  writeJ H o.attrsRef { A2 with entries := eraseKey A2.entries k }

/-- Lines 784-787: join the declared ancillary names into the attrs
dict. -/
def hancillary_join (H : Heap) (nd : Nat) : Heap :=
  let o := readA H nd
  let A := readJ H o.attrsRef
  match A.ancillary with
  | some (n :: ns) => writeJ H o.attrsRef
      { A with
        entries := (dictSet A.entries "ancillary_variables"
          (.jstr (joinSpace (n :: ns)))),
        ancillary := none }
  | _ => H

/-- Line 791: _cleanup_attrs pops in place. -/
def hcleanup (H : Heap) (nd : Nat) : Heap :=
  let o := readA H nd
  let A := readJ H o.attrsRef
  writeJ H o.attrsRef
    { A with
      entries := A.entries.filter (fun p => ¬ isNullJ p.2),
      ancillary := (match A.ancillary with | some [] => none | x => x) }

/-- Lines 796-797: default long_name. -/
def hlong_name (H : Heap) (nd : Nat) : Heap :=
  let o := readA H nd
  let A := readJ H o.attrsRef
  if "long_name" ∉ keysOf A.entries ∧ "standard_name" ∉ keysOf A.entries then
    writeJ H o.attrsRef
      { A with entries := dictSet A.entries "long_name" (.jstr o.name) }
  else H

/-- Lines 798-799: prerequisite stringification. -/
def hprereq (H : Heap) (nd : Nat) : Heap :=
  let o := readA H nd
  let A := readJ H o.attrsRef
  match List.lookup "prerequisites" A.entries with
  | some (.jarr xs) => writeJ H o.attrsRef
      { A with entries := (dictSet A.entries "prerequisites"
          (.jarr (strListJ xs))) }
  | _ => H

/-- Lines 801-802: original_name retention. -/
def horig_name (H : Heap) (nd : Nat) (include_orig_name : Bool)
    (pfx : String) (r : Option (String × String)) : Heap :=
  match r with
  | some (o2, nm) =>
    if include_orig_name ∧ pfx ≠ "" ∧ o2 ≠ "" ∧ o2 ≠ nm then
      let o := readA H nd
      let A := readJ H o.attrsRef
      writeJ H o.attrsRef
        { A with entries := dictSet A.entries "original_name" (.jstr o2) }
    else H
  | none => H

/-- Lines 805-806: new_data.attrs = flatten_dict(new_data.attrs) builds a
fresh dict and rebinds the attrs property of the array object. -/
def hflatten (H : Heap) (nd : Nat) (fl : Bool) : Heap :=
  if fl then
    let o := readA H nd
    let A := readJ H o.attrsRef
    let aj := H.nfree
    let H1 := bumpN (writeJ H aj
      { A with entries := flatten_dict_j A.entries }) 1
    writeA H1 nd { o with attrsRef := aj }
  else H

/-- Line 809: new_data.attrs = encode_attrs_nc(new_data.attrs), again a
fresh dict bound to the attrs property of the array object. -/
def hencode_attrs (H : Heap) (nd : Nat) : Heap :=
  let o := readA H nd
  let A := readJ H o.attrsRef
  let aj := H.nfree
  let H1 := bumpN (writeJ H aj
    { A with entries := encode_attrs_nc A.entries }) 1
  writeA H1 nd { o with attrsRef := aj }

/-- The heap model of CFWriter.da2cf (lines 765-811), statement for
statement on the heap; the compression branch only updates the storage
encoding of the copy and is outside the model. -/
def hda2cf (H : Heap) (daRef : Nat) (epoch : String) (fl : Bool)
    (ex : List String) (ion : Bool) (pfx : String) :
    Heap × Except String Nat :=
  let c := deepCopy H daRef
  let s1 := hname_step c.1 c.2 pfx
  let H2 := hremove_satpy s1.1 s1.2.1
  let s3 := hencode_time H2 s1.2.1 epoch
  let s4 := hencode_coords s3.1 s3.2
  match s4.2 with
  | .error e => (s4.1, .error e)
  | .ok nd4 =>
    let H5 := ("area" :: ex).foldl (fun h k => hpopAttrKey h nd4 k) s4.1
    let H6 := hancillary_join H5 nd4
    let H7 := hcleanup H6 nd4
    let H8 := hlong_name H7 nd4
    let H9 := hprereq H8 nd4
    let H10 := horig_name H9 nd4 ion pfx s1.2.2
    let H11 := hflatten H10 nd4 fl
    (hencode_attrs H11 nd4, .ok nd4)

/-- The heaps agree on every address below n: nothing allocated before n
has been touched. -/
def agreesBelow (n : Nat) (H H2 : Heap) : Prop :=
  (∀ a, a < n → readA H2 a = readA H a) ∧
  (∀ a, a < n → readJ H2 a = readJ H a) ∧
  (∀ a, a < n → readS H2 a = readS H a)

/-- The working state of da2cf: the free-address mark is still past n and
the current new_data object and every cell it owns live at or above n. -/
def okSt (n : Nat) (H : Heap) (nd : Nat) : Prop :=
  n ≤ H.nfree ∧ n ≤ nd ∧ n ≤ (readA H nd).attrsRef ∧
  ∀ p ∈ (readA H nd).coords, n ≤ p.2.attrsRef ∧ n ≤ p.2.encRef

/-- A one-array heap: the dataset named 1 at address 0 with its attrs
dict at address 1. -/
def sampleHeap : Heap :=
  { ah := [(0, { name := "1",
                 dims := [],
                 shape := [],
                 coords := [],
                 attrsRef := 1 })],
    jh := [(1, { entries := [],
                 area := none,
                 ancillary := none,
                 nameAttr := some "1" })],
    sh := [],
    nfree := 2 }

/-- A dataset named 1, the example of the specification. -/
def sampleDA : TArray :=
  { name := "1", dims := [], shape := [], coords := [], attrs := [],
    area := none, ancillary := none, nameAttr := some "1" }

/-! ## Helper lemmas -/

theorem lookup_map_replace {β : Type} (d : List (String × β)) (k : String) (v : β)
    (h : ∃ p ∈ d, p.1 = k) :
    List.lookup k (d.map (fun p => if p.1 = k then (k, v) else p)) = some v := by
  induction d with
  | nil => simp at h
  | cons p t ih =>
    obtain ⟨pk, pv⟩ := p
    by_cases hp : pk = k
    · subst hp
      simp [List.lookup_cons]
    · have ht : ∃ q ∈ t, q.1 = k := by
        obtain ⟨q, hq, hqk⟩ := h
        rcases List.mem_cons.mp hq with rfl | hq'
        · exact absurd hqk hp
        · exact ⟨q, hq', hqk⟩
      have hne : (k == pk) = false := by
        rw [beq_eq_false_iff_ne]
        intro hk
        exact hp hk.symm
      simp only [List.map_cons, if_neg hp, List.lookup_cons, hne, cond_false]
      exact ih ht

theorem lookup_append_new {β : Type} (d : List (String × β)) (k : String) (v : β)
    (h : ∀ p ∈ d, p.1 ≠ k) :
    List.lookup k (d ++ [(k, v)]) = some v := by
  induction d with
  | nil => simp [List.lookup_cons]
  | cons p t ih =>
    obtain ⟨pk, pv⟩ := p
    have hp : pk ≠ k := h (pk, pv) (List.mem_cons_self _ t)
    have hne : (k == pk) = false := by
      rw [beq_eq_false_iff_ne]
      intro hk
      exact hp hk.symm
    simp only [List.cons_append, List.lookup_cons, hne, cond_false]
    exact ih (fun q hq => h q (List.mem_cons_of_mem _ hq))

/-- Python d[k] = v makes a subsequent lookup of k return v. -/
theorem lookup_dictSet_self {β : Type} (d : List (String × β)) (k : String) (v : β) :
    List.lookup k (dictSet d k v) = some v := by
  unfold dictSet
  by_cases h : d.any (fun p => p.1 = k) = true
  · rw [if_pos h]
    refine lookup_map_replace d k v ?_
    obtain ⟨p, hp, hpk⟩ := List.any_eq_true.mp h
    exact ⟨p, hp, of_decide_eq_true hpk⟩
  · rw [if_neg h]
    refine lookup_append_new d k v ?_
    intro p hp hpk
    exact h (List.any_eq_true.mpr ⟨p, hp, decide_eq_true hpk⟩)

theorem lookup_map_replace_ne {β : Type} (d : List (String × β)) (k k' : String)
    (v : β) (h : k' ≠ k) :
    List.lookup k' (d.map (fun p => if p.1 = k then (k, v) else p)) =
      List.lookup k' d := by
  have hne : (k' == k) = false := beq_eq_false_iff_ne.mpr h
  induction d with
  | nil => rfl
  | cons p t ih =>
    obtain ⟨pk, pv⟩ := p
    by_cases hp : pk = k
    · subst hp
      have hhead : ((pk, pv) :: t).map (fun p => if p.1 = pk then (pk, v) else p) =
          (pk, v) :: t.map (fun p => if p.1 = pk then (pk, v) else p) := by simp
      rw [hhead, List.lookup_cons, List.lookup_cons, hne]
      exact ih
    · have hhead : ((pk, pv) :: t).map (fun p => if p.1 = k then (k, v) else p) =
          (pk, pv) :: t.map (fun p => if p.1 = k then (k, v) else p) := by simp [hp]
      rw [hhead, List.lookup_cons, List.lookup_cons]
      cases hkp : (k' == pk) with
      | true => simp only
      | false => simp only; exact ih

theorem lookup_append_single_ne {β : Type} (d : List (String × β)) (k k' : String)
    (v : β) (h : k' ≠ k) :
    List.lookup k' (d ++ [(k, v)]) = List.lookup k' d := by
  have hne : (k' == k) = false := beq_eq_false_iff_ne.mpr h
  induction d with
  | nil => simp [List.lookup_cons, hne]
  | cons p t ih =>
    obtain ⟨pk, pv⟩ := p
    rw [List.cons_append, List.lookup_cons, List.lookup_cons]
    cases hkp : (k' == pk) with
    | true => simp only
    | false => simp only; exact ih

/-- Python d[k] = v leaves lookups of other keys unchanged. -/
theorem lookup_dictSet_ne {β : Type} (d : List (String × β)) (k k' : String)
    (v : β) (h : k' ≠ k) :
    List.lookup k' (dictSet d k v) = List.lookup k' d := by
  unfold dictSet
  split
  · exact lookup_map_replace_ne d k k' v h
  · exact lookup_append_single_ne d k k' v h

theorem one_lt_dedup_length_iff (l : List Nat) :
    1 < l.dedup.length ↔ ∃ a ∈ l, ∃ b ∈ l, a ≠ b := by
  constructor
  · intro h
    match hd : l.dedup with
    | [] => rw [hd] at h; simp at h
    | [a] => rw [hd] at h; simp at h
    | a :: b :: t =>
      have hnd : l.dedup.Nodup := l.nodup_dedup
      rw [hd] at hnd
      have hab : a ≠ b := by
        rw [List.nodup_cons] at hnd
        intro h
        exact hnd.1 (h ▸ List.mem_cons_self b t)
      have ha : a ∈ l := by
        have : a ∈ l.dedup := by rw [hd]; simp
        exact List.mem_dedup.mp this
      have hb : b ∈ l := by
        have : b ∈ l.dedup := by rw [hd]; simp
        exact List.mem_dedup.mp this
      exact ⟨a, ha, b, hb, hab⟩
  · rintro ⟨a, ha, b, hb, hne⟩
    by_contra h
    push_neg at h
    have ha' : a ∈ l.dedup := List.mem_dedup.mpr ha
    have hb' : b ∈ l.dedup := List.mem_dedup.mpr hb
    match hd : l.dedup with
    | [] => rw [hd] at ha'; simp at ha'
    | [x] =>
      rw [hd] at ha' hb'
      simp at ha' hb'
      exact hne (ha'.trans hb'.symm)
    | x :: y :: t => rw [hd] at h; simp at h

theorem mem_xTokens (datas : List XYVar) (t : Nat) :
    t ∈ xTokens datas ↔ ∃ d ∈ datas, d.hasX = true ∧ d.xTok = t := by
  simp [xTokens, List.mem_map, List.mem_filter]
  constructor
  · rintro ⟨d, ⟨hd, hx⟩, ht⟩
    exact ⟨d, hd, hx, ht⟩
  · rintro ⟨d, hd, hx, ht⟩
    exact ⟨d, ⟨hd, hx⟩, ht⟩

theorem mem_yTokens (datas : List XYVar) (t : Nat) :
    t ∈ yTokens datas ↔ ∃ d ∈ datas, d.hasY = true ∧ d.yTok = t := by
  simp [yTokens, List.mem_map, List.mem_filter]
  constructor
  · rintro ⟨d, ⟨hd, hx⟩, ht⟩
    exact ⟨d, hd, hx, ht⟩
  · rintro ⟨d, hd, hx, ht⟩
    exact ⟨d, ⟨hd, hx⟩, ht⟩

/-- The raise condition of assert_xy_unique, phrased over datasets. -/
def xyConflict (datas : List XYVar) : Prop :=
  (∃ a ∈ datas, ∃ b ∈ datas, a.hasX = true ∧ b.hasX = true ∧ a.xTok ≠ b.xTok) ∨
  (∃ a ∈ datas, ∃ b ∈ datas, a.hasY = true ∧ b.hasY = true ∧ a.yTok ≠ b.yTok)

theorem assert_cond_iff (datas : List XYVar) :
    (1 < (xTokens datas).dedup.length ∨ 1 < (yTokens datas).dedup.length) ↔
      xyConflict datas := by
  rw [one_lt_dedup_length_iff, one_lt_dedup_length_iff]
  unfold xyConflict
  constructor
  · rintro (⟨t1, h1, t2, h2, hne⟩ | ⟨t1, h1, t2, h2, hne⟩)
    · obtain ⟨a, ha, hax, hat⟩ := (mem_xTokens datas t1).mp h1
      obtain ⟨b, hb, hbx, hbt⟩ := (mem_xTokens datas t2).mp h2
      exact Or.inl ⟨a, ha, b, hb, hax, hbx, by rw [hat, hbt]; exact hne⟩
    · obtain ⟨a, ha, hax, hat⟩ := (mem_yTokens datas t1).mp h1
      obtain ⟨b, hb, hbx, hbt⟩ := (mem_yTokens datas t2).mp h2
      exact Or.inr ⟨a, ha, b, hb, hax, hbx, by rw [hat, hbt]; exact hne⟩
  · rintro (⟨a, ha, b, hb, hax, hbx, hne⟩ | ⟨a, ha, b, hb, hax, hbx, hne⟩)
    · exact Or.inl ⟨a.xTok, (mem_xTokens datas _).mpr ⟨a, ha, hax, rfl⟩,
        b.xTok, (mem_xTokens datas _).mpr ⟨b, hb, hbx, rfl⟩, hne⟩
    · exact Or.inr ⟨a.yTok, (mem_yTokens datas _).mpr ⟨a, ha, hax, rfl⟩,
        b.yTok, (mem_yTokens datas _).mpr ⟨b, hb, hbx, rfl⟩, hne⟩

/-! ## Claim theorems -/

/-- Claim C1: assert_xy_unique raises a ValueError exactly when the x
fingerprints, or the y fingerprints, across the variables that have the
corresponding dimension take more than one distinct value; when it raises,
the save pipeline performs no write, and when all variables agree (or lack
the dimensions) the check passes. -/
theorem assert_xy_unique_spec (datas : List XYVar) :
    ((∃ e, assert_xy_unique datas = Except.error e) ↔ xyConflict datas) ∧
    (xyConflict datas → (cf_save_model datas).1 = []) := by
  have hiff := assert_cond_iff datas
  constructor
  · constructor
    · intro ⟨e, he⟩
      by_cases hc : 1 < (xTokens datas).dedup.length ∨ 1 < (yTokens datas).dedup.length
      · exact hiff.mp hc
      · simp [assert_xy_unique, hc] at he
    · intro hconf
      have hc := hiff.mpr hconf
      simp only [assert_xy_unique, if_pos hc]
      exact ⟨_, rfl⟩
  · intro hconf
    have hc := hiff.mpr hconf
    simp [cf_save_model, assert_xy_unique, hc]

/-- Claim C1 witness: two variables with differing y fingerprints conflict
and trigger the error path with no write performed. -/
theorem assert_xy_unique_spec_witness :
    xyConflict [⟨true, 0, true, 1⟩, ⟨true, 0, true, 2⟩] ∧
    (cf_save_model [⟨true, 0, true, 1⟩, ⟨true, 0, true, 2⟩]).1 = [] := by
  have h : xyConflict [⟨true, 0, true, 1⟩, ⟨true, 0, true, 2⟩] := by
    right
    exact ⟨⟨true, 0, true, 1⟩, by simp, ⟨true, 0, true, 2⟩, by simp, rfl, rfl, by decide⟩
  exact ⟨h, (assert_xy_unique_spec _).2 h⟩

theorem get_extra_loop_none :
    ∀ (l : AncList) (acc : List (String × AncDA)),
      get_extra_loop l acc none = (acc, none)
  | .nil, _ => rfl
  | .cons _ tl, acc => by
    simp only [get_extra_loop]
    exact get_extra_loop_none tl acc

/-- Claim C2 (code bug): called as the collection step does, with the
default keys=None, get_extra_ds returns only the dataset itself; the loop
guard if keys and ... is falsy, so no declared ancillary variable is ever
gathered. -/
theorem get_extra_ds_ignores_ancillaries (da : AncDA) :
    (get_extra_ds da none).1 = [(da.name, da)] := by
  match da with
  | .mk nm anc =>
    simp [get_extra_ds, get_extra_loop_none, dictSet, AncDA.name]

/-- Claim C9: collect_cf_datasets on an empty input list fails immediately
with the RuntimeError precondition message, producing no output containers. -/
theorem collect_cf_datasets_empty (groups : Option (List (String × List String))) :
    collect_cf_datasets [] groups =
      Except.error "None of the requested datasets have been generated or could not be loaded. Requested composite inputs may need to have matching dimensions (eg. through resampling)." := by
  simp [collect_cf_datasets]

/-- Claim C10: when the (ungrouped) collection contains a time variable but
every collected start_time is None, or every collected end_time is None,
the time-bounds step raises the min-of-empty-sequence ValueError and the
collection aborts; without a time variable the step is skipped instead. -/
theorem collect_time_bounds_all_none (das : List GDA)
    (ht : das.any (fun d => d.has_time) = true)
    (hn : (∀ d ∈ das, d.start_time = none) ∨ (∀ d ∈ das, d.end_time = none)) :
    collect_cf_datasets das none = Except.error "min() arg is an empty sequence" := by
  have hne : das ≠ [] := by
    intro h; rw [h] at ht; simp at ht
  have hempty : das.isEmpty = false := by
    cases das with
    | nil => exact absurd rfl hne
    | cons a l => rfl
  have hbounds : make_time_bounds (das.map (fun d => d.start_time))
      (das.map (fun d => d.end_time)) =
      Except.error "min() arg is an empty sequence" := by
    rcases hn with hs | he
    · have hstart : (das.map (fun d => d.start_time)).filterMap id = [] := by
        rw [List.filterMap_eq_nil_iff]
        intro a hamem
        obtain ⟨d, hd, rfl⟩ := List.mem_map.mp hamem
        simp [hs d hd]
      unfold make_time_bounds
      rw [hstart]
      simp
    · have hend : (das.map (fun d => d.end_time)).filterMap id = [] := by
        rw [List.filterMap_eq_nil_iff]
        intro a hamem
        obtain ⟨d, hd, rfl⟩ := List.mem_map.mp hamem
        simp [he d hd]
      unfold make_time_bounds
      rw [hend]
      cases hmin : ((das.map fun d => d.start_time).filterMap id).min? with
      | none => simp [hmin]
      | some s => simp [hmin]
  unfold collect_cf_datasets
  rw [hempty]
  simp only [Bool.false_eq_true, if_false, get_groups]
  unfold collect_groups_loop
  simp only [collect_group, ht, if_true, hbounds]
  rfl

/-- Claim C10 witness: a single dataset with a time coordinate and a None
start_time makes the collection abort with the ValueError. -/
theorem collect_time_bounds_all_none_witness :
    ([({ name := "a", has_time := true, start_time := none,
         end_time := some 3 } : GDA)].any (fun d => d.has_time) = true) ∧
    collect_cf_datasets
      [{ name := "a", has_time := true, start_time := none, end_time := some 3 }]
      none = Except.error "min() arg is an empty sequence" := by
  refine ⟨by decide, ?_⟩
  exact collect_time_bounds_all_none _ (by decide) (Or.inl (by decide))

theorem area2lonlat_area (da : GeoArray) : (area2lonlat da).area = da.area := rfl

theorem area2lonlat_attrs (da : GeoArray) : (area2lonlat da).attrs = da.attrs := rfl

/-- On a gridded area, area2cf_tail emits the named zero-valued auxiliary
variable followed by the array with grid_mapping set. -/
theorem area2cf_tail_grid (da : GeoArray) (aid : String)
    (cf : List (String × String)) (lons lats : Nat)
    (h : da.area = PjArea.areaDef aid cf lons lats) :
    area2cf_tail da =
      [CfOut.auxVar { name := aid, value := 0, attrs := cf },
       CfOut.dataArr { da with attrs := dictSet da.attrs "grid_mapping" aid }] := by
  unfold area2cf_tail area2gridmapping
  rw [h]
  rfl

theorem area2cf_tail_swath (da : GeoArray) (lons lats : Nat)
    (h : da.area = PjArea.swathDef lons lats) :
    area2cf_tail da = [CfOut.dataArr da] := by
  unfold area2cf_tail
  rw [h]
  rfl

/-- Any data array emitted by area2cf_tail keeps the coordinates of its
input. -/
theorem area2cf_tail_coords (da : GeoArray) (d : GeoArray)
    (hd : CfOut.dataArr d ∈ area2cf_tail da) : d.coords = da.coords := by
  cases harea : da.area with
  | areaDef aid cf lons lats =>
    rw [area2cf_tail_grid da aid cf lons lats harea] at hd
    simp only [List.mem_cons, List.not_mem_nil, or_false] at hd
    rcases hd with hd | hd
    · exact absurd hd (by simp)
    · rw [(CfOut.dataArr.injEq _ _).mp hd]
  | swathDef lons lats =>
    rw [area2cf_tail_swath da lons lats harea] at hd
    simp only [List.mem_cons, List.not_mem_nil, or_false] at hd
    rw [(CfOut.dataArr.injEq _ _).mp hd]

theorem area2lonlat_lookup_lon (da : GeoArray) :
    List.lookup "longitude" (area2lonlat da).coords =
      some { std_name := "longitude", units := "degrees_east",
             data := da.area.get_lonlats.1 } := by
  unfold area2lonlat
  rw [lookup_dictSet_ne _ _ _ _ (by decide), lookup_dictSet_self]

theorem area2lonlat_lookup_lat (da : GeoArray) :
    List.lookup "latitude" (area2lonlat da).coords =
      some { std_name := "latitude", units := "degrees_north",
             data := da.area.get_lonlats.2 } := by
  unfold area2lonlat
  rw [lookup_dictSet_self]

/-- Claim C3 counterexample: a swath-referenced data array in a collection
that already has projection coordinates (got_lonlats=True) is returned
without any longitude coordinate variable attached, so being a Swath alone
does not imply that lon/lat are attached. -/
theorem area2cf_swath_counterexample :
    PjArea.isSwath (GeoArray.mk (.swathDef 5 7) [] []).area = true ∧
    area2cf (GeoArray.mk (.swathDef 5 7) [] []) false true =
      [CfOut.dataArr (GeoArray.mk (.swathDef 5 7) [] [])] ∧
    List.lookup "longitude" (GeoArray.mk (.swathDef 5 7) [] []).coords = none := by
  refine ⟨rfl, ?_, rfl⟩
  rfl

/-- Claim C3 (amended): when lon/lat are not already present in the
collection and the spatial reference is a Swath or strict mode is
requested, the returned data array carries longitude and latitude
coordinate variables with standard names longitude/latitude and units
degrees_east/degrees_north; and whenever the spatial reference is a Grid,
the result is the zero-valued auxiliary grid-mapping variable named after
the area identifier followed by the data array whose grid_mapping
attribute is that identifier. -/
theorem area2cf_spec (da : GeoArray) (strict got_lonlats : Bool) :
    (got_lonlats = false → (da.area.isSwath = true ∨ strict = true) →
      ∀ d, CfOut.dataArr d ∈ area2cf da strict got_lonlats →
        List.lookup "longitude" d.coords =
          some { std_name := "longitude", units := "degrees_east",
                 data := da.area.get_lonlats.1 } ∧
        List.lookup "latitude" d.coords =
          some { std_name := "latitude", units := "degrees_north",
                 data := da.area.get_lonlats.2 }) ∧
    (∀ aid cf lons lats, da.area = PjArea.areaDef aid cf lons lats →
      ∃ d, area2cf da strict got_lonlats =
          [CfOut.auxVar { name := aid, value := 0, attrs := cf },
           CfOut.dataArr d] ∧
        List.lookup "grid_mapping" d.attrs = some aid) := by
  constructor
  · intro hgl hcond d hd
    have hc : (!got_lonlats && (da.area.isSwath || strict)) = true := by
      subst hgl
      rcases hcond with h | h <;> simp [h]
    unfold area2cf at hd
    rw [hc, if_pos rfl] at hd
    have hco : d.coords = (area2lonlat da).coords := area2cf_tail_coords _ _ hd
    rw [hco]
    exact ⟨area2lonlat_lookup_lon da, area2lonlat_lookup_lat da⟩
  · intro aid cf lons lats harea
    unfold area2cf
    cases hc : (!got_lonlats && (da.area.isSwath || strict)) with
    | true =>
      rw [if_pos rfl]
      rw [area2cf_tail_grid (area2lonlat da) aid cf lons lats
        ((area2lonlat_area da).trans harea)]
      refine ⟨_, rfl, ?_⟩
      rw [show ({ area2lonlat da with
          attrs := dictSet (area2lonlat da).attrs "grid_mapping" aid } :
          GeoArray).attrs = dictSet (area2lonlat da).attrs "grid_mapping" aid
          from rfl]
      exact lookup_dictSet_self _ _ _
    | false =>
      rw [if_neg (by simp)]
      rw [area2cf_tail_grid da aid cf lons lats harea]
      refine ⟨_, rfl, ?_⟩
      rw [show ({ da with
          attrs := dictSet da.attrs "grid_mapping" aid } :
          GeoArray).attrs = dictSet da.attrs "grid_mapping" aid from rfl]
      exact lookup_dictSet_self _ _ _

/-- Claim C3 witness: a swath array with got_lonlats=False gets lon/lat
attached, and a grid array yields the named zero-valued grid-mapping
variable and grid_mapping attribute. -/
theorem area2cf_spec_witness :
    (∀ d, CfOut.dataArr d ∈
        area2cf (GeoArray.mk (.swathDef 5 7) [] []) false false →
      List.lookup "longitude" d.coords =
        some { std_name := "longitude", units := "degrees_east", data := 5 } ∧
      List.lookup "latitude" d.coords =
        some { std_name := "latitude", units := "degrees_north", data := 7 }) ∧
    (∃ d, area2cf (GeoArray.mk (.areaDef "laea" [("gm", "laea")] 3 4) [] [])
          false true =
        [CfOut.auxVar { name := "laea", value := 0, attrs := [("gm", "laea")] },
         CfOut.dataArr d] ∧
      List.lookup "grid_mapping" d.attrs = some "laea") := by
  constructor
  · exact (area2cf_spec (GeoArray.mk (.swathDef 5 7) [] []) false false).1
      rfl (Or.inl rfl)
  · exact (area2cf_spec (GeoArray.mk (.areaDef "laea" [("gm", "laea")] 3 4) [] [])
      false true).2 "laea" [("gm", "laea")] 3 4 rfl

/-! ### C5 lemmas -/

theorem lookup_mem {β : Type} {l : List (String × β)} {k : String} {v : β}
    (h : List.lookup k l = some v) : (k, v) ∈ l := by
  induction l with
  | nil => simp [List.lookup] at h
  | cons p t ih =>
    obtain ⟨pk, pv⟩ := p
    rw [List.lookup_cons] at h
    cases hkp : (k == pk) with
    | true =>
      rw [hkp] at h
      simp only [Option.some.injEq] at h
      have hk : k = pk := by
        have := of_decide_eq_true (by simpa using hkp)
        exact this
      subst hk
      subst h
      exact List.mem_cons_self _ _
    | false =>
      rw [hkp] at h
      exact List.mem_cons_of_mem _ (ih h)

theorem lookup_of_mem_nodup {β : Type} {l : List (String × β)} {k : String}
    {v : β} (hmem : (k, v) ∈ l) (hnd : (l.map Prod.fst).Nodup) :
    List.lookup k l = some v := by
  induction l with
  | nil => simp at hmem
  | cons p t ih =>
    obtain ⟨pk, pv⟩ := p
    rw [List.map_cons, List.nodup_cons] at hnd
    rcases List.mem_cons.mp hmem with h | h
    · rw [← h, List.lookup_cons]
      simp
    · have hk : k ∈ List.map Prod.fst t := List.mem_map.mpr ⟨(k, v), h, rfl⟩
      have hkp : k ≠ pk := fun he => hnd.1 (he ▸ hk)
      rw [List.lookup_cons, beq_eq_false_iff_ne.mpr hkp]
      exact ih h hnd.2

theorem string_append_ne (d m : String) : d ++ "_" ++ m ≠ m := by
  intro h
  have hl := congrArg String.length h
  rw [String.length_append, String.length_append] at hl
  have : ("_" : String).length = 1 := rfl
  omega

theorem string_append_cancel {d m m' : String}
    (h : d ++ "_" ++ m = d ++ "_" ++ m') : m = m' := by
  have hd : d.data ++ (("_" : String).data ++ m.data) =
      d.data ++ (("_" : String).data ++ m'.data) := by
    have := congrArg String.data h
    simpa [String.data_append, List.append_assoc] using this
  have h2 := List.append_cancel_left (List.append_cancel_left hd)
  cases m with
  | mk lm =>
    cases m' with
    | mk lm' =>
      exact congrArg String.mk h2

theorem renameCoord_mem_other (v : ADSet) (m tgt x : String) (c : ACoord)
    (hxm : x ≠ m) (hxt : x ≠ tgt) :
    ((x, c) ∈ (renameCoord v m tgt).coords ↔ (x, c) ∈ v.coords) := by
  show (x, c) ∈ v.coords.map (fun q => if q.1 = m then (tgt, q.2) else q) ↔ _
  constructor
  · intro h
    obtain ⟨q, hq, hfq⟩ := List.mem_map.mp h
    by_cases hqm : q.1 = m
    · rw [if_pos hqm] at hfq
      exact absurd (congrArg Prod.fst hfq).symm hxt
    · rw [if_neg hqm] at hfq
      exact hfq ▸ hq
  · intro h
    refine List.mem_map.mpr ⟨(x, c), h, ?_⟩
    rw [if_neg]
    exact hxm

theorem renameCoord_not_mem_old (v : ADSet) (m tgt : String) (c : ACoord)
    (hne : tgt ≠ m) : (m, c) ∉ (renameCoord v m tgt).coords := by
  intro h
  obtain ⟨q, _, hfq⟩ := List.mem_map.mp h
  by_cases hqm : q.1 = m
  · rw [if_pos hqm] at hfq
    exact hne (congrArg Prod.fst hfq)
  · rw [if_neg hqm] at hfq
    exact hqm (congrArg Prod.fst hfq)

theorem renameCoord_mem_tgt_iff (v : ADSet) (m tgt : String) (c : ACoord)
    (hne : tgt ≠ m) :
    ((tgt, c) ∈ (renameCoord v m tgt).coords ↔
      (m, c) ∈ v.coords ∨ (tgt, c) ∈ v.coords) := by
  show (tgt, c) ∈ v.coords.map (fun q => if q.1 = m then (tgt, q.2) else q) ↔ _
  constructor
  · intro h
    obtain ⟨q, hq, hfq⟩ := List.mem_map.mp h
    by_cases hqm : q.1 = m
    · rw [if_pos hqm] at hfq
      left
      obtain ⟨qk, qv⟩ := q
      simp only at hqm
      subst hqm
      have : qv = c := congrArg Prod.snd hfq
      subst this
      exact hq
    · rw [if_neg hqm] at hfq
      right
      exact hfq ▸ hq
  · intro h
    rcases h with h | h
    · refine List.mem_map.mpr ⟨(m, c), h, ?_⟩
      simp
    · refine List.mem_map.mpr ⟨(tgt, c), h, ?_⟩
      rw [if_neg]
      exact hne

theorem mem_renamePass (orig acc : List (String × ADSet)) (n : String)
    (d : String) (v : ADSet) (hmem : (d, v) ∈ acc) :
    (d, renameEntry orig d v n) ∈ renamePass orig acc n := by
  unfold renamePass renameEntry
  refine List.mem_map.mpr ⟨(d, v), hmem, ?_⟩
  cases List.lookup d orig with
  | none => rfl
  | some od =>
    by_cases hc : n ∈ coordKeys od
    · simp [hc]
    · simp [hc]

theorem mem_altStep (datas : List (String × ADSet)) (pretty : Bool)
    (acc : List (String × ADSet)) (n : String) (d : String) (v : ADSet)
    (hmem : (d, v) ∈ acc) :
    (d, entryStep datas pretty d v n) ∈ altStep datas pretty acc n := by
  unfold altStep entryStep
  by_cases hc : pretty = false ∨ ¬ altUnique datas n
  · rw [if_pos hc, if_pos hc]
    exact mem_renamePass datas acc n d v hmem
  · rw [if_neg hc, if_neg hc]
    exact hmem

theorem mem_fold_altStep (datas : List (String × ADSet)) (pretty : Bool)
    (d : String) (L : List String) :
    ∀ (acc : List (String × ADSet)) (v : ADSet), (d, v) ∈ acc →
      (d, entryFold datas pretty d L v) ∈ L.foldl (altStep datas pretty) acc := by
  induction L with
  | nil => intro acc v hmem; exact hmem
  | cons m L ih =>
    intro acc v hmem
    rw [show entryFold datas pretty d (m :: L) v =
      entryFold datas pretty d L (entryStep datas pretty d v m) from rfl]
    exact ih _ _ (mem_altStep datas pretty acc m d v hmem)

theorem entryStep_mem_iff (datas : List (String × ADSet)) (pretty : Bool)
    (d : String) (ds : ADSet) (hlook : List.lookup d datas = some ds)
    (v : ADSet) (m x : String) (c : ACoord)
    (hx : (pretty = false ∨ ¬ altUnique datas m) → (m ≠ x ∧ x ≠ d ++ "_" ++ m)) :
    ((x, c) ∈ (entryStep datas pretty d v m).coords ↔ (x, c) ∈ v.coords) := by
  unfold entryStep
  by_cases hc : pretty = false ∨ ¬ altUnique datas m
  · rw [if_pos hc]
    obtain ⟨h1, h2⟩ := hx hc
    simp only [renameEntry, hlook]
    by_cases hm : m ∈ coordKeys ds
    · rw [if_pos hm]
      exact renameCoord_mem_other v m _ x c (Ne.symm h1) h2
    · rw [if_neg hm]
  · rw [if_neg hc]

theorem entryFold_mem_iff (datas : List (String × ADSet)) (pretty : Bool)
    (d : String) (ds : ADSet) (hlook : List.lookup d datas = some ds)
    (L : List String) (x : String) (c : ACoord)
    (hL : ∀ m ∈ L, (pretty = false ∨ ¬ altUnique datas m) →
      (m ≠ x ∧ x ≠ d ++ "_" ++ m)) :
    ∀ v : ADSet,
      ((x, c) ∈ (entryFold datas pretty d L v).coords ↔ (x, c) ∈ v.coords) := by
  induction L with
  | nil => intro v; exact Iff.rfl
  | cons m L ih =>
    intro v
    rw [show entryFold datas pretty d (m :: L) v =
      entryFold datas pretty d L (entryStep datas pretty d v m) from rfl]
    rw [ih (fun q hq => hL q (List.mem_cons_of_mem m hq)) _]
    exact entryStep_mem_iff datas pretty d ds hlook v m x c
      (hL m (List.mem_cons_self m L))

theorem mem_coordKeys_of_mem {ds : ADSet} {k : String} {c : ACoord}
    (h : (k, c) ∈ ds.coords) : k ∈ coordKeys ds :=
  List.mem_map_of_mem Prod.fst h

theorem not_mem_pair_of_not_key {ds : ADSet} {k : String}
    (h : k ∉ coordKeys ds) : ∀ c, (k, c) ∉ ds.coords := by
  intro c hc
  exact h (mem_coordKeys_of_mem hc)

theorem altNames_nodup (datas : List (String × ADSet)) : (altNames datas).Nodup :=
  List.nodup_dedup _

theorem nodup_split_of_mem {α : Type} (l : List α) (a : α) (hnd : l.Nodup)
    (ha : a ∈ l) : ∃ s t, l = s ++ a :: t ∧ a ∉ s ∧ a ∉ t := by
  obtain ⟨s, t, rfl⟩ := List.append_of_mem ha
  rw [List.nodup_append] at hnd
  refine ⟨s, t, rfl, ?_, ?_⟩
  · intro has
    exact hnd.2.2 has (List.mem_cons_self a t)
  · have := hnd.2.1
    rw [List.nodup_cons] at this
    exact this.1

theorem dedup_length_one (l : List Nat) (hne : l ≠ [])
    (hall : ∀ a ∈ l, ∀ b ∈ l, a = b) : l.dedup.length = 1 := by
  have h1 : ¬ 1 < l.dedup.length := by
    rw [one_lt_dedup_length_iff]
    rintro ⟨a, ha, b, hb, hab⟩
    exact hab (hall a ha b hb)
  have h0 : l.dedup ≠ [] := by
    intro h
    exact hne ((List.dedup_eq_nil l).mp h)
  have : l.dedup.length ≠ 0 := fun h => h0 (List.length_eq_zero.mp h)
  omega

theorem not_altUnique_of_diff (datas : List (String × ADSet)) (n : String)
    (h : ∃ t1 ∈ tokensFor datas n, ∃ t2 ∈ tokensFor datas n, t1 ≠ t2) :
    ¬ altUnique datas n := by
  have := (one_lt_dedup_length_iff (tokensFor datas n)).mpr h
  unfold altUnique
  omega

theorem tokensFor_ne_nil_of_mem_altNames (datas : List (String × ADSet))
    (n : String) (hq : n ∈ altNames datas) : tokensFor datas n ≠ [] := by
  unfold altNames at hq
  have hj := List.mem_dedup.mp hq
  obtain ⟨l, hl, hnl⟩ := List.mem_flatten.mp hj
  obtain ⟨p, hp, rfl⟩ := List.mem_map.mp hl
  have := (List.mem_filter.mp hnl).2
  intro hnil
  unfold tokensFor at hnil
  rw [List.filterMap_eq_nil_iff] at hnil
  have hnone := hnil p hp
  rw [hnone] at this
  simp at this

/-- Claim C5: for every non-dimension, non-longitude/latitude coordinate
name occurring in the group, when its fingerprints differ across datasets,
or pretty is not requested, every dataset holding that coordinate has it
renamed to datasetname_coordname in the result; when all fingerprints agree
and pretty is requested, the coordinate keeps its name.  The freshness
hypotheses rule out the degenerate case of a pre-existing coordinate
already carrying a prefixed name. -/
theorem make_alt_coords_unique_spec
    (datas : List (String × ADSet)) (pretty : Bool) (d : String) (ds : ADSet)
    (n : String) (c : ACoord)
    (hnd : (datas.map Prod.fst).Nodup)
    (hmem : (d, ds) ∈ datas)
    (hq : n ∈ altNames datas)
    (hfresh : ∀ m ∈ altNames datas, d ++ "_" ++ m ∉ altNames datas)
    (hc0 : d ++ "_" ++ n ∉ coordKeys ds)
    (hcoord : (n, c) ∈ ds.coords) :
    ∃ ds', (d, ds') ∈ make_alt_coords_unique datas pretty ∧
      (((∃ t1 ∈ tokensFor datas n, ∃ t2 ∈ tokensFor datas n, t1 ≠ t2) ∨
          pretty = false) →
        (d ++ "_" ++ n, c) ∈ ds'.coords ∧ ∀ c', (n, c') ∉ ds'.coords) ∧
      ((pretty = true ∧
          (∀ t1 ∈ tokensFor datas n, ∀ t2 ∈ tokensFor datas n, t1 = t2)) →
        (n, c) ∈ ds'.coords ∧ ∀ c', (d ++ "_" ++ n, c') ∉ ds'.coords) := by
  have hlook : List.lookup d datas = some ds := lookup_of_mem_nodup hmem hnd
  refine ⟨entryFold datas pretty d (altNames datas) ds,
    mem_fold_altStep datas pretty d (altNames datas) datas ds hmem, ?_, ?_⟩
  · intro hdiff
    have hcond : pretty = false ∨ ¬ altUnique datas n := by
      rcases hdiff with h | h
      · exact Or.inr (not_altUnique_of_diff datas n h)
      · exact Or.inl h
    obtain ⟨L₁, L₂, hsplit, hn1, hn2⟩ :=
      nodup_split_of_mem (altNames datas) n (altNames_nodup datas) hq
    have hsub1 : ∀ m ∈ L₁, m ∈ altNames datas := by
      intro m hm; rw [hsplit]; exact List.mem_append_left _ hm
    have hsub2 : ∀ m ∈ L₂, m ∈ altNames datas := by
      intro m hm
      rw [hsplit]
      exact List.mem_append_right _ (List.mem_cons_of_mem n hm)
    have hfold : entryFold datas pretty d (altNames datas) ds =
        entryFold datas pretty d L₂
          (entryStep datas pretty d (entryFold datas pretty d L₁ ds) n) := by
      rw [hsplit]
      unfold entryFold
      rw [List.foldl_append, List.foldl_cons]
    set v₁ := entryFold datas pretty d L₁ ds with hv₁
    have hA1 : ∀ c', ((n, c') ∈ v₁.coords ↔ (n, c') ∈ ds.coords) := by
      intro c'
      exact entryFold_mem_iff datas pretty d ds hlook L₁ n c'
        (fun m hm _ => ⟨fun he => hn1 (he ▸ hm),
          fun he => hfresh m (hsub1 m hm) (he ▸ hq)⟩) ds
    have hA2 : ∀ c', ((d ++ "_" ++ n, c') ∈ v₁.coords ↔
        (d ++ "_" ++ n, c') ∈ ds.coords) := by
      intro c'
      refine entryFold_mem_iff datas pretty d ds hlook L₁ (d ++ "_" ++ n) c'
        (fun m hm _ => ⟨?_, ?_⟩) ds
      · intro he
        exact hfresh n hq (he ▸ hsub1 m hm)
      · intro he
        have hmn : m = n := string_append_cancel he.symm
        exact hn1 (hmn ▸ hm)
    have hstep : entryStep datas pretty d v₁ n =
        renameCoord v₁ n (d ++ "_" ++ n) := by
      unfold entryStep
      rw [if_pos hcond]
      simp only [renameEntry, hlook]
      rw [if_pos (mem_coordKeys_of_mem hcoord)]
    have htgtne : d ++ "_" ++ n ≠ n := string_append_ne d n
    have hB1 : (d ++ "_" ++ n, c) ∈ (entryStep datas pretty d v₁ n).coords := by
      rw [hstep, renameCoord_mem_tgt_iff v₁ n _ c htgtne]
      exact Or.inl ((hA1 c).mpr hcoord)
    have hB2 : ∀ c', (n, c') ∉ (entryStep datas pretty d v₁ n).coords := by
      intro c'
      rw [hstep]
      exact renameCoord_not_mem_old v₁ n _ c' htgtne
    constructor
    · rw [hfold]
      refine (entryFold_mem_iff datas pretty d ds hlook L₂ (d ++ "_" ++ n) c
        (fun m hm _ => ⟨?_, ?_⟩) _).mpr hB1
      · intro he
        exact hfresh n hq (he ▸ hsub2 m hm)
      · intro he
        have hmn : m = n := string_append_cancel he.symm
        exact hn2 (hmn ▸ hm)
    · intro c'
      rw [hfold]
      intro hcontra
      refine hB2 c' ?_
      refine (entryFold_mem_iff datas pretty d ds hlook L₂ n c'
        (fun m hm _ => ⟨?_, ?_⟩) _).mp hcontra
      · intro he
        exact hn2 (he ▸ hm)
      · intro he
        exact hfresh m (hsub2 m hm) (he ▸ hq)
  · rintro ⟨hpretty, hsame⟩
    have huniq : altUnique datas n :=
      dedup_length_one _ (tokensFor_ne_nil_of_mem_altNames datas n hq) hsame
    have hncond : ∀ m, (pretty = false ∨ ¬ altUnique datas m) → m ≠ n := by
      intro m hm he
      subst he
      rcases hm with h | h
      · rw [hpretty] at h; exact Bool.noConfusion h
      · exact h huniq
    constructor
    · refine (entryFold_mem_iff datas pretty d ds hlook (altNames datas) n c
        (fun m hm hc => ⟨hncond m hc, ?_⟩) ds).mpr hcoord
      intro he
      exact hfresh m hm (he ▸ hq)
    · intro c'
      intro hcontra
      have := (entryFold_mem_iff datas pretty d ds hlook (altNames datas)
        (d ++ "_" ++ n) c' (fun m hm hc => ⟨?_, ?_⟩) ds).mp hcontra
      · exact not_mem_pair_of_not_key hc0 c' this
      · intro he
        exact hfresh n hq (he ▸ hm)
      · intro he
        have hmn : m = n := string_append_cancel he.symm
        exact (hncond m hc) hmn

/-- Claim C5 witness: two datasets with a time_offset coordinate holding
different fingerprints under pretty=true; both hypotheses hold at this
input and the coordinate of dataset a ends up renamed to a_time_offset. -/
theorem make_alt_coords_unique_spec_witness :
    ∃ ds', ("a", ds') ∈ make_alt_coords_unique
        [("a", { dims := ["y"], coords := [("time_offset", ⟨1, false⟩)] }),
         ("b", { dims := ["y"], coords := [("time_offset", ⟨2, false⟩)] })]
        true ∧
      ("a" ++ "_" ++ "time_offset", (⟨1, false⟩ : ACoord)) ∈ ds'.coords ∧
      ∀ c', ("time_offset", c') ∉ ds'.coords := by
  obtain ⟨ds', hm, hA, _⟩ := make_alt_coords_unique_spec
    [("a", { dims := ["y"], coords := [("time_offset", ⟨1, false⟩)] }),
     ("b", { dims := ["y"], coords := [("time_offset", ⟨2, false⟩)] })]
    true "a" { dims := ["y"], coords := [("time_offset", ⟨1, false⟩)] }
    "time_offset" ⟨1, false⟩
    (by decide) (by decide) (by decide) (by decide) (by decide) (by decide)
  obtain ⟨h1, h2⟩ := hA (Or.inl (by decide))
  exact ⟨ds', hm, h1, h2⟩

/-! ### C6 lemmas -/

theorem processCoord_keeps (all : List (String × LnDSet)) (d : String)
    (st : LnDSet × List (String × String)) (c : String) :
    (processCoord all d st c).1.dims = st.1.dims ∧
    (processCoord all d st c).1.payload = st.1.payload := by
  unfold processCoord
  by_cases hg : c ∈ st.1.coords.map Prod.fst
  · rw [if_pos hg]
    exact ⟨rfl, rfl⟩
  · rw [if_neg hg]
    cases lookupVar all c <;> exact ⟨rfl, rfl⟩

theorem foldC_keeps (all : List (String × LnDSet)) (d : String) (L : List String) :
    ∀ st, ((L.foldl (processCoord all d) st).1.dims = st.1.dims ∧
      (L.foldl (processCoord all d) st).1.payload = st.1.payload) := by
  induction L with
  | nil => intro st; exact ⟨rfl, rfl⟩
  | cons c L ih =>
    intro st
    rw [List.foldl_cons]
    obtain ⟨h1, h2⟩ := ih (processCoord all d st c)
    obtain ⟨g1, g2⟩ := processCoord_keeps all d st c
    exact ⟨h1.trans g1, h2.trans g2⟩

theorem processCoord_coords_mono (all : List (String × LnDSet)) (d : String)
    (st : LnDSet × List (String × String)) (c : String) (k : String)
    (v : List String × Nat) (h : (k, v) ∈ st.1.coords) :
    (k, v) ∈ (processCoord all d st c).1.coords := by
  unfold processCoord
  by_cases hg : c ∈ st.1.coords.map Prod.fst
  · rw [if_pos hg]; exact h
  · rw [if_neg hg]
    cases lookupVar all c with
    | none => exact h
    | some sib => exact List.mem_append_left _ h

theorem foldC_coords_mono (all : List (String × LnDSet)) (d : String)
    (L : List String) :
    ∀ st k v, (k, v) ∈ st.1.coords →
      (k, v) ∈ (L.foldl (processCoord all d) st).1.coords := by
  induction L with
  | nil => intro st k v h; exact h
  | cons c L ih =>
    intro st k v h
    rw [List.foldl_cons]
    exact ih _ k v (processCoord_coords_mono all d st c k v h)

theorem processCoord_ws_mono (all : List (String × LnDSet)) (d : String)
    (st : LnDSet × List (String × String)) (c : String) (w : String × String)
    (h : w ∈ st.2) : w ∈ (processCoord all d st c).2 := by
  unfold processCoord
  by_cases hg : c ∈ st.1.coords.map Prod.fst
  · rw [if_pos hg]; exact h
  · rw [if_neg hg]
    cases lookupVar all c with
    | none => exact List.mem_append_left _ h
    | some sib => exact h

theorem foldC_ws_mono (all : List (String × LnDSet)) (d : String)
    (L : List String) :
    ∀ st w, w ∈ st.2 → w ∈ (L.foldl (processCoord all d) st).2 := by
  induction L with
  | nil => intro st w h; exact h
  | cons c L ih =>
    intro st w h
    rw [List.foldl_cons]
    exact ih _ w (processCoord_ws_mono all d st c w h)

theorem processCoord_key_prov (all : List (String × LnDSet)) (d : String)
    (st : LnDSet × List (String × String)) (c : String) (k : String)
    (h : k ∈ (processCoord all d st c).1.coords.map Prod.fst) :
    k ∈ st.1.coords.map Prod.fst ∨ (lookupVar all k).isSome = true := by
  unfold processCoord at h
  by_cases hg : c ∈ st.1.coords.map Prod.fst
  · rw [if_pos hg] at h; exact Or.inl h
  · rw [if_neg hg] at h
    cases hl : lookupVar all c with
    | none => rw [hl] at h; exact Or.inl h
    | some sib =>
      rw [hl] at h
      simp only [List.map_append, List.map_cons, List.map_nil] at h
      rcases List.mem_append.mp h with h | h
      · exact Or.inl h
      · simp only [List.mem_singleton] at h
        subst h
        rw [hl]
        exact Or.inr rfl

theorem foldC_key_prov (all : List (String × LnDSet)) (d : String)
    (L : List String) :
    ∀ st k, k ∈ (L.foldl (processCoord all d) st).1.coords.map Prod.fst →
      k ∈ st.1.coords.map Prod.fst ∨ (lookupVar all k).isSome = true := by
  induction L with
  | nil => intro st k h; exact Or.inl h
  | cons c L ih =>
    intro st k h
    rw [List.foldl_cons] at h
    rcases ih _ k h with h1 | h1
    · exact processCoord_key_prov all d st c k h1
    · exact Or.inr h1

theorem processCoord_val_prov (all : List (String × LnDSet)) (d : String)
    (st : LnDSet × List (String × String)) (c : String) (k : String)
    (v : List String × Nat) (h : (k, v) ∈ (processCoord all d st c).1.coords) :
    (k, v) ∈ st.1.coords ∨
      ∃ sib, lookupVar all k = some sib ∧ v = squeezeVar sib st.1.dims := by
  unfold processCoord at h
  by_cases hg : c ∈ st.1.coords.map Prod.fst
  · rw [if_pos hg] at h; exact Or.inl h
  · rw [if_neg hg] at h
    cases hl : lookupVar all c with
    | none => rw [hl] at h; exact Or.inl h
    | some sib =>
      rw [hl] at h
      rcases List.mem_append.mp h with h | h
      · exact Or.inl h
      · simp only [List.mem_singleton] at h
        have hk : k = c := congrArg Prod.fst h
        subst hk
        exact Or.inr ⟨sib, hl, congrArg Prod.snd h⟩

theorem foldC_val_prov (all : List (String × LnDSet)) (d : String)
    (L : List String) :
    ∀ st k v, (k, v) ∈ (L.foldl (processCoord all d) st).1.coords →
      (k, v) ∈ st.1.coords ∨
        ∃ sib, lookupVar all k = some sib ∧ v = squeezeVar sib st.1.dims := by
  induction L with
  | nil => intro st k v h; exact Or.inl h
  | cons c L ih =>
    intro st k v h
    rw [List.foldl_cons] at h
    rcases ih _ k v h with h1 | ⟨sib, hs1, hs2⟩
    · exact processCoord_val_prov all d st c k v h1
    · rw [(processCoord_keeps all d st c).1] at hs2
      exact Or.inr ⟨sib, hs1, hs2⟩

theorem foldC_attach (all : List (String × LnDSet)) (d : String) (ds : LnDSet)
    (L : List String) (c : String) (sib : List String × Nat)
    (hc : c ∈ L) (hnotorig : c ∉ ds.coords.map Prod.fst)
    (hl : lookupVar all c = some sib) :
    (c, squeezeVar sib ds.dims) ∈
      ((L.foldl (processCoord all d) (ds, []))).1.coords := by
  obtain ⟨L₁, L₂, rfl⟩ := List.append_of_mem hc
  rw [List.foldl_append, List.foldl_cons]
  set st₁ := L₁.foldl (processCoord all d) ((ds, []) :
    LnDSet × List (String × String)) with hst₁
  have hdims : st₁.1.dims = ds.dims := (foldC_keeps all d L₁ (ds, [])).1
  have hstep : (c, squeezeVar sib ds.dims) ∈ (processCoord all d st₁ c).1.coords := by
    unfold processCoord
    by_cases hg : c ∈ st₁.1.coords.map Prod.fst
    · rw [if_pos hg]
      obtain ⟨p, hp, hpk⟩ := List.mem_map.mp hg
      obtain ⟨pk, pv⟩ := p
      have hkc : pk = c := hpk
      subst hkc
      rcases foldC_val_prov all d L₁ (ds, []) pk pv hp with h | ⟨sib', hl', hv⟩
      · exact absurd (List.mem_map.mpr ⟨(pk, pv), h, rfl⟩) hnotorig
      · rw [hl'] at hl
        have hsib : sib' = sib := Option.some.injEq .. ▸ hl
        subst hsib
        have : pv = squeezeVar sib' ds.dims := hv
        rw [← this]
        exact hp
    · rw [if_neg hg]
      simp only [hl]
      rw [← hdims]
      exact List.mem_append_right _ (List.mem_singleton.mpr rfl)
  exact foldC_coords_mono all d L₂ _ _ _ hstep

theorem foldC_warn (all : List (String × LnDSet)) (d : String) (ds : LnDSet)
    (L : List String) (c : String)
    (hc : c ∈ L) (hnotorig : c ∉ ds.coords.map Prod.fst)
    (hl : lookupVar all c = none) :
    (c, d) ∈ (L.foldl (processCoord all d) (ds, [])).2 ∧
    c ∉ (L.foldl (processCoord all d) (ds, [])).1.coords.map Prod.fst := by
  constructor
  · obtain ⟨L₁, L₂, rfl⟩ := List.append_of_mem hc
    rw [List.foldl_append, List.foldl_cons]
    set st₁ := L₁.foldl (processCoord all d) ((ds, []) :
      LnDSet × List (String × String)) with hst₁
    have hg : c ∉ st₁.1.coords.map Prod.fst := by
      intro hk
      rcases foldC_key_prov all d L₁ (ds, []) c hk with h | h
      · exact hnotorig h
      · rw [hl] at h; simp at h
    have hstep : (c, d) ∈ (processCoord all d st₁ c).2 := by
      unfold processCoord
      rw [if_neg hg]
      simp only [hl]
      exact List.mem_append_right _ (List.mem_singleton.mpr rfl)
    exact foldC_ws_mono all d L₂ _ _ hstep
  · intro hk
    rcases foldC_key_prov all d L (ds, []) c hk with h | h
    · exact hnotorig h
    · rw [hl] at h; simp at h

theorem processCoord_congr (a b : List (String × LnDSet)) (d : String)
    (st : LnDSet × List (String × String)) (c : String)
    (h : ∀ x, lookupVar a x = lookupVar b x) :
    processCoord a d st c = processCoord b d st c := by
  unfold processCoord
  rw [h c]

theorem foldC_congr (a b : List (String × LnDSet)) (d : String)
    (h : ∀ x, lookupVar a x = lookupVar b x) (L : List String) :
    ∀ st, L.foldl (processCoord a d) st = L.foldl (processCoord b d) st := by
  induction L with
  | nil => intro st; rfl
  | cons c L ih =>
    intro st
    rw [List.foldl_cons, List.foldl_cons, processCoord_congr a b d st c h, ih]

theorem processOne_congr (a b : List (String × LnDSet)) (nm : String)
    (ds : LnDSet) (h : ∀ x, lookupVar a x = lookupVar b x) :
    processOne a nm ds = processOne b nm ds := by
  unfold processOne
  rw [foldC_congr a b nm h]

theorem processOne_keeps (all : List (String × LnDSet)) (nm : String)
    (ds : LnDSet) :
    (processOne all nm ds).1.dims = ds.dims ∧
    (processOne all nm ds).1.payload = ds.payload := by
  unfold processOne
  exact foldC_keeps all nm _ (ds, [])

theorem lookupVar_replace (l₁ l₂ : List (String × LnDSet)) (nm : String)
    (a b : LnDSet) (hd : a.dims = b.dims) (hp : a.payload = b.payload)
    (c : String) :
    lookupVar (l₁ ++ (nm, a) :: l₂) c = lookupVar (l₁ ++ (nm, b) :: l₂) c := by
  unfold lookupVar
  induction l₁ with
  | nil =>
    simp only [List.nil_append, List.lookup_cons]
    cases hc : (c == nm) with
    | true => simp [hd, hp]
    | false => rfl
  | cons p t ih =>
    obtain ⟨pk, pv⟩ := p
    simp only [List.cons_append, List.lookup_cons]
    cases hc : (c == pk) with
    | true => rfl
    | false => exact ih

theorem link_go_done_mem :
    ∀ (todo done : List (String × LnDSet)) (ws : List (String × String))
      (p : String × LnDSet), p ∈ done → p ∈ (link_coords_go done ws todo).1 := by
  intro todo
  induction todo with
  | nil => intro done ws p h; exact h
  | cons q rest ih =>
    intro done ws p h
    obtain ⟨nm, ds⟩ := q
    simp only [link_coords_go]
    exact ih _ _ p (List.mem_append_left _ h)

theorem link_go_ws_mem :
    ∀ (todo done : List (String × LnDSet)) (ws : List (String × String))
      (w : String × String), w ∈ ws → w ∈ (link_coords_go done ws todo).2 := by
  intro todo
  induction todo with
  | nil => intro done ws w h; exact h
  | cons q rest ih =>
    intro done ws w h
    obtain ⟨nm, ds⟩ := q
    simp only [link_coords_go]
    exact ih _ _ w (List.mem_append_left _ h)

theorem link_go_spec :
    ∀ (todo done : List (String × LnDSet)) (ws : List (String × String))
      (datas : List (String × LnDSet)),
      (∀ c, lookupVar (done ++ todo) c = lookupVar datas c) →
      ∀ d ds, (d, ds) ∈ todo →
        (d, (processOne datas d ds).1) ∈ (link_coords_go done ws todo).1 ∧
        ∀ w ∈ (processOne datas d ds).2, w ∈ (link_coords_go done ws todo).2 := by
  intro todo
  induction todo with
  | nil => intro done ws datas hlk d ds hmem; simp at hmem
  | cons q rest ih =>
    intro done ws datas hlk d ds hmem
    obtain ⟨nm, ds0⟩ := q
    have hP : processOne (done ++ (nm, ds0) :: rest) nm ds0 =
        processOne datas nm ds0 :=
      processOne_congr _ _ nm ds0 (fun c => hlk c)
    have hlk' : ∀ c,
        lookupVar ((done ++ [(nm, (processOne (done ++ (nm, ds0) :: rest) nm ds0).1)]) ++ rest) c =
          lookupVar datas c := by
      intro c
      have hassoc : (done ++ [(nm, (processOne (done ++ (nm, ds0) :: rest) nm ds0).1)]) ++ rest =
          done ++ (nm, (processOne (done ++ (nm, ds0) :: rest) nm ds0).1) :: rest := by
        rw [List.append_assoc]
        rfl
      rw [hassoc]
      rw [lookupVar_replace done rest nm _ ds0
        ((processOne_keeps _ nm ds0).1) ((processOne_keeps _ nm ds0).2) c]
      exact hlk c
    simp only [link_coords_go]
    rcases List.mem_cons.mp hmem with h | h
    · have hdnm : d = nm := congrArg Prod.fst h
      have hds : ds = ds0 := congrArg Prod.snd h
      subst hdnm
      subst hds
      constructor
      · apply link_go_done_mem
        rw [← hP]
        exact List.mem_append_right _ (List.mem_singleton.mpr rfl)
      · intro w hw
        apply link_go_ws_mem
        rw [← hP] at hw
        exact List.mem_append_right _ hw
    · exact ih _ _ datas hlk' d ds h

/-- Claim C6: for every variable declaring a coordinates attribute, each
named coordinate that is not already bound and exists as a sibling in the
group is attached with the dims absent from the referencing variable
squeezed away; a dangling reference produces a recorded warning, no
binding and no error; and the coordinates attribute is removed from every
variable in the result. -/
theorem link_coords_spec (datas : List (String × LnDSet)) (d : String)
    (ds : LnDSet) (hmem : (d, ds) ∈ datas) :
    ∃ ds', (d, ds') ∈ (link_coords datas).1 ∧
      ds'.coordAttr = none ∧
      ∀ c ∈ declaredCoords ds.coordAttr, c ∉ ds.coords.map Prod.fst →
        (∀ sib, lookupVar datas c = some sib →
          (c, squeezeVar sib ds.dims) ∈ ds'.coords) ∧
        (lookupVar datas c = none →
          (c, d) ∈ (link_coords datas).2 ∧ c ∉ ds'.coords.map Prod.fst) := by
  obtain ⟨h1, h2⟩ := link_go_spec datas [] [] datas (fun c => rfl) d ds hmem
  refine ⟨(processOne datas d ds).1, h1, rfl, ?_⟩
  intro c hc hnotorig
  constructor
  · intro sib hsib
    show (c, squeezeVar sib ds.dims) ∈
      ((declaredCoords ds.coordAttr).foldl (processCoord datas d) (ds, [])).1.coords
    exact foldC_attach datas d ds _ c sib hc hnotorig hsib
  · intro hnone
    obtain ⟨hw, hnk⟩ := foldC_warn datas d ds (declaredCoords ds.coordAttr) c
      hc hnotorig hnone
    exact ⟨h2 _ hw, hnk⟩

/-- Claim C6 witness: a variable declaring coordinates lon lat where lon is
a sibling and lat is absent: lon is attached squeezed, lat produces a
warning and no binding, and the coordinates attribute is gone. -/
theorem link_coords_spec_witness :
    ∃ ds', ("var",  ds') ∈ (link_coords
        [("var", { dims := ["y", "x"], payload := 10, coords := [],
                   coordAttr := some (.cstr "lon lat") }),
         ("lon", { dims := ["z", "y", "x"], payload := 20, coords := [],
                   coordAttr := none })]).1 ∧
      ds'.coordAttr = none ∧
      ("lon", (["y", "x"], 20)) ∈ ds'.coords ∧
      ("lat", "var") ∈ (link_coords
        [("var", { dims := ["y", "x"], payload := 10, coords := [],
                   coordAttr := some (.cstr "lon lat") }),
         ("lon", { dims := ["z", "y", "x"], payload := 20, coords := [],
                   coordAttr := none })]).2 ∧
      "lat" ∉ ds'.coords.map Prod.fst := by
  obtain ⟨ds', hm, hattr, hprop⟩ := link_coords_spec
    [("var", { dims := ["y", "x"], payload := 10, coords := [],
               coordAttr := some (.cstr "lon lat") }),
     ("lon", { dims := ["z", "y", "x"], payload := 20, coords := [],
               coordAttr := none })]
    "var" { dims := ["y", "x"], payload := 10, coords := [],
            coordAttr := some (.cstr "lon lat") }
    (by decide)
  obtain ⟨hlsome, _⟩ := hprop "lon" (by decide) (by decide)
  obtain ⟨_, hlnone⟩ := hprop "lat" (by decide) (by decide)
  obtain ⟨hw, hnk⟩ := hlnone (by decide)
  refine ⟨ds', hm, hattr, ?_, hw, hnk⟩
  have := hlsome (["z", "y", "x"], 20) (by decide)
  simpa [squeezeVar] using this

/-! ### C7 lemmas: digits, numbers, strings, whitespace -/

theorem digitChar_isDigit : ∀ n : Nat, (digitChar n).isDigit = true
  | 0 | 1 | 2 | 3 | 4 | 5 | 6 | 7 | 8 => rfl
  | _ + 9 => rfl

theorem digitVal_digitChar : ∀ n : Nat, n < 10 → digitVal (digitChar n) = n := by
  decide

theorem isDigit_ne_chars (c : Char) (h : c.isDigit = true) :
    c ≠ 'n' ∧ c ≠ 't' ∧ c ≠ 'f' ∧ c ≠ '"' ∧ c ≠ '[' ∧ c ≠ '{' ∧ c ≠ '-' ∧
    c ≠ ' ' ∧ c ≠ ']' ∧ c ≠ '}' ∧ c ≠ ',' ∧ c ≠ ':' := by
  refine ⟨?_, ?_, ?_, ?_, ?_, ?_, ?_, ?_, ?_, ?_, ?_, ?_⟩ <;>
    (intro he; subst he; exact absurd h (by decide))

theorem skipSpaces_cons_of_ne (c : Char) (l : List Char) (h : c ≠ ' ') :
    skipSpaces (c :: l) = c :: l := by
  simp [skipSpaces, List.dropWhile_cons, h]

theorem skipSpaces_cons_space (l : List Char) :
    skipSpaces (' ' :: l) = skipSpaces l := rfl

theorem natToDigits_spec : ∀ (fuel n : Nat), n < fuel →
    natToDigits fuel n ≠ [] ∧ (∀ c ∈ natToDigits fuel n, c.isDigit = true) := by
  intro fuel
  induction fuel with
  | zero => intro n h; omega
  | succ f ih =>
    intro n h
    by_cases h10 : n < 10
    · constructor
      · simp [natToDigits, h10]
      · intro c hc
        simp only [natToDigits, if_pos h10, List.mem_singleton] at hc
        subst hc
        exact digitChar_isDigit n
    · have hdiv : n / 10 < f := by
        have h1 : n / 10 < n := Nat.div_lt_self (by omega) (by omega)
        omega
      obtain ⟨hne, hdig⟩ := ih (n / 10) hdiv
      constructor
      · simp [natToDigits, h10]
      · intro c hc
        simp only [natToDigits, if_neg h10] at hc
        rcases List.mem_append.mp hc with hc | hc
        · exact hdig c hc
        · simp only [List.mem_singleton] at hc
          subst hc
          exact digitChar_isDigit _

theorem decodeDigits_append (acc : Nat) (l₁ l₂ : List Char) :
    decodeDigits acc (l₁ ++ l₂) = decodeDigits (decodeDigits acc l₁) l₂ := by
  simp [decodeDigits, List.foldl_append]

theorem decodeDigits_natToDigits : ∀ (fuel n acc : Nat), n < fuel →
    decodeDigits acc (natToDigits fuel n) =
      acc * 10 ^ (natToDigits fuel n).length + n := by
  intro fuel
  induction fuel with
  | zero => intro n acc h; omega
  | succ f ih =>
    intro n acc h
    by_cases h10 : n < 10
    · simp only [natToDigits, if_pos h10]
      show decodeDigits acc [digitChar n] = acc * 10 ^ 1 + n
      simp [decodeDigits, digitVal_digitChar n h10, pow_one]
    · have hdiv : n / 10 < f := by
        have h1 : n / 10 < n := Nat.div_lt_self (by omega) (by omega)
        omega
      simp only [natToDigits, if_neg h10]
      rw [decodeDigits_append, ih (n / 10) acc hdiv]
      have hmod10 : n % 10 < 10 := Nat.mod_lt _ (by omega)
      show decodeDigits (acc * 10 ^ (natToDigits f (n / 10)).length + n / 10)
          [digitChar (n % 10)] = _
      simp only [decodeDigits, List.foldl_cons, List.foldl_nil,
        digitVal_digitChar (n % 10) hmod10, List.length_append,
        List.length_singleton]
      have hdm := Nat.div_add_mod n 10
      rw [pow_succ]
      set t := 10 ^ (natToDigits f (n / 10)).length
      ring_nf
      omega

theorem printNat_spec (n : Nat) :
    printNat n ≠ [] ∧ (∀ c ∈ printNat n, c.isDigit = true) :=
  natToDigits_spec (n + 1) n (by omega)

theorem decode_printNat (n : Nat) : decodeDigits 0 (printNat n) = n := by
  have := decodeDigits_natToDigits (n + 1) n 0 (by omega)
  simpa [printNat] using this

theorem parseDigits_append (l : List Char) : ∀ (acc : Nat) (rest : List Char),
    (∀ c ∈ l, c.isDigit = true) → digitHead rest = false →
    parseDigits acc (l ++ rest) = (decodeDigits acc l, rest) := by
  induction l with
  | nil =>
    intro acc rest _ hr
    cases rest with
    | nil => rfl
    | cons c r =>
      have hc : c.isDigit = false := hr
      show parseDigits acc (c :: r) = (acc, c :: r)
      unfold parseDigits
      rw [hc]
      simp
  | cons c l ih =>
    intro acc rest hl hr
    have hc : c.isDigit = true := hl c (List.mem_cons_self _ _)
    show parseDigits acc (c :: (l ++ rest)) = _
    unfold parseDigits
    rw [hc]
    simp only [if_true]
    rw [ih _ rest (fun x hx => hl x (List.mem_cons_of_mem _ hx)) hr]
    rfl

theorem decodeDigits_cons (c : Char) (l : List Char) :
    decodeDigits 0 (c :: l) = decodeDigits (digitVal c) l := by
  simp [decodeDigits]

theorem parseNum_printInt (n : Int) (rest : List Char)
    (hr : digitHead rest = false) :
    parseNum (printInt n ++ rest) = some (n, rest) := by
  by_cases hneg : n < 0
  · obtain ⟨hne, hdig⟩ := printNat_spec (-n).toNat
    obtain ⟨d, ds, hd⟩ := List.exists_cons_of_ne_nil hne
    have hddig : d.isDigit = true := hdig d (by rw [hd]; exact List.mem_cons_self _ _)
    show parseNum (printInt n ++ rest) = _
    unfold printInt
    rw [if_pos hneg, List.cons_append, hd, List.cons_append]
    unfold parseNum
    simp only []
    rw [if_true, if_pos hddig]
    rw [parseDigits_append ds (digitVal d) rest
      (fun x hx => hdig x (by rw [hd]; exact List.mem_cons_of_mem _ hx)) hr]
    have hdec : decodeDigits (digitVal d) ds = (-n).toNat := by
      rw [← decodeDigits_cons, ← hd]
      exact decode_printNat _
    rw [hdec]
    have hcast : ((-n).toNat : Int) = -n := Int.toNat_of_nonneg (by omega)
    simp only [hcast, neg_neg]
  · obtain ⟨hne, hdig⟩ := printNat_spec n.toNat
    obtain ⟨d, ds, hd⟩ := List.exists_cons_of_ne_nil hne
    have hddig : d.isDigit = true := hdig d (by rw [hd]; exact List.mem_cons_self _ _)
    have hdm : d ≠ '-' := (isDigit_ne_chars d hddig).2.2.2.2.2.2.1
    show parseNum (printInt n ++ rest) = _
    unfold printInt
    rw [if_neg hneg, hd, List.cons_append]
    unfold parseNum
    simp only []
    rw [if_neg hdm, if_pos hddig]
    rw [parseDigits_append ds (digitVal d) rest
      (fun x hx => hdig x (by rw [hd]; exact List.mem_cons_of_mem _ hx)) hr]
    have hdec : decodeDigits (digitVal d) ds = n.toNat := by
      rw [← decodeDigits_cons, ← hd]
      exact decode_printNat _
    rw [hdec]
    have hcast : (n.toNat : Int) = n := Int.toNat_of_nonneg (by omega)
    rw [hcast]

theorem escapeStr_cons (c : Char) (l : List Char) :
    escapeStr (c :: l) = escapeChar c ++ escapeStr l := rfl

theorem parseStrAux_escape (l : List Char) : ∀ rest : List Char,
    parseStrAux (escapeStr l ++ ('"' :: rest)) = some (l, rest) := by
  induction l with
  | nil =>
    intro rest
    show parseStrAux ('"' :: rest) = _
    unfold parseStrAux
    rw [if_pos rfl]
  | cons c l ih =>
    intro rest
    rw [escapeStr_cons]
    by_cases h1 : c = '"'
    · subst h1
      show parseStrAux ('\\' :: ('"' :: (escapeStr l ++ ('"' :: rest)))) = _
      unfold parseStrAux
      rw [if_neg (by decide), if_pos rfl]
      simp only []
      rw [ih rest]
      rfl
    · by_cases h2 : c = '\\'
      · subst h2
        show parseStrAux ('\\' :: ('\\' :: (escapeStr l ++ ('"' :: rest)))) = _
        unfold parseStrAux
        rw [if_neg (by decide), if_pos rfl]
        simp only []
        rw [ih rest]
        rfl
      · have hchar : escapeChar c = [c] := by
          unfold escapeChar
          rw [if_neg h1, if_neg h2]
        rw [hchar, List.cons_append, List.nil_append]
        show parseStrAux (c :: (escapeStr l ++ ('"' :: rest))) = _
        unfold parseStrAux
        rw [if_neg h1, if_neg h2, ih rest]
        rfl

/-! ### C7 lemmas: head shapes and parseV branch reductions -/

theorem printInt_head (n : Int) :
    ∃ c cs, printInt n = c :: cs ∧ (c = '-' ∨ c.isDigit = true) := by
  unfold printInt
  by_cases h : n < 0
  · rw [if_pos h]
    exact ⟨'-', _, rfl, Or.inl rfl⟩
  · rw [if_neg h]
    obtain ⟨hne, hdig⟩ := printNat_spec n.toNat
    obtain ⟨d, ds, hd⟩ := List.exists_cons_of_ne_nil hne
    exact ⟨d, ds, hd,
      Or.inr (hdig d (by rw [hd]; exact List.mem_cons_self _ _))⟩

theorem dumpV_head (v : JVal) :
    ∃ c cs, dumpV v = c :: cs ∧ c ≠ ' ' ∧ c ≠ ']' ∧ c ≠ '}' := by
  cases v with
  | jnull => refine ⟨'n', _, rfl, ?_, ?_, ?_⟩ <;> decide
  | jbool b =>
    cases b with
    | true => refine ⟨'t', _, rfl, ?_, ?_, ?_⟩ <;> decide
    | false => refine ⟨'f', _, rfl, ?_, ?_, ?_⟩ <;> decide
  | jint n =>
    obtain ⟨c, cs, hpr, hcd⟩ := printInt_head n
    refine ⟨c, cs, hpr, ?_, ?_, ?_⟩ <;>
      (rcases hcd with h | h
       · subst h; decide
       · obtain ⟨_, _, _, _, _, _, _, h8, h9, h10, _, _⟩ := isDigit_ne_chars c h
         first
           | exact h8
           | exact h9
           | exact h10)
  | jstr s => refine ⟨'"', _, rfl, ?_, ?_, ?_⟩ <;> decide
  | jarr xs =>
    cases xs with
    | nil => refine ⟨'[', _, rfl, ?_, ?_, ?_⟩ <;> decide
    | cons v tl => refine ⟨'[', _, rfl, ?_, ?_, ?_⟩ <;> decide
  | jobj fs =>
    cases fs with
    | onil => refine ⟨'{', _, rfl, ?_, ?_, ?_⟩ <;> decide
    | ocons k v tl => refine ⟨'{', _, rfl, ?_, ?_, ?_⟩ <;> decide

theorem digitHead_dumpArr_close (tl : JArr) (rest : List Char) :
    digitHead (dumpArr tl ++ (']' :: rest)) = false := by
  cases tl with
  | nil => rfl
  | cons v tl => rfl

theorem digitHead_dumpObj_close (tl : JObj) (rest : List Char) :
    digitHead (dumpObj tl ++ ('}' :: rest)) = false := by
  cases tl with
  | onil => rfl
  | ocons k v tl => rfl

theorem parseV_space (f : Nat) (cs : List Char) :
    parseV f (' ' :: cs) = parseV f cs := by
  cases f with
  | zero => rfl
  | succ g => rfl

theorem parseArrItems_space (f : Nat) (cs : List Char) :
    parseArrItems f (' ' :: cs) = parseArrItems f cs := by
  cases f with
  | zero => rfl
  | succ g =>
    show (match parseV g (' ' :: cs) with
      | none => none
      | some (v, r) =>
        match skipSpaces r with
        | ',' :: r2 =>
          match parseArrItems g r2 with
          | none => none
          | some (tl, r3) => some (JArr.cons v tl, r3)
        | ']' :: r2 => some (JArr.cons v JArr.nil, r2)
        | _ => none) = _
    rw [parseV_space g cs]
    rfl

theorem parseObjItems_space (f : Nat) (cs : List Char) :
    parseObjItems f (' ' :: cs) = parseObjItems f cs := by
  cases f with
  | zero => rfl
  | succ g => rfl

theorem parseV_quote (f : Nat) (X : List Char) :
    parseV (f + 1) ('"' :: X) =
      (parseStrAux X).map (fun r => (JVal.jstr (String.mk r.1), r.2)) := rfl

theorem parseV_open_bracket (f : Nat) (c : Char) (Y : List Char)
    (h1 : c ≠ ' ') (h2 : c ≠ ']') :
    parseV (f + 1) ('[' :: (c :: Y)) =
      (parseArrItems f (c :: Y)).map (fun r => (JVal.jarr r.1, r.2)) := by
  have h0 : parseV (f + 1) ('[' :: (c :: Y)) =
      (match skipSpaces (c :: Y) with
       | [] => none
       | c2 :: rest2 =>
         if c2 = ']' then some (JVal.jarr JArr.nil, rest2)
         else (parseArrItems f (c2 :: rest2)).map
           (fun r => (JVal.jarr r.1, r.2))) := rfl
  rw [h0, skipSpaces_cons_of_ne c Y h1]
  simp only []
  rw [if_neg h2]

theorem parseV_open_brace (f : Nat) (c : Char) (Y : List Char)
    (h1 : c ≠ ' ') (h2 : c ≠ '}') :
    parseV (f + 1) ('{' :: (c :: Y)) =
      (parseObjItems f (c :: Y)).map (fun r => (JVal.jobj r.1, r.2)) := by
  have h0 : parseV (f + 1) ('{' :: (c :: Y)) =
      (match skipSpaces (c :: Y) with
       | [] => none
       | c2 :: rest2 =>
         if c2 = '}' then some (JVal.jobj JObj.onil, rest2)
         else (parseObjItems f (c2 :: rest2)).map
           (fun r => (JVal.jobj r.1, r.2))) := rfl
  rw [h0, skipSpaces_cons_of_ne c Y h1]
  simp only []
  rw [if_neg h2]

theorem parseV_num (f : Nat) (c : Char) (X : List Char)
    (h0 : c ≠ ' ') (h1 : c ≠ 'n') (h2 : c ≠ 't') (h3 : c ≠ 'f') (h4 : c ≠ '"')
    (h5 : c ≠ '[') (h6 : c ≠ '{') :
    parseV (f + 1) (c :: X) =
      (parseNum (c :: X)).map (fun r => (JVal.jint r.1, r.2)) := by
  unfold parseV
  rw [skipSpaces_cons_of_ne c X h0]
  simp only []
  rw [if_neg h1, if_neg h2, if_neg h3, if_neg h4, if_neg h5, if_neg h6]

theorem weightV_pos (v : JVal) : 1 ≤ weightV v := by
  cases v <;> simp [weightV]

theorem weightA_cons_pos (v : JVal) (tl : JArr) : 1 ≤ weightA (.cons v tl) := by
  simp [weightA]

theorem weightO_cons_pos (k : String) (v : JVal) (tl : JObj) :
    1 ≤ weightO (.ocons k v tl) := by
  simp [weightO]

/-! ### C7: the parse-print round trip -/

theorem jarr_sizeOf_pos (tl : JArr) : 0 < sizeOf tl := by
  cases tl <;> simp

theorem jobj_sizeOf_pos (tl : JObj) : 0 < sizeOf tl := by
  cases tl <;> simp

mutual
theorem parseV_dump : ∀ (v : JVal) (fuel : Nat) (rest : List Char),
    weightV v ≤ fuel → digitHead rest = false →
    parseV fuel (dumpV v ++ rest) = some (v, rest)
  | v, 0, _, hw, _ => absurd hw (by have := weightV_pos v; omega)
  | .jnull, f + 1, rest, _, _ => rfl
  | .jbool true, f + 1, rest, _, _ => rfl
  | .jbool false, f + 1, rest, _, _ => rfl
  | .jint n, f + 1, rest, _, hd => by
    obtain ⟨c, cs, hpr, hcd⟩ := printInt_head n
    show parseV (f + 1) (printInt n ++ rest) = some (.jint n, rest)
    rw [hpr, List.cons_append]
    rcases hcd with hminus | hdigit
    · subst hminus
      rw [parseV_num f '-' (cs ++ rest) (by decide) (by decide) (by decide)
        (by decide) (by decide) (by decide) (by decide)]
      rw [← List.cons_append, ← hpr, parseNum_printInt n rest hd]
      rfl
    · obtain ⟨g1, g2, g3, g4, g5, g6, _, g8, _, _, _, _⟩ :=
        isDigit_ne_chars c hdigit
      rw [parseV_num f c (cs ++ rest) g8 g1 g2 g3 g4 g5 g6]
      rw [← List.cons_append, ← hpr, parseNum_printInt n rest hd]
      rfl
  | .jstr s, f + 1, rest, _, _ => by
    show parseV (f + 1) (printStr s ++ rest) = some (.jstr s, rest)
    have hshape : printStr s ++ rest = '"' :: (escapeStr s.data ++ ('"' :: rest)) := by
      simp [printStr]
    rw [hshape, parseV_quote f _, parseStrAux_escape s.data rest]
    rfl
  | .jarr .nil, f + 1, rest, _, _ => rfl
  | .jarr (.cons v tl), f + 1, rest, hw, hd => by
    have hw1 : weightA (.cons v tl) ≤ f := by
      simp only [weightV] at hw
      omega
    have hshape : dumpV (.jarr (.cons v tl)) ++ rest =
        '[' :: (dumpV v ++ (dumpArr tl ++ (']' :: rest))) := by
      show ('[' :: (dumpV v ++ (dumpArr tl ++ [']']))) ++ rest = _
      simp
    rw [hshape]
    obtain ⟨c, cs, hcv, hc1, hc2, _⟩ := dumpV_head v
    rw [hcv, List.cons_append, parseV_open_bracket f c _ hc1 hc2,
      ← List.cons_append, ← hcv, parseArr_dump v tl f rest hw1 hd]
    rfl
  | .jobj .onil, f + 1, rest, _, _ => rfl
  | .jobj (.ocons k v tl), f + 1, rest, hw, hd => by
    have hw1 : weightO (.ocons k v tl) ≤ f := by
      simp only [weightV] at hw
      omega
    have hshape : dumpV (.jobj (.ocons k v tl)) ++ rest =
        '{' :: ('"' :: (escapeStr k.data ++
          ('"' :: (':' :: (' ' :: (dumpV v ++ (dumpObj tl ++ ('}' :: rest)))))))) := by
      show ('{' :: (printStr k ++ (':' :: (' ' :: (dumpV v ++
        (dumpObj tl ++ ['}'])))))) ++ rest = _
      simp [printStr]
    rw [hshape, parseV_open_brace f '"' _ (by decide) (by decide),
      parseObj_dump k v tl f rest hw1 hd]
    rfl
termination_by v _ _ _ _ => sizeOf v
decreasing_by
  all_goals simp_wf
  all_goals omega

theorem parseArr_dump : ∀ (v : JVal) (tl : JArr) (fuel : Nat) (rest : List Char),
    weightA (.cons v tl) ≤ fuel → digitHead rest = false →
    parseArrItems fuel (dumpV v ++ (dumpArr tl ++ (']' :: rest))) =
      some (JArr.cons v tl, rest)
  | v, tl, 0, _, hw, _ => absurd hw (by have := weightA_cons_pos v tl; omega)
  | v, .nil, f + 1, rest, hw, hd => by
    have hw1 : weightV v ≤ f := by
      simp only [weightA] at hw
      omega
    have hd1 : digitHead (dumpArr JArr.nil ++ (']' :: rest)) = false :=
      digitHead_dumpArr_close JArr.nil rest
    unfold parseArrItems
    rw [parseV_dump v f _ hw1 hd1]
    rfl
  | v, .cons v2 tl2, f + 1, rest, hw, hd => by
    have hw1 : weightV v ≤ f := by
      simp only [weightA] at hw
      omega
    have hd1 : digitHead (dumpArr (.cons v2 tl2) ++ (']' :: rest)) = false :=
      digitHead_dumpArr_close (.cons v2 tl2) rest
    unfold parseArrItems
    rw [parseV_dump v f _ hw1 hd1]
    simp only []
    have hw2 : weightA (.cons v2 tl2) ≤ f := by
      simp only [weightA] at hw ⊢
      omega
    have hrec := parseArr_dump v2 tl2 f rest hw2 hd
    have hx : dumpArr (JArr.cons v2 tl2) ++ (']' :: rest) =
        ',' :: (' ' :: (dumpV v2 ++ (dumpArr tl2 ++ (']' :: rest)))) := by
      simp [dumpArr]
    rw [hx, skipSpaces_cons_of_ne ',' _ (by decide)]
    simp only []
    rw [parseArrItems_space f _, hrec]
termination_by v tl _ _ _ _ => sizeOf v + sizeOf tl + 1
decreasing_by
  all_goals simp_wf
  all_goals omega

theorem parseObj_dump : ∀ (k : String) (v : JVal) (tl : JObj) (fuel : Nat)
    (rest : List Char),
    weightO (.ocons k v tl) ≤ fuel → digitHead rest = false →
    parseObjItems fuel
      ('"' :: (escapeStr k.data ++
        ('"' :: (':' :: (' ' :: (dumpV v ++ (dumpObj tl ++ ('}' :: rest)))))))) =
      some (JObj.ocons k v tl, rest)
  | k, v, tl, 0, _, hw, _ => absurd hw (by have := weightO_cons_pos k v tl; omega)
  | k, v, .onil, f + 1, rest, hw, hd => by
    have hw1 : weightV v ≤ f := by
      simp only [weightO] at hw
      omega
    have hd1 : digitHead (dumpObj JObj.onil ++ ('}' :: rest)) = false :=
      digitHead_dumpObj_close JObj.onil rest
    unfold parseObjItems
    rw [skipSpaces_cons_of_ne '"' _ (by decide)]
    simp only []
    rw [parseStrAux_escape k.data _]
    simp only []
    rw [skipSpaces_cons_of_ne ':' _ (by decide)]
    simp only []
    rw [parseV_space f _, parseV_dump v f _ hw1 hd1]
    rfl
  | k, v, .ocons k2 v2 tl2, f + 1, rest, hw, hd => by
    have hw1 : weightV v ≤ f := by
      simp only [weightO] at hw
      omega
    have hd1 : digitHead (dumpObj (.ocons k2 v2 tl2) ++ ('}' :: rest)) = false :=
      digitHead_dumpObj_close (.ocons k2 v2 tl2) rest
    unfold parseObjItems
    rw [skipSpaces_cons_of_ne '"' _ (by decide)]
    simp only []
    rw [parseStrAux_escape k.data _]
    simp only []
    rw [skipSpaces_cons_of_ne ':' _ (by decide)]
    simp only []
    rw [parseV_space f _, parseV_dump v f _ hw1 hd1]
    simp only []
    have hw2 : weightO (.ocons k2 v2 tl2) ≤ f := by
      simp only [weightO] at hw ⊢
      omega
    have hrec := parseObj_dump k2 v2 tl2 f rest hw2 hd
    have hx : dumpObj (JObj.ocons k2 v2 tl2) ++ ('}' :: rest) =
        ',' :: (' ' :: ('"' :: (escapeStr k2.data ++
          ('"' :: (':' :: (' ' :: (dumpV v2 ++
            (dumpObj tl2 ++ ('}' :: rest))))))))) := by
      simp [dumpObj, printStr]
    rw [hx, skipSpaces_cons_of_ne ',' _ (by decide)]
    simp only []
    rw [parseObjItems_space f _, hrec]
termination_by _ v tl _ _ _ _ => sizeOf v + sizeOf tl + 1
decreasing_by
  all_goals simp_wf
  all_goals omega
end

mutual
theorem weightV_le_length : ∀ v : JVal, weightV v ≤ (dumpV v).length
  | .jnull => by simp [weightV, dumpV]
  | .jbool true => by simp [weightV, dumpV]
  | .jbool false => by simp [weightV, dumpV]
  | .jint n => by
    obtain ⟨c, cs, hpr, _⟩ := printInt_head n
    show weightV (.jint n) ≤ (printInt n).length
    rw [hpr]
    simp [weightV]
  | .jstr s => by simp [weightV, dumpV, printStr]
  | .jarr .nil => by simp [weightV, dumpV, weightA]
  | .jarr (.cons v tl) => by
    have h1 := weightV_le_length v
    have h2 := weightA_le_length tl
    simp only [weightV, weightA, dumpV, List.length_cons, List.length_append,
      List.length_singleton]
    have hm : max (weightV v) (weightA tl) ≤
        (dumpV v).length + (dumpArr tl).length :=
      Nat.max_le.mpr ⟨by omega, by omega⟩
    omega
  | .jobj .onil => by simp [weightV, dumpV, weightO]
  | .jobj (.ocons k v tl) => by
    have h1 := weightV_le_length v
    have h2 := weightO_le_length tl
    simp only [weightV, weightO, dumpV, List.length_cons, List.length_append,
      List.length_singleton]
    have hm : max (weightV v) (weightO tl) ≤
        (dumpV v).length + (dumpObj tl).length :=
      Nat.max_le.mpr ⟨by omega, by omega⟩
    omega
termination_by v => sizeOf v

theorem weightA_le_length : ∀ a : JArr, weightA a ≤ (dumpArr a).length
  | .nil => by simp [weightA, dumpArr]
  | .cons v tl => by
    have h1 := weightV_le_length v
    have h2 := weightA_le_length tl
    simp only [weightA, dumpArr, List.length_cons, List.length_append]
    have hm : max (weightV v) (weightA tl) ≤
        (dumpV v).length + (dumpArr tl).length :=
      Nat.max_le.mpr ⟨by omega, by omega⟩
    omega
termination_by a => sizeOf a

theorem weightO_le_length : ∀ o : JObj, weightO o ≤ (dumpObj o).length
  | .onil => by simp [weightO, dumpObj]
  | .ocons k v tl => by
    have h1 := weightV_le_length v
    have h2 := weightO_le_length tl
    simp only [weightO, dumpObj, List.length_cons, List.length_append]
    have hm : max (weightV v) (weightO tl) ≤
        (dumpV v).length + (dumpObj tl).length :=
      Nat.max_le.mpr ⟨by omega, by omega⟩
    omega
termination_by o => sizeOf o
end

theorem stripQuotes_sandwich (a : Char) (l : List Char) (b : Char)
    (ha : a ≠ '"') (hb : b ≠ '"') :
    stripQuotes (a :: (l ++ [b])) = a :: (l ++ [b]) := by
  unfold stripQuotes
  rw [List.dropWhile_cons]
  simp only [ha, decide_False, Bool.false_eq_true, if_false]
  rw [List.reverse_cons, List.reverse_append]
  simp only [List.reverse_cons, List.reverse_nil, List.nil_append,
    List.cons_append, List.dropWhile_cons]
  simp only [hb, decide_False, Bool.false_eq_true, if_false]
  simp

theorem dumpV_jarr_shape (xs : JArr) :
    ∃ mid, dumpV (.jarr xs) = '[' :: (mid ++ [']']) := by
  cases xs with
  | nil => exact ⟨[], rfl⟩
  | cons v tl =>
    refine ⟨dumpV v ++ dumpArr tl, ?_⟩
    simp [dumpV]

theorem dumpV_jobj_shape (fs : JObj) :
    ∃ mid, dumpV (.jobj fs) = '{' :: (mid ++ ['}']) := by
  cases fs with
  | onil => exact ⟨[], rfl⟩
  | ocons k v tl =>
    refine ⟨printStr k ++ (':' :: (' ' :: (dumpV v ++ dumpObj tl))), ?_⟩
    simp [dumpV]

/-- Claim C7: for every attribute value routed through the JSON fallback of
the attribute encoder (a nested mapping, or a sequence containing a nested
sequence), decoding the produced JSON string, whose surrounding quotes have
been stripped, reconstructs the original value. The modelled value domain
is null, booleans, integers, strings, arrays and string-keyed objects;
floating-point members of the Python domain are outside the embedding. -/
theorem json_fallback_roundtrip (v : JVal) (h : takesJsonPath v = true) :
    jloads (encode_json_fallback v) = some v := by
  have hshape : ∃ a mid b, dumpV v = a :: (mid ++ [b]) ∧ a ≠ '"' ∧ b ≠ '"' := by
    cases v with
    | jobj fs =>
      obtain ⟨mid, hm⟩ := dumpV_jobj_shape fs
      exact ⟨'{', mid, '}', hm, by decide, by decide⟩
    | jarr xs =>
      obtain ⟨mid, hm⟩ := dumpV_jarr_shape xs
      exact ⟨'[', mid, ']', hm, by decide, by decide⟩
    | jnull => simp [takesJsonPath] at h
    | jbool b => simp [takesJsonPath] at h
    | jint n => simp [takesJsonPath] at h
    | jstr s => simp [takesJsonPath] at h
  obtain ⟨a, mid, b, hm, ha, hb⟩ := hshape
  have hstrip : stripQuotes (dumpV v) = dumpV v := by
    rw [hm]
    exact stripQuotes_sandwich a mid b ha hb
  have henc : encode_json_fallback v = String.mk (dumpV v) := by
    unfold encode_json_fallback
    rw [hstrip]
  rw [henc]
  show (match parseV ((dumpV v).length + 1) (dumpV v) with
    | some (w, rest) => if skipSpaces rest = [] then some w else none
    | none => none) = some v
  have hparse := parseV_dump v ((dumpV v).length + 1) []
    (le_trans (weightV_le_length v) (by omega)) rfl
  rw [List.append_nil] at hparse
  rw [hparse]
  rfl

/-- Claim C7 witness: a one-entry mapping takes the JSON path and decodes
back to itself. -/
theorem json_fallback_roundtrip_witness :
    takesJsonPath (JVal.jobj (.ocons "a" (JVal.jint 1) .onil)) = true ∧
    jloads (encode_json_fallback (JVal.jobj (.ocons "a" (JVal.jint 1) .onil))) =
      some (JVal.jobj (.ocons "a" (JVal.jint 1) .onil)) :=
  ⟨rfl, json_fallback_roundtrip _ rfl⟩

/-! ## Lemmas for claims C4 and C8: keys of attribute dicts -/

theorem keys_filter_sublist {β : Type} (d : List (String × β))
    (q : String × β → Bool) : (keysOf (d.filter q)).Sublist (keysOf d) :=
  List.Sublist.map Prod.fst (List.filter_sublist d)

theorem nodup_keys_filter {β : Type} (d : List (String × β))
    (q : String × β → Bool) (h : (keysOf d).Nodup) :
    (keysOf (d.filter q)).Nodup :=
  (keys_filter_sublist d q).nodup h

theorem not_mem_keys_filter {β : Type} {d : List (String × β)} {k : String}
    (q : String × β → Bool) (h : k ∉ keysOf d) : k ∉ keysOf (d.filter q) :=
  fun hc => h ((keys_filter_sublist d q).subset hc)

theorem nodup_keys_eraseKey {β : Type} (d : List (String × β)) (k : String)
    (h : (keysOf d).Nodup) : (keysOf (eraseKey d k)).Nodup :=
  nodup_keys_filter d _ h

theorem not_mem_keys_eraseKey {β : Type} {d : List (String × β)}
    {k k' : String} (h : k' ∉ keysOf d) : k' ∉ keysOf (eraseKey d k) :=
  not_mem_keys_filter _ h

theorem keys_map_replace {β : Type} (d : List (String × β)) (k : String)
    (v : β) :
    keysOf (d.map (fun p => if p.1 = k then (k, v) else p)) = keysOf d := by
  simp only [keysOf, List.map_map]
  apply List.map_congr_left
  intro p _
  simp only [Function.comp_apply]
  by_cases h : p.1 = k
  · simp [h]
  · simp [h]

theorem mem_keys_dictSet_iff {β : Type} (d : List (String × β))
    (k k' : String) (v : β) (h : k' ≠ k) :
    k' ∈ keysOf (dictSet d k v) ↔ k' ∈ keysOf d := by
  unfold dictSet
  split
  · rw [keys_map_replace]
  · simp [keysOf, h]

theorem not_mem_keys_dictSet {β : Type} {d : List (String × β)}
    {k k' : String} {v : β} (h : k' ≠ k) (hm : k' ∉ keysOf d) :
    k' ∉ keysOf (dictSet d k v) :=
  fun hc => hm ((mem_keys_dictSet_iff d k k' v h).mp hc)

theorem nodup_keys_dictSet {β : Type} (d : List (String × β)) (k : String)
    (v : β) (h : (keysOf d).Nodup) : (keysOf (dictSet d k v)).Nodup := by
  unfold dictSet
  split
  · rw [keys_map_replace]
    exact h
  · rename_i hany
    have hk : k ∉ keysOf d := by
      intro hc
      apply hany
      unfold keysOf at hc
      obtain ⟨p, hp, hpk⟩ := List.mem_map.mp hc
      exact List.any_eq_true.mpr ⟨p, hp, decide_eq_true hpk⟩
    unfold keysOf at h
    simp [keysOf, List.nodup_append, h]
    exact fun x hx => hk (List.mem_map.mpr ⟨(k, x), hx, rfl⟩)

theorem lookup_eq_none_of_not_mem {β : Type} {d : List (String × β)}
    {k : String} (h : k ∉ keysOf d) : List.lookup k d = none := by
  induction d with
  | nil => rfl
  | cons p t ih =>
    obtain ⟨pk, pv⟩ := p
    simp only [keysOf, List.map_cons, List.mem_cons] at h
    push_neg at h
    rw [List.lookup_cons, beq_eq_false_iff_ne.mpr h.1]
    exact ih h.2

theorem dictSet_append_of_not_mem {β : Type} {d : List (String × β)}
    {k : String} (v : β) (h : k ∉ keysOf d) : dictSet d k v = d ++ [(k, v)] := by
  unfold dictSet
  rw [if_neg]
  intro hc
  obtain ⟨p, hp, hpk⟩ := List.any_eq_true.mp hc
  exact h (List.mem_map.mpr ⟨p, hp, of_decide_eq_true hpk⟩)

theorem keysOf_map_snd (l : List (String × JVal)) (f : JVal → JVal) :
    keysOf (l.map (fun p => (p.1, f p.2))) = keysOf l := by
  simp only [keysOf, List.map_map]
  apply List.map_congr_left
  intro p _
  rfl

theorem lookup_encode_attrs_nc (A : List (String × JVal)) (k : String)
    (v : JVal) (hnd : (keysOf A).Nodup) (hmem : (k, v) ∈ A)
    (hv : isNullJ v = false) :
    List.lookup k (encode_attrs_nc A) = some (encode_nc_j v) := by
  have hperm : (A.mergeSort (fun p q => decide (p.1 ≤ q.1))).Perm A :=
    List.mergeSort_perm A (fun p q => decide (p.1 ≤ q.1))
  have hm1 : (k, v) ∈ A.mergeSort (fun p q => decide (p.1 ≤ q.1)) :=
    hperm.mem_iff.mpr hmem
  have hm2 : (k, v) ∈ (A.mergeSort (fun p q => decide (p.1 ≤ q.1))).filter
      (fun p => ¬ isNullJ p.2) :=
    List.mem_filter.mpr ⟨hm1, by simp [hv]⟩
  have hm3 : (k, encode_nc_j v) ∈
      ((A.mergeSort (fun p q => decide (p.1 ≤ q.1))).filter
        (fun p => ¬ isNullJ p.2)).map (fun p => (p.1, encode_nc_j p.2)) :=
    List.mem_map.mpr ⟨(k, v), hm2, rfl⟩
  have hnd2 : (keysOf (A.mergeSort (fun p q => decide (p.1 ≤ q.1)))).Nodup :=
    (hperm.map Prod.fst).nodup_iff.mpr hnd
  have hnd3 : (keysOf ((A.mergeSort (fun p q => decide (p.1 ≤ q.1))).filter
      (fun p => ¬ isNullJ p.2))).Nodup :=
    (keys_filter_sublist _ _).nodup hnd2
  have hnd4 : (keysOf (((A.mergeSort (fun p q => decide (p.1 ≤ q.1))).filter
      (fun p => ¬ isNullJ p.2)).map (fun p => (p.1, encode_nc_j p.2)))).Nodup := by
    rw [keysOf_map_snd]
    exact hnd3
  exact lookup_of_mem_nodup hm3 hnd4

/-! ## Lemmas for claims C4 and C8: attribute flattening -/

theorem flattenList_append (l1 l2 acc : List (String × JVal)) :
    flattenList (l1 ++ l2) acc = flattenList l2 (flattenList l1 acc) := by
  induction l1 generalizing acc with
  | nil => rw [List.nil_append]; rfl
  | cons p t ih =>
    obtain ⟨k, v⟩ := p
    rw [List.cons_append]
    show flattenList ((k, v) :: (t ++ l2)) acc = _
    rw [flattenList, flattenList, ih]

mutual

theorem flattenList_nodup :
    ∀ (l acc : List (String × JVal)), (keysOf acc).Nodup →
      (keysOf (flattenList l acc)).Nodup
  | [], acc, h => by rw [flattenList]; exact h
  | (k, v) :: t, acc, h => by
    rw [flattenList]
    exact flattenList_nodup t _ (flattenInto_nodup v acc k h)
termination_by l acc _ => sizeOf l

theorem flattenInto_nodup :
    ∀ (v : JVal) (acc : List (String × JVal)) (k : String),
      (keysOf acc).Nodup → (keysOf (flattenInto acc k v)).Nodup
  | .jobj fs, acc, k, h => by
    rw [flattenInto]
    exact flattenObj_nodup fs acc k h
  | .jnull, acc, k, h => by
    rw [flattenInto]
    · exact nodup_keys_dictSet _ _ _ h
    · exact fun fs hh => JVal.noConfusion hh
  | .jbool b, acc, k, h => by
    rw [flattenInto]
    · exact nodup_keys_dictSet _ _ _ h
    · exact fun fs hh => JVal.noConfusion hh
  | .jint n, acc, k, h => by
    rw [flattenInto]
    · exact nodup_keys_dictSet _ _ _ h
    · exact fun fs hh => JVal.noConfusion hh
  | .jstr s, acc, k, h => by
    rw [flattenInto]
    · exact nodup_keys_dictSet _ _ _ h
    · exact fun fs hh => JVal.noConfusion hh
  | .jarr xs, acc, k, h => by
    rw [flattenInto]
    · exact nodup_keys_dictSet _ _ _ h
    · exact fun fs hh => JVal.noConfusion hh
termination_by v acc k _ => sizeOf v

theorem flattenObj_nodup :
    ∀ (fs : JObj) (acc : List (String × JVal)) (k : String),
      (keysOf acc).Nodup → (keysOf (flattenObj acc k fs)).Nodup
  | .onil, acc, k, h => by rw [flattenObj]; exact h
  | .ocons k2 v2 tl, acc, k, h => by
    rw [flattenObj]
    exact flattenObj_nodup tl _ k (flattenInto_nodup v2 acc (k ++ "_" ++ k2) h)
termination_by fs acc k _ => sizeOf fs

end

/-! ## Lemmas for claims C4 and C8: the pipeline steps -/

theorem remove_satpy_name (a : TArray) :
    (remove_satpy_attributes a).name = a.name := rfl

theorem encode_time_name (a : TArray) (e : String) :
    (encode_time a e).name = a.name := by
  unfold encode_time
  split
  · rfl
  · dsimp only []
    split <;> rfl

theorem encode_time_attrs (a : TArray) (e : String) :
    (encode_time a e).attrs = a.attrs := by
  unfold encode_time
  split
  · rfl
  · dsimp only []
    split <;> rfl

theorem setCoordStd_name (a : TArray) (c sn un : String) :
    (setCoordStd a c sn un).name = a.name := by
  unfold setCoordStd
  split <;> rfl

theorem setCoordStd_attrs (a : TArray) (c sn un : String) :
    (setCoordStd a c sn un).attrs = a.attrs := by
  unfold setCoordStd
  split <;> rfl

theorem encode_xy_projected_name (a : TArray) :
    (encode_xy_projected a).name = a.name := by
  unfold encode_xy_projected
  rw [setCoordStd_name, setCoordStd_name]

theorem encode_xy_projected_attrs (a : TArray) :
    (encode_xy_projected a).attrs = a.attrs := by
  unfold encode_xy_projected
  rw [setCoordStd_attrs, setCoordStd_attrs]

theorem encode_xy_geographic_name (a : TArray) :
    (encode_xy_geographic a).name = a.name := by
  unfold encode_xy_geographic
  rw [setCoordStd_name, setCoordStd_name]

theorem encode_xy_geographic_attrs (a : TArray) :
    (encode_xy_geographic a).attrs = a.attrs := by
  unfold encode_xy_geographic
  rw [setCoordStd_attrs, setCoordStd_attrs]

theorem coords_safe_congr (a b : TArray) (hc : b.coords = a.coords)
    (ha : b.area = a.area) : coords_safe b = coords_safe a := by
  unfold coords_safe try_to_get_crs crsFromCoord units_access_ok
  rw [hc, ha]

theorem coords_safe_set_time (a b : TArray) (tc : TCoord)
    (hc : b.coords = dictSet a.coords "time" tc) (ha : b.area = a.area) :
    coords_safe b = coords_safe a := by
  unfold coords_safe try_to_get_crs crsFromCoord units_access_ok
  rw [hc, ha, lookup_dictSet_ne a.coords "time" "x" tc (by decide),
      lookup_dictSet_ne a.coords "time" "y" tc (by decide),
      lookup_dictSet_ne a.coords "time" "crs" tc (by decide)]
  simp only [mem_keys_dictSet_iff a.coords "time" "x" tc (by decide),
      mem_keys_dictSet_iff a.coords "time" "y" tc (by decide),
      mem_keys_dictSet_iff a.coords "time" "crs" tc (by decide)]

theorem coords_safe_encode_time (a : TArray) (e : String) :
    coords_safe (encode_time a e) = coords_safe a := by
  unfold encode_time
  split
  · rfl
  · dsimp only []
    split
    · exact coords_safe_set_time a _ _ rfl rfl
    · exact coords_safe_set_time a _ _ rfl rfl

theorem try_get_units_ok_of_access (a : TArray)
    (h : units_access_ok a = true) :
    ∃ u, try_get_units_from_coords a = Except.ok u := by
  unfold units_access_ok at h
  unfold try_get_units_from_coords
  cases hx : List.lookup "x" a.coords with
  | none =>
    rw [hx] at h
    simp at h
  | some cx =>
    rw [hx] at h
    simp only [] at h ⊢
    cases hu : List.lookup "units" cx.attrs with
    | some u => exact ⟨some u, rfl⟩
    | none =>
      rw [hu] at h
      simp only [] at h ⊢
      cases hy : List.lookup "y" a.coords with
      | none =>
        rw [hy] at h
        simp at h
      | some cy => exact ⟨_, rfl⟩

theorem encode_coords_of_safe (a : TArray) (h : coords_safe a = true) :
    ∃ b, encode_coords a = Except.ok b ∧ b.name = a.name ∧
      b.attrs = a.attrs := by
  by_cases hk : "x" ∈ keysOf a.coords ∨ "y" ∈ keysOf a.coords ∨
      "crs" ∈ keysOf a.coords
  · have hproj : ∃ pj, is_projected a = Except.ok pj := by
      unfold is_projected
      cases hc : try_to_get_crs a with
      | some pj => exact ⟨pj, rfl⟩
      | none =>
        have hu : units_access_ok a = true := by
          unfold coords_safe at h
          rw [if_pos hk, hc] at h
          simpa using h
        obtain ⟨u, hu2⟩ := try_get_units_ok_of_access a hu
        rw [hu2]
        cases u with
        | none => exact ⟨true, rfl⟩
        | some us =>
          show ∃ pj, (if us.endsWith "m" = true then Except.ok true
            else if us.startsWith "degrees" = true then Except.ok false
            else Except.ok true) = Except.ok pj
          by_cases h1 : us.endsWith "m" = true
          · rw [if_pos h1]
            exact ⟨true, rfl⟩
          · rw [if_neg h1]
            by_cases h2 : us.startsWith "degrees" = true
            · rw [if_pos h2]
              exact ⟨false, rfl⟩
            · rw [if_neg h2]
              exact ⟨true, rfl⟩
    obtain ⟨pj, hpj⟩ := hproj
    unfold encode_coords
    rw [if_pos hk, hpj]
    refine ⟨_, rfl, ?_, ?_⟩
    · show (if pj = true then encode_xy_projected a
        else encode_xy_geographic a).name = a.name
      cases pj
      · rw [if_neg (by decide)]
        exact encode_xy_geographic_name a
      · rw [if_pos rfl]
        exact encode_xy_projected_name a
    · show (if pj = true then encode_xy_projected a
        else encode_xy_geographic a).attrs = a.attrs
      cases pj
      · rw [if_neg (by decide)]
        exact encode_xy_geographic_attrs a
      · rw [if_pos rfl]
        exact encode_xy_projected_attrs a
  · unfold encode_coords
    rw [if_neg hk]
    exact ⟨a, rfl, rfl, rfl⟩

theorem popAttrKey_name (a : TArray) (k : String) :
    (popAttrKey a k).name = a.name := by
  by_cases h1 : k = "area" <;> by_cases h2 : k = "ancillary_variables" <;>
    simp [popAttrKey, h1, h2]

theorem popAttrKey_attrs (a : TArray) (k : String) :
    (popAttrKey a k).attrs = eraseKey a.attrs k := by
  by_cases h1 : k = "area" <;> by_cases h2 : k = "ancillary_variables" <;>
    simp [popAttrKey, h1, h2]

theorem foldl_pop_name (l : List String) (a : TArray) :
    (List.foldl popAttrKey a l).name = a.name := by
  induction l generalizing a with
  | nil => rfl
  | cons k t ih => rw [List.foldl_cons, ih, popAttrKey_name]

theorem foldl_pop_attrs (l : List String) (a : TArray) :
    (List.foldl popAttrKey a l).attrs = List.foldl eraseKey a.attrs l := by
  induction l generalizing a with
  | nil => rfl
  | cons k t ih => rw [List.foldl_cons, List.foldl_cons, ih, popAttrKey_attrs]

theorem foldl_erase_nodup (l : List String) (d : List (String × JVal))
    (h : (keysOf d).Nodup) : (keysOf (List.foldl eraseKey d l)).Nodup := by
  induction l generalizing d with
  | nil => exact h
  | cons k t ih => exact ih _ (nodup_keys_eraseKey d k h)

theorem foldl_erase_not_mem (l : List String) (d : List (String × JVal))
    (k' : String) (h : k' ∉ keysOf d) :
    k' ∉ keysOf (List.foldl eraseKey d l) := by
  induction l generalizing d with
  | nil => exact h
  | cons k t ih => exact ih _ (not_mem_keys_eraseKey h)

theorem ancillary_join_name (a : TArray) : (ancillary_join a).name = a.name := by
  unfold ancillary_join
  split <;> rfl

theorem ancillary_join_nodup (a : TArray) (h : (keysOf a.attrs).Nodup) :
    (keysOf (ancillary_join a).attrs).Nodup := by
  unfold ancillary_join
  split <;> first | exact nodup_keys_dictSet _ _ _ h | exact h

theorem ancillary_join_not_mem (a : TArray) (k : String)
    (hk : k ≠ "ancillary_variables") (h : k ∉ keysOf a.attrs) :
    k ∉ keysOf (ancillary_join a).attrs := by
  unfold ancillary_join
  split <;> first | exact not_mem_keys_dictSet hk h | exact h

theorem cleanup_name (a : TArray) : (cleanup_attrs a).name = a.name := rfl

theorem cleanup_attrs_attrs (a : TArray) :
    (cleanup_attrs a).attrs = a.attrs.filter (fun p => ¬ isNullJ p.2) := rfl

theorem long_name_name (a : TArray) :
    (set_default_long_name a).name = a.name := by
  unfold set_default_long_name
  split <;> rfl

theorem long_name_nodup (a : TArray) (h : (keysOf a.attrs).Nodup) :
    (keysOf (set_default_long_name a).attrs).Nodup := by
  unfold set_default_long_name
  split <;> first | exact nodup_keys_dictSet _ _ _ h | exact h

theorem long_name_not_mem (a : TArray) {k : String} (hk : k ≠ "long_name")
    (h : k ∉ keysOf a.attrs) : k ∉ keysOf (set_default_long_name a).attrs := by
  unfold set_default_long_name
  split <;> first | exact not_mem_keys_dictSet hk h | exact h

theorem prerequisites_name (a : TArray) :
    (prerequisites_step a).name = a.name := by
  unfold prerequisites_step
  split <;> rfl

theorem prerequisites_nodup (a : TArray) (h : (keysOf a.attrs).Nodup) :
    (keysOf (prerequisites_step a).attrs).Nodup := by
  unfold prerequisites_step
  split <;> first | exact nodup_keys_dictSet _ _ _ h | exact h

theorem prerequisites_not_mem (a : TArray) {k : String}
    (hk : k ≠ "prerequisites") (h : k ∉ keysOf a.attrs) :
    k ∉ keysOf (prerequisites_step a).attrs := by
  unfold prerequisites_step
  split <;> first | exact not_mem_keys_dictSet hk h | exact h

theorem set_orig_name_name (a : TArray) (ion : Bool) (pfx : String)
    (r : Option (String × String)) :
    (set_original_name a ion pfx r).name = a.name := by
  unfold set_original_name
  split <;> first | rfl | (split <;> rfl)

theorem flatten_step_name (a : TArray) (fl : Bool) :
    (flatten_step a fl).name = a.name := by
  unfold flatten_step
  split <;> rfl

theorem encode_step_name (a : TArray) : (encode_step a).name = a.name := rfl

theorem encode_step_attrs (a : TArray) :
    (encode_step a).attrs = encode_attrs_nc a.attrs := rfl

theorem da2cf_tail_name (a : TArray) (fl : Bool) (ex : List String)
    (ion : Bool) (pfx : String) (r : Option (String × String)) :
    (da2cf_tail a fl ex ion pfx r).name = a.name := by
  simp only [da2cf_tail]
  rw [encode_step_name, flatten_step_name, set_orig_name_name,
      prerequisites_name, long_name_name, cleanup_name, ancillary_join_name,
      foldl_pop_name]

theorem da2cf_tail_lookup (a : TArray) (fl : Bool) (ex : List String)
    (pfx o nm : String) (hnd : (keysOf a.attrs).Nodup)
    (hno : "original_name" ∉ keysOf a.attrs) (hp : pfx ≠ "") (ho : o ≠ "")
    (hon : o ≠ nm) :
    List.lookup "original_name"
      (da2cf_tail a fl ex true pfx (some (o, nm))).attrs =
      some (JVal.jstr o) := by
  have hnd4 : (keysOf (List.foldl popAttrKey a ("area" :: ex)).attrs).Nodup := by
    rw [foldl_pop_attrs]
    exact foldl_erase_nodup _ _ hnd
  have hno4 : "original_name" ∉
      keysOf (List.foldl popAttrKey a ("area" :: ex)).attrs := by
    rw [foldl_pop_attrs]
    exact foldl_erase_not_mem _ _ _ hno
  have hnd5 := ancillary_join_nodup _ hnd4
  have hno5 := ancillary_join_not_mem _ _ (by decide) hno4
  have hnd6 : (keysOf (cleanup_attrs (ancillary_join
      (List.foldl popAttrKey a ("area" :: ex)))).attrs).Nodup := by
    rw [cleanup_attrs_attrs]
    exact nodup_keys_filter _ _ hnd5
  have hno6 : "original_name" ∉ keysOf (cleanup_attrs (ancillary_join
      (List.foldl popAttrKey a ("area" :: ex)))).attrs := by
    rw [cleanup_attrs_attrs]
    exact not_mem_keys_filter _ hno5
  have hnd8 := prerequisites_nodup _ (long_name_nodup _ hnd6)
  have hno8 := prerequisites_not_mem _ (by decide)
    (long_name_not_mem _ (by decide) hno6)
  simp only [da2cf_tail]
  set t8 := prerequisites_step (set_default_long_name (cleanup_attrs
    (ancillary_join (List.foldl popAttrKey a ("area" :: ex))))) with ht8
  have h9 : set_original_name t8 true pfx (some (o, nm)) =
      { t8 with attrs := dictSet t8.attrs "original_name" (.jstr o) } := by
    simp only [set_original_name]
    rw [if_pos (show True ∧ pfx ≠ "" ∧ o ≠ "" ∧ o ≠ nm from
      ⟨trivial, hp, ho, hon⟩)]
  rw [h9, encode_step_attrs]
  cases fl with
  | false =>
    have hfl : flatten_step
        { t8 with attrs := dictSet t8.attrs "original_name" (.jstr o) }
        false = { t8 with attrs := dictSet t8.attrs "original_name" (.jstr o) } := by
      simp [flatten_step]
    rw [hfl]
    have hlk := lookup_encode_attrs_nc
      (dictSet t8.attrs "original_name" (.jstr o)) "original_name" (.jstr o)
      (nodup_keys_dictSet _ _ _ hnd8) (lookup_mem (lookup_dictSet_self _ _ _))
      rfl
    rw [encode_nc_j] at hlk
    exact hlk
  | true =>
    have hX : (flatten_step
        { t8 with attrs := dictSet t8.attrs "original_name" (.jstr o) }
        true).attrs = flatten_dict_j (dictSet t8.attrs "original_name" (.jstr o)) := by
      simp [flatten_step]
    rw [hX, dictSet_append_of_not_mem _ hno8]
    have hfl2 : flatten_dict_j (t8.attrs ++ [("original_name", JVal.jstr o)]) =
        dictSet (flattenList t8.attrs []) "original_name" (.jstr o) := by
      unfold flatten_dict_j
      rw [flattenList_append, flattenList, flattenInto, flattenList]
      exact fun fs hh => JVal.noConfusion hh
    rw [hfl2]
    have hlk := lookup_encode_attrs_nc
      (dictSet (flattenList t8.attrs []) "original_name" (.jstr o))
      "original_name" (.jstr o)
      (nodup_keys_dictSet _ _ _ (flattenList_nodup t8.attrs [] List.Pairwise.nil))
      (lookup_mem (lookup_dictSet_self _ _ _)) rfl
    rw [encode_nc_j] at hlk
    exact hlk

/-- Claim C4: for every array whose name attribute starts with a digit,
da2cf succeeds on coordinate-safe inputs and, with a nonempty numeric
prefix configured, names the output variable prefix ++ original name and,
when original-name retention is requested, gives the encoded attributes an
original_name entry holding the original name; with an empty prefix the
name is kept unchanged (the warning is outside the model). -/
theorem handle_numeric_name_spec (da : TArray) (epoch : String)
    (fl ion : Bool) (ex : List String) (pfx s : String)
    (hname : da.nameAttr = some s) (hs : headIsDigit s = true)
    (hnd : (keysOf da.attrs).Nodup)
    (hno : "original_name" ∉ keysOf da.attrs)
    (hsafe : coords_safe da = true) :
    ∃ out, da2cf da epoch fl ex ion pfx = Except.ok out ∧
      (pfx ≠ "" → out.name = pfx ++ s ∧
        (ion = true →
          List.lookup "original_name" out.attrs = some (JVal.jstr s))) ∧
      (pfx = "" → out.name = s) := by
  have hsnn : s ≠ "" := by
    intro he
    rw [he] at hs
    exact absurd hs (by decide)
  simp only [da2cf, copyDeep, hname]
  have hsafe2 : coords_safe (encode_time (remove_satpy_attributes
      { da with
        nameAttr := none,
        name := (handle_dataarray_name s pfx).2 }) epoch) = true := by
    rw [coords_safe_encode_time]
    exact hsafe
  obtain ⟨a3, h3, hn3, ha3⟩ := encode_coords_of_safe _ hsafe2
  rw [h3]
  refine ⟨_, rfl, ?_, ?_⟩
  · intro hp
    have hhandle : handle_dataarray_name s pfx = (s, pfx ++ s) := by
      unfold handle_dataarray_name
      rw [if_pos hs, if_pos hp]
    have hne : s ≠ pfx ++ s := by
      intro he
      have hl := congrArg String.length he
      rw [String.length_append] at hl
      have hpl : pfx.length = 0 := by omega
      apply hp
      cases pfx with
      | mk d =>
        cases d with
        | nil => rfl
        | cons c t => simp [String.length] at hpl
    constructor
    · rw [hhandle, da2cf_tail_name, hn3, encode_time_name, remove_satpy_name,
        hhandle]
    · intro hion
      subst hion
      have hA3 : a3.attrs = eraseKey
          (da.attrs.filter (fun p => ¬ p.1.startsWith "_satpy"))
          "_last_resampler" := by
        rw [ha3, encode_time_attrs]
        rfl
      have hnd3 : (keysOf a3.attrs).Nodup := by
        rw [hA3]
        exact nodup_keys_eraseKey _ _ (nodup_keys_filter _ _ hnd)
      have hno3 : "original_name" ∉ keysOf a3.attrs := by
        rw [hA3]
        exact not_mem_keys_eraseKey (not_mem_keys_filter _ hno)
      rw [hhandle]
      exact da2cf_tail_lookup a3 fl ex pfx s (pfx ++ s) hnd3 hno3 hp hsnn hne
  · intro hp0
    subst hp0
    have hhandle : handle_dataarray_name s "" = (s, s) := by
      unfold handle_dataarray_name
      rw [if_pos hs, if_neg (by simp)]
    rw [da2cf_tail_name, hn3, encode_time_name, remove_satpy_name, hhandle]

/-- Claim C4 witness: the dataset named 1 with the default prefix
CHANNEL_ is renamed CHANNEL_1 and the encoded attributes record the
original name 1. -/
theorem handle_numeric_name_spec_witness :
    sampleDA.nameAttr = some "1" ∧ headIsDigit "1" = true ∧
    (keysOf sampleDA.attrs).Nodup ∧
    "original_name" ∉ keysOf sampleDA.attrs ∧
    coords_safe sampleDA = true ∧
    (∃ out, da2cf sampleDA "seconds since 1970-01-01" false [] true
        "CHANNEL_" = Except.ok out ∧
      ("CHANNEL_" ≠ "" → out.name = "CHANNEL_" ++ "1" ∧
        (true = true →
          List.lookup "original_name" out.attrs = some (JVal.jstr "1"))) ∧
      (("CHANNEL_" : String) = "" → out.name = "1")) :=
  ⟨rfl, rfl, by decide, by decide, by decide,
    handle_numeric_name_spec sampleDA "seconds since 1970-01-01" false true
      [] "CHANNEL_" "1" rfl rfl (by decide) (by decide) (by decide)⟩

/-! ## Lemmas for claim C8: heap stores -/

theorem lookup_storeSet_map_replace {β : Type} (d : List (Nat × β)) (k : Nat)
    (v : β) (h : ∃ p ∈ d, p.1 = k) :
    List.lookup k (d.map (fun p => if p.1 = k then (k, v) else p)) =
      some v := by
  induction d with
  | nil => simp at h
  | cons p t ih =>
    obtain ⟨pk, pv⟩ := p
    by_cases hp : pk = k
    · subst hp
      simp [List.lookup_cons]
    · have ht : ∃ q ∈ t, q.1 = k := by
        obtain ⟨q, hq, hqk⟩ := h
        rcases List.mem_cons.mp hq with rfl | hq2
        · exact absurd hqk hp
        · exact ⟨q, hq2, hqk⟩
      have hne : (k == pk) = false := by
        rw [beq_eq_false_iff_ne]
        intro hk
        exact hp hk.symm
      simp only [List.map_cons, if_neg hp, List.lookup_cons, hne, cond_false]
      exact ih ht

theorem lookup_storeSet_append_new {β : Type} (d : List (Nat × β)) (k : Nat)
    (v : β) (h : ∀ p ∈ d, p.1 ≠ k) :
    List.lookup k (d ++ [(k, v)]) = some v := by
  induction d with
  | nil => simp [List.lookup_cons]
  | cons p t ih =>
    obtain ⟨pk, pv⟩ := p
    have hp : pk ≠ k := h (pk, pv) (List.mem_cons_self _ t)
    have hne : (k == pk) = false := by
      rw [beq_eq_false_iff_ne]
      intro hk
      exact hp hk.symm
    simp only [List.cons_append, List.lookup_cons, hne, cond_false]
    exact ih (fun q hq => h q (List.mem_cons_of_mem _ hq))

theorem lookup_storeSet_self {β : Type} (d : List (Nat × β)) (k : Nat)
    (v : β) : List.lookup k (storeSet d k v) = some v := by
  unfold storeSet
  by_cases h : d.any (fun p => p.1 = k) = true
  · rw [if_pos h]
    refine lookup_storeSet_map_replace d k v ?_
    obtain ⟨p, hp, hpk⟩ := List.any_eq_true.mp h
    exact ⟨p, hp, of_decide_eq_true hpk⟩
  · rw [if_neg h]
    refine lookup_storeSet_append_new d k v ?_
    intro p hp hpk
    exact h (List.any_eq_true.mpr ⟨p, hp, decide_eq_true hpk⟩)

theorem lookup_storeSet_map_ne {β : Type} (d : List (Nat × β)) (k k' : Nat)
    (v : β) (h : k' ≠ k) :
    List.lookup k' (d.map (fun p => if p.1 = k then (k, v) else p)) =
      List.lookup k' d := by
  have hne : (k' == k) = false := beq_eq_false_iff_ne.mpr h
  induction d with
  | nil => rfl
  | cons p t ih =>
    obtain ⟨pk, pv⟩ := p
    by_cases hp : pk = k
    · subst hp
      have hhead : ((pk, pv) :: t).map
          (fun p => if p.1 = pk then (pk, v) else p) =
          (pk, v) :: t.map (fun p => if p.1 = pk then (pk, v) else p) := by
        simp
      rw [hhead, List.lookup_cons, List.lookup_cons, hne]
      exact ih
    · have hhead : ((pk, pv) :: t).map
          (fun p => if p.1 = k then (k, v) else p) =
          (pk, pv) :: t.map (fun p => if p.1 = k then (k, v) else p) := by
        simp [hp]
      rw [hhead, List.lookup_cons, List.lookup_cons]
      cases hkp : (k' == pk) with
      | true => simp only
      | false => simp only; exact ih

theorem lookup_storeSet_append_ne {β : Type} (d : List (Nat × β)) (k k' : Nat)
    (v : β) (h : k' ≠ k) :
    List.lookup k' (d ++ [(k, v)]) = List.lookup k' d := by
  have hne : (k' == k) = false := beq_eq_false_iff_ne.mpr h
  induction d with
  | nil => simp [List.lookup_cons, hne]
  | cons p t ih =>
    obtain ⟨pk, pv⟩ := p
    rw [List.cons_append, List.lookup_cons, List.lookup_cons]
    cases hkp : (k' == pk) with
    | true => simp only
    | false => simp only; exact ih

theorem lookup_storeSet_ne {β : Type} (d : List (Nat × β)) (k k' : Nat)
    (v : β) (h : k' ≠ k) :
    List.lookup k' (storeSet d k v) = List.lookup k' d := by
  unfold storeSet
  split
  · exact lookup_storeSet_map_ne d k k' v h
  · exact lookup_storeSet_append_ne d k k' v h

theorem readA_writeA_self (H : Heap) (a : Nat) (v : AObj) :
    readA (writeA H a v) a = v := by
  unfold readA writeA
  rw [show ({ H with ah := storeSet H.ah a v } : Heap).ah =
    storeSet H.ah a v from rfl, lookup_storeSet_self]
  rfl

theorem readA_writeA_ne (H : Heap) (a b : Nat) (v : AObj) (h : b ≠ a) :
    readA (writeA H a v) b = readA H b := by
  unfold readA writeA
  rw [show ({ H with ah := storeSet H.ah a v } : Heap).ah =
    storeSet H.ah a v from rfl, lookup_storeSet_ne _ _ _ _ h]

theorem readJ_writeJ_self (H : Heap) (a : Nat) (v : HAttrs) :
    readJ (writeJ H a v) a = v := by
  unfold readJ writeJ
  rw [show ({ H with jh := storeSet H.jh a v } : Heap).jh =
    storeSet H.jh a v from rfl, lookup_storeSet_self]
  rfl

theorem readJ_writeJ_ne (H : Heap) (a b : Nat) (v : HAttrs) (h : b ≠ a) :
    readJ (writeJ H a v) b = readJ H b := by
  unfold readJ writeJ
  rw [show ({ H with jh := storeSet H.jh a v } : Heap).jh =
    storeSet H.jh a v from rfl, lookup_storeSet_ne _ _ _ _ h]

theorem readS_writeS_self (H : Heap) (a : Nat) (v : List (String × String)) :
    readS (writeS H a v) a = v := by
  unfold readS writeS
  rw [show ({ H with sh := storeSet H.sh a v } : Heap).sh =
    storeSet H.sh a v from rfl, lookup_storeSet_self]
  rfl

theorem readS_writeS_ne (H : Heap) (a b : Nat) (v : List (String × String))
    (h : b ≠ a) : readS (writeS H a v) b = readS H b := by
  unfold readS writeS
  rw [show ({ H with sh := storeSet H.sh a v } : Heap).sh =
    storeSet H.sh a v from rfl, lookup_storeSet_ne _ _ _ _ h]

theorem agreesBelow_refl (n : Nat) (H : Heap) : agreesBelow n H H :=
  ⟨fun _ _ => rfl, fun _ _ => rfl, fun _ _ => rfl⟩

theorem agreesBelow_trans {n : Nat} {H1 H2 H3 : Heap}
    (h1 : agreesBelow n H1 H2) (h2 : agreesBelow n H2 H3) :
    agreesBelow n H1 H3 :=
  ⟨fun a ha => (h2.1 a ha).trans (h1.1 a ha),
   fun a ha => (h2.2.1 a ha).trans (h1.2.1 a ha),
   fun a ha => (h2.2.2 a ha).trans (h1.2.2 a ha)⟩

theorem agreesBelow_writeA {n : Nat} (H : Heap) {a : Nat} (v : AObj)
    (h : n ≤ a) : agreesBelow n H (writeA H a v) :=
  ⟨fun b hb => readA_writeA_ne H a b v (by omega), fun _ _ => rfl,
   fun _ _ => rfl⟩

theorem agreesBelow_writeJ {n : Nat} (H : Heap) {a : Nat} (v : HAttrs)
    (h : n ≤ a) : agreesBelow n H (writeJ H a v) :=
  ⟨fun _ _ => rfl, fun b hb => readJ_writeJ_ne H a b v (by omega),
   fun _ _ => rfl⟩

theorem agreesBelow_writeS {n : Nat} (H : Heap) {a : Nat}
    (v : List (String × String)) (h : n ≤ a) :
    agreesBelow n H (writeS H a v) :=
  ⟨fun _ _ => rfl, fun _ _ => rfl,
   fun b hb => readS_writeS_ne H a b v (by omega)⟩

theorem agreesBelow_bumpN (n : Nat) (H : Heap) (k : Nat) :
    agreesBelow n H (bumpN H k) :=
  ⟨fun _ _ => rfl, fun _ _ => rfl, fun _ _ => rfl⟩

/-- Allocating a fresh array object whose cells all sit at or above n
leaves everything below n untouched and yields a good state. -/
theorem alloc_writeA_okSt (n : Nat) (H : Heap) (o : AObj)
    (hn : n ≤ H.nfree) (hA : n ≤ o.attrsRef)
    (hC : ∀ p ∈ o.coords, n ≤ p.2.attrsRef ∧ n ≤ p.2.encRef) :
    agreesBelow n H (bumpN (writeA H H.nfree o) 1) ∧
    okSt n (bumpN (writeA H H.nfree o) 1) H.nfree := by
  have hra : readA (bumpN (writeA H H.nfree o) 1) H.nfree = o :=
    readA_writeA_self H H.nfree o
  refine ⟨agreesBelow_trans (agreesBelow_writeA H o hn)
    (agreesBelow_bumpN n _ 1), ?_, hn, ?_, ?_⟩
  · show n ≤ H.nfree + 1
    omega
  · rw [hra]
    exact hA
  · rw [hra]
    exact hC

theorem copyCoords_frame (n : Nat) :
    ∀ (cs : List (String × RCoord)) (H : Heap), n ≤ H.nfree →
      agreesBelow n H (copyCoords H cs).1 ∧ n ≤ (copyCoords H cs).1.nfree ∧
      H.nfree ≤ (copyCoords H cs).1.nfree ∧
      ∀ p ∈ (copyCoords H cs).2, n ≤ p.2.attrsRef ∧ n ≤ p.2.encRef
  | [], H, hn => ⟨agreesBelow_refl n H, hn, Nat.le_refl _, by
      simp [copyCoords]⟩
  | (nm, rc) :: t, H, hn => by
    rw [copyCoords]
    dsimp only []
    have hb2 : (bumpN (writeS (writeS H H.nfree (readS H rc.attrsRef))
        (H.nfree + 1) (readS H rc.encRef)) 2).nfree = H.nfree + 2 := rfl
    have hag1 : agreesBelow n H (bumpN (writeS (writeS H H.nfree
        (readS H rc.attrsRef)) (H.nfree + 1) (readS H rc.encRef)) 2) :=
      agreesBelow_trans (agreesBelow_writeS H _ hn)
        (agreesBelow_trans (agreesBelow_writeS _ _ (by omega))
          (agreesBelow_bumpN n _ 2))
    have hn1 : n ≤ (bumpN (writeS (writeS H H.nfree (readS H rc.attrsRef))
        (H.nfree + 1) (readS H rc.encRef)) 2).nfree := by
      rw [hb2]
      omega
    obtain ⟨hag2, hn2, hmono, hrefs⟩ := copyCoords_frame n t _ hn1
    rw [hb2] at hmono
    refine ⟨agreesBelow_trans hag1 hag2, hn2, by omega, ?_⟩
    intro p hp
    rcases List.mem_cons.mp hp with rfl | hp2
    · exact ⟨hn, by show n ≤ H.nfree + 1; omega⟩
    · exact hrefs p hp2

theorem deepCopy_frame (n : Nat) (H : Heap) (src : Nat) (hn : n ≤ H.nfree) :
    agreesBelow n H (deepCopy H src).1 ∧
    okSt n (deepCopy H src).1 (deepCopy H src).2 := by
  unfold deepCopy
  dsimp only []
  have hag1 : agreesBelow n H (bumpN (writeJ H H.nfree
      (readJ H (readA H src).attrsRef)) 1) :=
    agreesBelow_trans (agreesBelow_writeJ H _ hn) (agreesBelow_bumpN n _ 1)
  have hn1 : n ≤ (bumpN (writeJ H H.nfree
      (readJ H (readA H src).attrsRef)) 1).nfree := by
    show n ≤ H.nfree + 1
    omega
  obtain ⟨hag2, hn2, hmono, hrefs⟩ :=
    copyCoords_frame n (readA H src).coords _ hn1
  obtain ⟨hag3, hok3⟩ := alloc_writeA_okSt n _
    { name := (readA H src).name,
      dims := (readA H src).dims,
      shape := (readA H src).shape,
      coords := (copyCoords (bumpN (writeJ H H.nfree
        (readJ H (readA H src).attrsRef)) 1) (readA H src).coords).2,
      attrsRef := H.nfree }
    hn2 (by show n ≤ H.nfree; exact hn) (by intro p hp; exact hrefs p hp)
  exact ⟨agreesBelow_trans hag1 (agreesBelow_trans hag2 hag3), hok3⟩

/-! ## Lemmas for claim C8: the pipeline writes only copy-owned cells -/

theorem hname_frame (n : Nat) (H : Heap) (nd : Nat) (pfx : String)
    (hok : okSt n H nd) :
    agreesBelow n H (hname_step H nd pfx).1 ∧
    okSt n (hname_step H nd pfx).1 (hname_step H nd pfx).2.1 := by
  obtain ⟨h1, h2, h3, h4⟩ := hok
  unfold hname_step
  dsimp only []
  split
  · obtain ⟨hag, hok2⟩ := alloc_writeA_okSt n
      (writeJ H (readA H nd).attrsRef
        { readJ H (readA H nd).attrsRef with nameAttr := none })
      { readA H nd with name := (handle_dataarray_name _ pfx).2 }
      h1 h3 h4
    exact ⟨agreesBelow_trans (agreesBelow_writeJ H _ h3) hag, hok2⟩
  · exact ⟨agreesBelow_refl n H, h1, h2, h3, h4⟩

theorem hremove_frame (n : Nat) (H : Heap) (nd : Nat) (hok : okSt n H nd) :
    agreesBelow n H (hremove_satpy H nd) ∧ okSt n (hremove_satpy H nd) nd := by
  obtain ⟨h1, h2, h3, h4⟩ := hok
  exact ⟨agreesBelow_writeJ H _ h3, h1, h2, h3, h4⟩

theorem htime_frame (n : Nat) (H : Heap) (nd : Nat) (epoch : String)
    (hok : okSt n H nd) :
    agreesBelow n H (hencode_time H nd epoch).1 ∧
    okSt n (hencode_time H nd epoch).1 (hencode_time H nd epoch).2 := by
  obtain ⟨h1, h2, h3, h4⟩ := hok
  unfold hencode_time
  dsimp only []
  split
  · exact ⟨agreesBelow_refl n H, h1, h2, h3, h4⟩
  · rename_i rc hrc
    obtain ⟨hca, hce⟩ := h4 _ (lookup_mem hrc)
    have hag2 : agreesBelow n H (writeS (writeS H rc.encRef
        (dictSet (readS H rc.encRef) "units" epoch)) rc.attrsRef
        (eraseKey (dictSet (readS (writeS H rc.encRef
          (dictSet (readS H rc.encRef) "units" epoch)) rc.attrsRef)
          "standard_name" "time") "bounds")) :=
      agreesBelow_trans (agreesBelow_writeS H _ hce)
        (agreesBelow_writeS _ _ hca)
    split
    · obtain ⟨hag3, hok3⟩ := alloc_writeA_okSt n
        (writeS (writeS H rc.encRef (dictSet (readS H rc.encRef) "units"
          epoch)) rc.attrsRef (eraseKey (dictSet (readS (writeS H rc.encRef
            (dictSet (readS H rc.encRef) "units" epoch)) rc.attrsRef)
            "standard_name" "time") "bounds"))
        { readA H nd with
          dims := "time" :: (readA H nd).dims,
          shape := 1 :: (readA H nd).shape }
        (by exact h1) h3 h4
      exact ⟨agreesBelow_trans hag2 hag3, hok3⟩
    · exact ⟨hag2, h1, h2, h3, h4⟩

theorem hsetCoordStd_frame (n : Nat) (H : Heap) (o : AObj)
    (c sn un : String)
    (hC : ∀ p ∈ o.coords, n ≤ p.2.attrsRef ∧ n ≤ p.2.encRef) :
    agreesBelow n H (hsetCoordStd H o c sn un) ∧
    (hsetCoordStd H o c sn un).nfree = H.nfree ∧
    (hsetCoordStd H o c sn un).ah = H.ah := by
  unfold hsetCoordStd
  split
  · exact ⟨agreesBelow_refl n H, rfl, rfl⟩
  · rename_i rc hrc
    exact ⟨agreesBelow_writeS H _ (hC _ (lookup_mem hrc)).1, rfl, rfl⟩

theorem hcoords_frame (n : Nat) (H : Heap) (nd : Nat) (hok : okSt n H nd) :
    agreesBelow n H (hencode_coords H nd).1 ∧
    ∀ nd4, (hencode_coords H nd).2 = Except.ok nd4 →
      okSt n (hencode_coords H nd).1 nd4 := by
  obtain ⟨h1, h2, h3, h4⟩ := hok
  unfold hencode_coords
  dsimp only []
  split
  · split
    · exact ⟨agreesBelow_refl n H, fun nd4 h => Except.noConfusion h⟩
    · rename_i pj heq
      have hs1 : agreesBelow n H (if pj = true then
            hsetCoordStd (hsetCoordStd H (readA H nd) "x"
              "projection_x_coordinate" "m") (readA H nd) "y"
              "projection_y_coordinate" "m"
          else
            hsetCoordStd (hsetCoordStd H (readA H nd) "x" "longitude"
              "degrees_east") (readA H nd) "y" "latitude"
              "degrees_north") ∧
          (if pj = true then
            hsetCoordStd (hsetCoordStd H (readA H nd) "x"
              "projection_x_coordinate" "m") (readA H nd) "y"
              "projection_y_coordinate" "m"
          else
            hsetCoordStd (hsetCoordStd H (readA H nd) "x" "longitude"
              "degrees_east") (readA H nd) "y" "latitude"
              "degrees_north").nfree = H.nfree := by
        cases pj with
        | true =>
          rw [if_pos rfl]
          obtain ⟨ha1, hf1, _⟩ := hsetCoordStd_frame n H (readA H nd) "x"
            "projection_x_coordinate" "m" h4
          obtain ⟨ha2, hf2, _⟩ := hsetCoordStd_frame n _ (readA H nd) "y"
            "projection_y_coordinate" "m" h4
          exact ⟨agreesBelow_trans ha1 ha2, hf2.trans hf1⟩
        | false =>
          rw [if_neg (by decide)]
          obtain ⟨ha1, hf1, _⟩ := hsetCoordStd_frame n H (readA H nd) "x"
            "longitude" "degrees_east" h4
          obtain ⟨ha2, hf2, _⟩ := hsetCoordStd_frame n _ (readA H nd) "y"
            "latitude" "degrees_north" h4
          exact ⟨agreesBelow_trans ha1 ha2, hf2.trans hf1⟩
      obtain ⟨hsag, hsnf⟩ := hs1
      obtain ⟨hag3, hok3⟩ := alloc_writeA_okSt n _
        { readA H nd with coords := eraseKey (readA H nd).coords "crs" }
        (by rw [hsnf]; exact h1) h3
        (fun p hp => h4 p (List.mem_of_mem_filter hp))
      constructor
      · exact agreesBelow_trans hsag hag3
      · intro nd4 heq
        cases heq
        exact hok3
  · exact ⟨agreesBelow_refl n H, fun nd4 heq => by cases heq; exact
      ⟨h1, h2, h3, h4⟩⟩

theorem hpop_frame (n : Nat) (H : Heap) (nd : Nat) (k : String)
    (hok : okSt n H nd) :
    agreesBelow n H (hpopAttrKey H nd k) ∧ okSt n (hpopAttrKey H nd k) nd := by
  obtain ⟨h1, h2, h3, h4⟩ := hok
  exact ⟨agreesBelow_writeJ H _ h3, h1, h2, h3, h4⟩

theorem hpopFold_frame (n : Nat) (l : List String) (H : Heap) (nd : Nat)
    (hok : okSt n H nd) :
    agreesBelow n H (l.foldl (fun h k => hpopAttrKey h nd k) H) ∧
    okSt n (l.foldl (fun h k => hpopAttrKey h nd k) H) nd := by
  induction l generalizing H with
  | nil => exact ⟨agreesBelow_refl n H, hok⟩
  | cons k t ih =>
    obtain ⟨hag1, hok1⟩ := hpop_frame n H nd k hok
    obtain ⟨hag2, hok2⟩ := ih (hpopAttrKey H nd k) hok1
    exact ⟨agreesBelow_trans hag1 hag2, hok2⟩

theorem hjoin_frame (n : Nat) (H : Heap) (nd : Nat) (hok : okSt n H nd) :
    agreesBelow n H (hancillary_join H nd) ∧
    okSt n (hancillary_join H nd) nd := by
  obtain ⟨h1, h2, h3, h4⟩ := hok
  unfold hancillary_join
  dsimp only []
  split <;>
    first
      | exact ⟨agreesBelow_writeJ H _ h3, h1, h2, h3, h4⟩
      | exact ⟨agreesBelow_refl n H, h1, h2, h3, h4⟩

theorem hcleanup_frame (n : Nat) (H : Heap) (nd : Nat) (hok : okSt n H nd) :
    agreesBelow n H (hcleanup H nd) ∧ okSt n (hcleanup H nd) nd := by
  obtain ⟨h1, h2, h3, h4⟩ := hok
  exact ⟨agreesBelow_writeJ H _ h3, h1, h2, h3, h4⟩

theorem hlong_frame (n : Nat) (H : Heap) (nd : Nat) (hok : okSt n H nd) :
    agreesBelow n H (hlong_name H nd) ∧ okSt n (hlong_name H nd) nd := by
  obtain ⟨h1, h2, h3, h4⟩ := hok
  unfold hlong_name
  dsimp only []
  split
  · exact ⟨agreesBelow_writeJ H _ h3, h1, h2, h3, h4⟩
  · exact ⟨agreesBelow_refl n H, h1, h2, h3, h4⟩

theorem hprereq_frame (n : Nat) (H : Heap) (nd : Nat) (hok : okSt n H nd) :
    agreesBelow n H (hprereq H nd) ∧ okSt n (hprereq H nd) nd := by
  obtain ⟨h1, h2, h3, h4⟩ := hok
  unfold hprereq
  dsimp only []
  split <;>
    first
      | exact ⟨agreesBelow_writeJ H _ h3, h1, h2, h3, h4⟩
      | exact ⟨agreesBelow_refl n H, h1, h2, h3, h4⟩

theorem horig_frame (n : Nat) (H : Heap) (nd : Nat) (ion : Bool)
    (pfx : String) (r : Option (String × String)) (hok : okSt n H nd) :
    agreesBelow n H (horig_name H nd ion pfx r) ∧
    okSt n (horig_name H nd ion pfx r) nd := by
  obtain ⟨h1, h2, h3, h4⟩ := hok
  unfold horig_name
  split
  · split
    · exact ⟨agreesBelow_writeJ H _ h3, h1, h2, h3, h4⟩
    · exact ⟨agreesBelow_refl n H, h1, h2, h3, h4⟩
  · exact ⟨agreesBelow_refl n H, h1, h2, h3, h4⟩

theorem rebind_attrs_okSt (n : Nat) (H : Heap) (nd : Nat) (A : HAttrs)
    (h1 : n ≤ H.nfree) (h2 : n ≤ nd) (h3 : n ≤ (readA H nd).attrsRef)
    (h4 : ∀ p ∈ (readA H nd).coords, n ≤ p.2.attrsRef ∧ n ≤ p.2.encRef) :
    agreesBelow n H (writeA (bumpN (writeJ H H.nfree A) 1) nd
      { readA H nd with attrsRef := H.nfree }) ∧
    okSt n (writeA (bumpN (writeJ H H.nfree A) 1) nd
      { readA H nd with attrsRef := H.nfree }) nd := by
  have hra : readA (writeA (bumpN (writeJ H H.nfree A) 1) nd
      { readA H nd with attrsRef := H.nfree })
      nd = { readA H nd with attrsRef := H.nfree } :=
    readA_writeA_self _ nd _
  refine ⟨agreesBelow_trans (agreesBelow_writeJ H A h1)
    (agreesBelow_trans (agreesBelow_bumpN n _ 1)
      (agreesBelow_writeA _ _ h2)), ?_, h2, ?_, ?_⟩
  · show n ≤ H.nfree + 1
    omega
  · rw [hra]
    exact h1
  · rw [hra]
    exact h4

theorem hflatten_frame (n : Nat) (H : Heap) (nd : Nat) (fl : Bool)
    (hok : okSt n H nd) :
    agreesBelow n H (hflatten H nd fl) ∧ okSt n (hflatten H nd fl) nd := by
  obtain ⟨h1, h2, h3, h4⟩ := hok
  unfold hflatten
  split
  · exact rebind_attrs_okSt n H nd _ h1 h2 h3 h4
  · exact ⟨agreesBelow_refl n H, h1, h2, h3, h4⟩

theorem hencode_attrs_frame (n : Nat) (H : Heap) (nd : Nat)
    (hok : okSt n H nd) :
    agreesBelow n H (hencode_attrs H nd) ∧ okSt n (hencode_attrs H nd) nd := by
  obtain ⟨h1, h2, h3, h4⟩ := hok
  exact rebind_attrs_okSt n H nd _ h1 h2 h3 h4

theorem hda2cf_frame (H : Heap) (daRef : Nat) (epoch : String) (fl : Bool)
    (ex : List String) (ion : Bool) (pfx : String) :
    agreesBelow H.nfree H (hda2cf H daRef epoch fl ex ion pfx).1 ∧
    ∀ nd, (hda2cf H daRef epoch fl ex ion pfx).2 = Except.ok nd →
      H.nfree ≤ nd := by
  obtain ⟨hagc, hokc⟩ := deepCopy_frame H.nfree H daRef (Nat.le_refl _)
  obtain ⟨hag1, hok1⟩ := hname_frame H.nfree (deepCopy H daRef).1
    (deepCopy H daRef).2 pfx hokc
  obtain ⟨hag2, hok2⟩ := hremove_frame H.nfree _ _ hok1
  obtain ⟨hag3, hok3⟩ := htime_frame H.nfree _ _ epoch hok2
  obtain ⟨hag4, hok4⟩ := hcoords_frame H.nfree _ _ hok3
  unfold hda2cf
  dsimp only []
  split
  · rename_i e heq
    refine ⟨agreesBelow_trans hagc (agreesBelow_trans hag1
      (agreesBelow_trans hag2 (agreesBelow_trans hag3 hag4))), ?_⟩
    intro nd h
    exact Except.noConfusion h
  · rename_i nd4 heq
    have hok4' := hok4 nd4 heq
    obtain ⟨hag5, hok5⟩ := hpopFold_frame H.nfree ("area" :: ex) _ nd4 hok4'
    obtain ⟨hag6, hok6⟩ := hjoin_frame H.nfree _ nd4 hok5
    obtain ⟨hag7, hok7⟩ := hcleanup_frame H.nfree _ nd4 hok6
    obtain ⟨hag8, hok8⟩ := hlong_frame H.nfree _ nd4 hok7
    obtain ⟨hag9, hok9⟩ := hprereq_frame H.nfree _ nd4 hok8
    obtain ⟨hag10, hok10⟩ := horig_frame H.nfree _ nd4 ion pfx
      (hname_step (deepCopy H daRef).1 (deepCopy H daRef).2 pfx).2.2 hok9
    obtain ⟨hag11, hok11⟩ := hflatten_frame H.nfree _ nd4 fl hok10
    obtain ⟨hag12, hok12⟩ := hencode_attrs_frame H.nfree _ nd4 hok11
    refine ⟨agreesBelow_trans hagc (agreesBelow_trans hag1
      (agreesBelow_trans hag2 (agreesBelow_trans hag3
        (agreesBelow_trans hag4 (agreesBelow_trans hag5
          (agreesBelow_trans hag6 (agreesBelow_trans hag7
            (agreesBelow_trans hag8 (agreesBelow_trans hag9
              (agreesBelow_trans hag10 (agreesBelow_trans hag11
                hag12))))))))))), ?_⟩
    intro nd h
    cases h
    exact hok5.2.1

theorem viewArr_agrees (n : Nat) (H H2 : Heap) (hag : agreesBelow n H H2)
    (a : Nat) (ha : a < n) (hA : (readA H a).attrsRef < n)
    (hC : ∀ p ∈ (readA H a).coords, p.2.attrsRef < n ∧ p.2.encRef < n) :
    viewArr H2 a = viewArr H a := by
  unfold viewArr viewObj
  rw [hag.1 a ha]
  have hattrs : readJ H2 (readA H a).attrsRef =
      readJ H (readA H a).attrsRef := hag.2.1 _ hA
  have hcoords : (readA H a).coords.map (fun p => (p.1, viewCoord H2 p.2)) =
      (readA H a).coords.map (fun p => (p.1, viewCoord H p.2)) := by
    apply List.map_congr_left
    intro p hp
    unfold viewCoord
    rw [hag.2.2 _ (hC p hp).1, hag.2.2 _ (hC p hp).2]
  rw [hattrs, hcoords]

/-- Claim C8: for every heap, caller array object and option
combination, da2cf returns a new object and never mutates the caller
array: after the call the content observable from the caller reference,
the name, dimensions, shape, coordinates with their attrs and encodings,
and the attribute dict with its nested values, is exactly what it was
before, because the deep copy allocates fresh cells and every mutating
statement writes a cell the copy owns. The hypotheses say the caller
array and its dicts are allocated, below the free mark. -/
theorem da2cf_no_mutation (H : Heap) (daRef : Nat) (epoch : String)
    (fl : Bool) (ex : List String) (ion : Bool) (pfx : String)
    (hda : daRef < H.nfree)
    (hA : (readA H daRef).attrsRef < H.nfree)
    (hC : ∀ p ∈ (readA H daRef).coords,
      p.2.attrsRef < H.nfree ∧ p.2.encRef < H.nfree) :
    viewArr (hda2cf H daRef epoch fl ex ion pfx).1 daRef = viewArr H daRef ∧
    ∀ nd, (hda2cf H daRef epoch fl ex ion pfx).2 = Except.ok nd →
      nd ≠ daRef := by
  have hf := hda2cf_frame H daRef epoch fl ex ion pfx
  refine ⟨viewArr_agrees H.nfree H _ hf.1 daRef hda hA hC, ?_⟩
  intro nd h
  have := hf.2 nd h
  omega

/-- Claim C8 witness: on a one-array heap holding the dataset named 1,
the call leaves the caller content untouched and returns a different
object. -/
theorem da2cf_no_mutation_witness :
    0 < sampleHeap.nfree ∧
    (readA sampleHeap 0).attrsRef < sampleHeap.nfree ∧
    (∀ p ∈ (readA sampleHeap 0).coords,
      p.2.attrsRef < sampleHeap.nfree ∧ p.2.encRef < sampleHeap.nfree) ∧
    (viewArr (hda2cf sampleHeap 0 "seconds since 1970-01-01" false [] true
        "CHANNEL_").1 0 = viewArr sampleHeap 0 ∧
      ∀ nd, (hda2cf sampleHeap 0 "seconds since 1970-01-01" false [] true
        "CHANNEL_").2 = Except.ok nd → nd ≠ 0) :=
  ⟨by decide, by decide, by decide,
    da2cf_no_mutation sampleHeap 0 "seconds since 1970-01-01" false [] true
      "CHANNEL_" (by decide) (by decide) (by decide)⟩

end CfWriter
